import Mathlib

/-!
# tinyqr: a verification development for `src/qr.c`

Shallow embedding of `parseMessage` and `reedSolomon`.

Conventions of the embedding.

* A C byte buffer (`message`, `errorcode`, `interleaved_output`, `generator`, the
  tables `a`, `a_inv`, the parameter row) is a function `Nat → Nat` from index to
  byte value; a store is `setAt`.  Buffers are unbounded in the model, and the
  stores to `message` are also recorded (field `stores`), so that statements about
  the indices a loop writes can be made.
* `freetext` is the list of the text bytes (`0 .. 255`, the bit pattern of each
  `char`); `cstr` reads it as the NUL-terminated C string.
* The module matrix `image` is a function of (row, column); its accesses are
  bounds-checked against `max_pixels` and a violated bound makes the walk
  return `none`.
* The walk's `y`, `x`, `dir`, `i`, `interleaved_index` are `Int`, as the code
  compares them with `0` and lets them go to `-1`.
* Data tables of `qr.h` (`a`, `a_inv`, `codeword_parameters`, `gen_poly`,
  `gen_offset`, `mask_info`) are parameters.
-/

namespace TinyQR

/-! ## Buffers -/

/-- The store `buf[k] = v`. -/
def setAt (buf : Nat → Nat) (k v : Nat) : Nat → Nat :=
  fun j => if j = k then v else buf j

/-- The loop `for (i = lo; i < hi; i++) body`, on a state of type `σ`. -/
def forLoop {σ : Type} (lo hi : Nat) (body : Nat → σ → σ) (s : σ) : σ :=
  (List.range' lo (hi - lo)).foldl (fun st i => body i st) s

/-- A buffer given by its first bytes, zero beyond them. -/
def ofList (l : List Nat) : Nat → Nat :=
  fun i => l.getD i 0

/-- The C string `freetext`: the text bytes followed by the terminating NUL. -/
def cstr (freetext : List Nat) (i : Nat) : Nat :=
  (freetext ++ [0]).getD i 0

/-- The bytes of a C text: none is the NUL and each fits an unsigned char, so that
`strlen` is the length of the list. -/
def IsText (freetext : List Nat) : Prop :=
  ∀ b ∈ freetext, 0 < b ∧ b < 256

instance (freetext : List Nat) : Decidable (IsText freetext) := by
  unfold IsText; infer_instance

/-! ## Message formatter (`qr.c` lines 98-126) -/

/-- The formatter's local state: the `message` buffer, `message_index`, and the
record of the indices stored to so far (most recent first). -/
structure Formatter where
  message : Nat → Nat
  message_index : Nat
  stores : List Nat

/-- The statement `message[message_index++] = v` (`v` truncated to an unsigned char). -/
def Formatter.push (s : Formatter) (v : Nat) : Formatter :=
  { message := setAt s.message s.message_index (v % 256)
    message_index := s.message_index + 1
    stores := s.message_index :: s.stores }

/-- The 16-bit pattern of `int16_t message_length = strlen(freetext)`. -/
def message_length (freetext : List Nat) : Nat :=
  freetext.length % 65536

/-- Number of iterations of `for (int16_t i=0; i < message_length; i++)`: none when
the `int16_t` is negative. -/
def frameCount (freetext : List Nat) : Nat :=
  if message_length freetext < 32768 then message_length freetext else 0

/-- Lines 109-112: mode indicator, character count and the high nibble of the
first text byte. -/
def frameHeader (freetext : List Nat) : Formatter :=
  let ml := message_length freetext
  let s0 : Formatter :=
    { message := setAt (fun _ => 0) 0 ((64 ||| ((ml &&& 240) >>> 4)) % 256)
      message_index := 1
      stores := [0] }
  s0.push (((ml &&& 15) <<< 4) ||| ((cstr freetext 0 &&& 240) >>> 4))

/-- Lines 114-115: `n` further iterations of the nibble-packing loop, from `i`. -/
def frameLoop (freetext : List Nat) : Nat → Nat → Formatter → Formatter
  | 0, _, s => s
  | n + 1, i, s =>
    frameLoop freetext n (i + 1)
      (s.push (((cstr freetext i &&& 15) <<< 4) ||| ((cstr freetext (i + 1) &&& 240) >>> 4)))

/-- Lines 109-115: the framing step. -/
def frame (freetext : List Nat) : Formatter :=
  frameLoop freetext (frameCount freetext) 0 (frameHeader freetext)

/-- `uint16_t needed_pad_bytes = 76 - message_index`. -/
def needed_pad_bytes (message_index : Nat) : Nat :=
  (((76 : Int) - (message_index : Int)) % 65536).toNat

/-- The table `pad[] = {236, 17}`. -/
def pad (pad_index : Nat) : Nat :=
  if pad_index = 0 then 236 else 17

/-- Lines 122-125: `n` further iterations of the padding loop. -/
def padLoop : Nat → Nat → Formatter → Formatter
  | 0, _, s => s
  | n + 1, pad_index, s => padLoop n (pad_index ^^^ 1) (s.push (pad pad_index))

/-- Lines 109-126: framing followed by padding. -/
def formatMessage (freetext : List Nat) : Formatter :=
  let s := frame freetext
  padLoop (needed_pad_bytes s.message_index) 0 s

/-! ## Bit strings (the vocabulary of the framing claims) -/

/-- The four high bits of a byte, most significant first. -/
def hi4 (b : Nat) : List Bool :=
  [b.testBit 7, b.testBit 6, b.testBit 5, b.testBit 4]

/-- The four low bits of a byte, most significant first. -/
def lo4 (b : Nat) : List Bool :=
  [b.testBit 3, b.testBit 2, b.testBit 1, b.testBit 0]

/-- The eight bits of a byte, most significant first. -/
def bits8 (b : Nat) : List Bool :=
  hi4 b ++ lo4 b

/-- A byte sequence read as a bit string, high bit first. -/
def bitString (bytes : List Nat) : List Bool :=
  bytes.flatMap bits8

/-- The first `n` bytes of a buffer. -/
def prefixBytes (buf : Nat → Nat) (n : Nat) : List Nat :=
  (List.range n).map buf

/-- The value of a bit string read as a binary number, high bit first. -/
def bitsValue (bs : List Bool) : Nat :=
  bs.foldl (fun acc b => 2 * acc + (if b then 1 else 0)) 0

/-- Read `n` bytes of eight bits each off the front of a bit string. -/
def readBytes : Nat → List Bool → Option (List Nat × List Bool)
  | 0, bs => some ([], bs)
  | n + 1, bs =>
    if 8 ≤ bs.length then
      match readBytes n (bs.drop 8) with
      | some (r, rest) => some (bitsValue (bs.take 8) :: r, rest)
      | none => none
    else none

/-- A byte-mode decoder for the framed bit string: the mode nibble must be `0100`,
the next eight bits are the character count, then that many bytes follow.  Returns
the count, the bytes, and the bits left over. -/
def decodeFrame (bs : List Bool) : Option (Nat × List Nat × List Bool) :=
  if bs.take 4 = [false, true, false, false] ∧ 12 ≤ bs.length then
    let n := bitsValue ((bs.drop 4).take 8)
    match readBytes n (bs.drop 12) with
    | some (r, rest) => some (n, r, rest)
    | none => none
  else none

/-! ## Reed-Solomon (`qr.c` lines 59-88)

`a` and `a_inv` are the antilog and log tables of `qr.h` (tables of unsigned chars),
`generator` is the array the caller passes.  The buffer `errorcode` is the list of its
bytes, as long as the array the caller declared (30 bytes in `parseMessage`); `ec.getD i 0`
is the load `errorcode[i]` and `ec.set i v` the store `errorcode[i] = v`. -/

/-- Lines 71-76: the division step for a non-zero leading coefficient. -/
def rsReduce (a : Nat → Nat) (error_codewords lead_term : Nat) (generator : Nat → Nat)
    (errorcode : List Nat) : List Nat :=
  forLoop 1 (error_codewords + 1) (fun i ec =>
    let temp_value := if i < error_codewords then ec.getD i 0 else 0
    ec.set (i - 1) (temp_value ^^^ a ((generator (i - 1) + lead_term) % 255))) errorcode

/-- Lines 78-79 (with `lo = 1`, `hi = error_codewords + 1`) and lines 82-84 (with
`lo = error_codewords + 1`, `hi = data_codewords + 1`): shift the buffer left. -/
def rsShift (lo hi : Nat) (errorcode : List Nat) : List Nat :=
  forLoop lo hi (fun i ec => ec.set (i - 1) (ec.getD i 0)) errorcode

/-- Lines 68-84: one iteration of the loop over `j`. -/
def rsStep (a a_inv : Nat → Nat) (data_codewords error_codewords : Nat)
    (generator : Nat → Nat) (errorcode : List Nat) : List Nat :=
  let lead_term := a_inv (errorcode.getD 0 0)
  let ec :=
    if errorcode.getD 0 0 ≠ 0 then rsReduce a error_codewords lead_term generator errorcode
    else rsShift 1 (error_codewords + 1) errorcode
  rsShift (error_codewords + 1) (data_codewords + 1) ec

/-- Lines 60-64: load the data codewords and zero-extend up to `error_codewords`. -/
def rsInit (data_codewords data_offset : Nat) (message : Nat → Nat) (error_codewords : Nat)
    (errorcode : List Nat) : List Nat :=
  let ec := forLoop 0 data_codewords (fun i ec => ec.set i (message (i + data_offset))) errorcode
  forLoop data_codewords error_codewords (fun i ec => ec.set i 0) ec

/-- The function `reedSolomon`: the contents of `errorcode` on return. -/
def reedSolomon (a a_inv : Nat → Nat) (data_codewords data_offset : Nat) (message : Nat → Nat)
    (error_codewords : Nat) (errorcode : List Nat) (generator : Nat → Nat) : List Nat :=
  forLoop 1 (data_codewords + 1)
    (fun _ ec => rsStep a a_inv data_codewords error_codewords generator ec)
    (rsInit data_codewords data_offset message error_codewords errorcode)

/-! ### The accesses of `reedSolomon` to its buffer -/

/-- The indices of `errorcode` that lines 60-64 write, in order. -/
def rsInitAccesses (data_codewords error_codewords : Nat) : List Nat :=
  List.range' 0 data_codewords ++
    List.range' data_codewords (error_codewords - data_codewords)

/-- The indices of `errorcode` that one iteration of the loop over `j` (lines 67-84) reads
or writes, in order: `errorcode[0]` for `lead_term` and for the test; in the non-zero
branch, for `i = 1 .. error_codewords`, the load of `errorcode[i]` when
`i < error_codewords` and the store to `errorcode[i-1]`; in the zero branch the load of
`errorcode[i]` and the store to `errorcode[i-1]`; the same for
`i = error_codewords + 1 .. data_codewords`. -/
def rsStepAccesses (data_codewords error_codewords : Nat) (errorcode : List Nat) : List Nat :=
  [0, 0] ++
    (if errorcode.getD 0 0 ≠ 0 then
      (List.range' 1 error_codewords).flatMap
        (fun i => (if i < error_codewords then [i] else []) ++ [i - 1])
    else (List.range' 1 error_codewords).flatMap (fun i => [i, i - 1])) ++
    (List.range' (error_codewords + 1) (data_codewords - error_codewords)).flatMap
      (fun i => [i, i - 1])

/-- The indices of `errorcode` that a call of `reedSolomon` reads or writes, in order. -/
def reedSolomonAccesses (a a_inv : Nat → Nat) (data_codewords data_offset : Nat)
    (message : Nat → Nat) (error_codewords : Nat) (errorcode : List Nat)
    (generator : Nat → Nat) : List Nat :=
  rsInitAccesses data_codewords error_codewords ++
    (forLoop 1 (data_codewords + 1)
      (fun _ (st : List Nat × List Nat) =>
        (rsStep a a_inv data_codewords error_codewords generator st.1,
          st.2 ++ rsStepAccesses data_codewords error_codewords st.1))
      (rsInit data_codewords data_offset message error_codewords errorcode, [])).2

/-! ### GF(256) and polynomials over it (the vocabulary of the Reed-Solomon claims)

The field is `F₂[x] / (x⁸ + x⁴ + x³ + x² + 1)`, the QR field: a byte is the polynomial
whose coefficients are its bits, addition is `^^^`, and `α` is the byte `2`. -/

/-- Multiplication by `α`: shift left and reduce by `0x11D = 285`. -/
def xtime (x : Nat) : Nat :=
  if 2 * x < 256 then 2 * x else (2 * x) ^^^ 285

/-- The power `α ^ e`. -/
def alphaPow : Nat → Nat
  | 0 => 1
  | e + 1 => xtime (alphaPow e)

/-- Search for the exponent of `c`: walk the powers `α ^ e`, `α ^ (e + 1)`, ... -/
def alphaLogAux : Nat → Nat → Nat → Nat → Nat
  | 0, e, _, _ => e
  | fuel + 1, e, cur, c => if cur = c then e else alphaLogAux fuel (e + 1) (xtime cur) c

/-- The discrete logarithm to base `α` of a non-zero byte. -/
def alphaLog (c : Nat) : Nat :=
  alphaLogAux 255 0 1 c

/-- The first `k` bits of `y` times `x`: `x * y = Σ y_j * (α ^ j * x)`. -/
def gfMulAux : Nat → Nat → Nat → Nat
  | 0, _, _ => 0
  | k + 1, x, y => (if y % 2 = 1 then x else 0) ^^^ gfMulAux k (xtime x) (y / 2)

/-- The product of two bytes in GF(256). -/
def gfMul (x y : Nat) : Nat :=
  gfMulAux 8 x y

/-- Coefficient lists are written highest degree first.  The sum of two polynomials
given by coefficient lists of the same length. -/
def polyAdd (p q : List Nat) : List Nat :=
  List.zipWith (fun x y => x ^^^ y) p q

/-- The polynomial `c * p`. -/
def polyScale (c : Nat) (p : List Nat) : List Nat :=
  p.map (gfMul c)

/-- The product `q * g` as a coefficient list of length `q.length + g.length - 1`:
`(c x^n + q') g = c g x^n + q' g`. -/
def polyMul : List Nat → List Nat → List Nat
  | [], g => List.replicate (g.length - 1) 0
  | c :: q, g => polyAdd (polyScale c g ++ List.replicate q.length 0) (0 :: polyMul q g)

/-- The monic polynomial of degree `E` whose non-leading coefficients have the exponents
`generator 0, ..., generator (E - 1)`, highest degree first. -/
def generatorPoly (generator : Nat → Nat) (E : Nat) : List Nat :=
  1 :: (List.range E).map (fun i => alphaPow (generator i))

/-- `r` (a list of `g.length - 1` bytes, so a polynomial over GF(256) of degree below
that of `g`) is the remainder of the polynomial `p` on division by the monic `g`: for
some quotient `q` over GF(256), `p = q * g + r`. -/
def IsRemainder (p g r : List Nat) : Prop :=
  r.length + 1 = g.length ∧ (∀ c ∈ r, c < 256) ∧
    ∃ q : List Nat, q.length + r.length = p.length ∧ (∀ c ∈ q, c < 256) ∧
      p = polyAdd (polyMul q g) (List.replicate q.length 0 ++ r)

/-- One step of the long division of a window `c :: w` by the monic polynomial with
non-leading coefficients `g`: subtract `c * g` and move the window on by one
coefficient, a zero coming in at the low end. -/
def divStep (g : List Nat) : List Nat → List Nat
  | [] => []
  | c :: w => polyAdd (w ++ [0]) (polyScale c g)

/-! ## Codeword interleaver (`qr.c` lines 130-169)

`mp` is the parameter row `message_parameters`: `mp 0` error codewords per block,
`mp 1` blocks of `mp 2` data codewords, then `mp 3` blocks of `mp 4`; `mp 5` the
remainder bits; `mp 6 ..` the alignment centres.

The arrays are `message[244]`, `errorcode[30]` and `interleaved_output[532]`, the
offsets are `int16_t`.  The model computes on `Nat` and carries a flag `ok`: it is
cleared by an access outside one of these arrays, by the negative index
`gen_offset[message_parameters[0] - 13]`, and by an `int16_t` that would leave
`0 .. 32767`.  While `ok` holds, the `Nat` arithmetic is that of the C code; once it is
cleared the C code has no defined behaviour and the rest of the state means nothing. -/

/-- Which of the two store statements made a store: line 151 or line 161. -/
inductive StoreKind
  | data
  | error
  deriving DecidableEq, Repr

/-- One executed store to `interleaved_output`, with the values of `block_number`, the
loop counter `i` and `interleaved_output_offset` at that moment, and the byte stored. -/
structure Store where
  kind : StoreKind
  block : Nat
  i : Nat
  index : Nat
  value : Nat
  deriving DecidableEq, Repr

/-- The state of the two copy loops of a block: the output buffer, the running
`interleaved_output_offset`, the record of executed stores (most recent first), and the
flag `ok`. -/
structure OutCursor where
  interleaved_output : Nat → Nat
  interleaved_output_offset : Nat
  trace : List Store
  ok : Bool

/-- The statement `interleaved_output[interleaved_output_offset] = v`; the array has 532
bytes. -/
def OutCursor.store (c : OutCursor) (kind : StoreKind) (block i v : Nat) : OutCursor :=
  { c with
    interleaved_output := setAt c.interleaved_output c.interleaved_output_offset v
    trace := ⟨kind, block, i, c.interleaved_output_offset, v⟩ :: c.trace
    ok := c.ok && decide (c.interleaved_output_offset < 532) }

/-- The statement `interleaved_output_offset += n` on the `int16_t`. -/
def OutCursor.advance (c : OutCursor) (n : Nat) : OutCursor :=
  { c with
    interleaved_output_offset := c.interleaved_output_offset + n
    ok := c.ok && decide (c.interleaved_output_offset + n < 32768) }

/-- A load from an array of `size` bytes at `index`. -/
def OutCursor.load (c : OutCursor) (index size : Nat) : OutCursor :=
  { c with ok := c.ok && decide (index < size) }

/-- The state of the loop over the blocks. -/
structure Interleaver where
  errorcode : List Nat
  interleaved_output : Nat → Nat
  message_offset : Nat
  block_number : Nat
  trace : List Store
  ok : Bool

/-- Lines 150-157: copy the data codewords of a block into the stream; `message` has 244
bytes. -/
def copyData (mp message : Nat → Nat) (block_number message_offset data_codewords : Nat)
    (c : OutCursor) : OutCursor :=
  forLoop 0 data_codewords (fun i c =>
    let c := c.load (i + message_offset) 244
    let c := c.store StoreKind.data block_number i (message (i + message_offset))
    let c := if i + 1 < mp 2 then c.advance (mp 1) else c
    if i + 1 < mp 4 then c.advance (mp 3) else c) c

/-- Lines 160-163: copy the error codewords of a block into the stream; `errorcode` has
30 bytes. -/
def copyError (total_blocks block_number error_codewords : Nat) (errorcode : List Nat)
    (c : OutCursor) : OutCursor :=
  forLoop 0 error_codewords (fun i c =>
    let c := c.load i 30
    let c := c.store StoreKind.error block_number i (errorcode.getD i 0)
    c.advance total_blocks) c

/-- Lines 144-166: the body of the loop over `blocks`.  The call of `reedSolomon` indexes
`gen_offset` with `message_parameters[0] - 13`, accesses `errorcode[30]` at the indices of
`reedSolomonAccesses`, and loads the same bytes of `message` as the data loop. -/
def interleaveBlock (a a_inv generator mp message : Nat → Nat) (data_codewords : Nat)
    (s : Interleaver) : Interleaver :=
  let error_codewords := mp 0
  let total_blocks := mp 1 + mp 3
  let ok := s.ok && decide (13 ≤ mp 0) &&
    (reedSolomonAccesses a a_inv data_codewords s.message_offset message error_codewords
      s.errorcode generator).all (fun k => decide (k < 30))
  let errorcode := reedSolomon a a_inv data_codewords s.message_offset message
    error_codewords s.errorcode generator
  let c := copyData mp message s.block_number s.message_offset data_codewords
    ⟨s.interleaved_output, s.block_number, s.trace, ok⟩
  let c := copyError total_blocks s.block_number error_codewords errorcode
    { c with
      interleaved_output_offset := mp 1 * mp 2 + mp 3 * mp 4 + s.block_number
      ok := c.ok && decide (mp 1 * mp 2 + mp 3 * mp 4 + s.block_number < 32768) }
  { errorcode := errorcode
    interleaved_output := c.interleaved_output
    message_offset := s.message_offset + data_codewords
    block_number := s.block_number + 1
    trace := c.trace
    ok := c.ok && decide (s.message_offset + data_codewords < 32768) &&
      decide (s.block_number + 1 < 32768) }

/-- Lines 132-138: the state before the first block. -/
def interleaveInit : Interleaver :=
  { errorcode := List.replicate 30 0
    interleaved_output := fun _ => 0
    message_offset := 0
    block_number := 0
    trace := []
    ok := true }

/-- Lines 139-169: the loops over `groups` and `blocks`. -/
def interleave (a a_inv generator mp message : Nat → Nat) : Interleaver :=
  forLoop 0 2 (fun groups s =>
    let num_blocks := mp (groups * 2 + 1)
    let data_codewords := mp (groups * 2 + 2)
    forLoop 0 num_blocks
      (fun _ st => interleaveBlock a a_inv generator mp message data_codewords st) s)
    interleaveInit

/-! ### Vocabulary of the interleaving claims -/

/-- The data-codeword count of every block, in block order. -/
def blockSizes (mp : Nat → Nat) : List Nat :=
  List.replicate (mp 1) (mp 2) ++ List.replicate (mp 3) (mp 4)

/-- Number of blocks, `B`. -/
def totalBlocks (mp : Nat → Nat) : Nat :=
  mp 1 + mp 3

/-- Number of data codewords, `D`. -/
def totalData (mp : Nat → Nat) : Nat :=
  mp 1 * mp 2 + mp 3 * mp 4

/-- Data-codeword count of block `b`. -/
def blockSize (mp : Nat → Nat) (b : Nat) : Nat :=
  (blockSizes mp).getD b 0

/-- Blocks are consecutive slices of the message: the offset of block `b`. -/
def blockOffset (mp : Nat → Nat) (b : Nat) : Nat :=
  ((blockSizes mp).take b).sum

/-- The contents of `errorcode` after the `reedSolomon` calls of the first `b` blocks. -/
def errorcodeAfter (a a_inv generator mp message : Nat → Nat) : Nat → List Nat
  | 0 => List.replicate 30 0
  | b + 1 =>
    reedSolomon a a_inv (blockSize mp b) (blockOffset mp b) message (mp 0)
      (errorcodeAfter a a_inv generator mp message b) generator

/-- The value of `interleaved_output_offset` when the data loop of block `block_number`
stores its byte `i` (lines 149-157): it starts at `block_number` and every earlier
iteration `k` added `mp 1` when `k + 1 < mp 2` and `mp 3` when `k + 1 < mp 4`. -/
def dataOffsetAt (mp : Nat → Nat) (block_number : Nat) : Nat → Nat
  | 0 => block_number
  | k + 1 =>
    let off := dataOffsetAt mp block_number k
    let off := if k + 1 < mp 2 then off + mp 1 else off
    if k + 1 < mp 4 then off + mp 3 else off

/-- The buffer that results from executing a sequence of stores, in order. -/
def replay (stores : List Store) (buf : Nat → Nat) : Nat → Nat :=
  stores.foldl (fun o s => setAt o s.index s.value) buf

/-- The stores a block makes, in program order, given the index of each data store:
first its data bytes, then its error codewords. -/
def blockStores (a a_inv generator mp message : Nat → Nat) (b : Nat) : List Store :=
  (List.range (blockSize mp b)).map
      (fun i => ⟨StoreKind.data, b, i, dataOffsetAt mp b i, message (i + blockOffset mp b)⟩) ++
    (List.range (mp 0)).map
      (fun i => ⟨StoreKind.error, b, i, totalData mp + b + i * totalBlocks mp,
        (errorcodeAfter a a_inv generator mp message (b + 1)).getD i 0⟩)

/-- The loop invariant of the loops over groups and blocks, after `b` blocks. -/
def InterleaveInv (a a_inv generator mp message : Nat → Nat) (b : Nat) (s : Interleaver) : Prop :=
  s.block_number = b ∧ s.message_offset = blockOffset mp b ∧
    s.errorcode = errorcodeAfter a a_inv generator mp message b ∧
    s.trace = ((List.range b).flatMap (blockStores a a_inv generator mp message)).reverse ∧
    s.interleaved_output =
      replay ((List.range b).flatMap (blockStores a a_inv generator mp message)) (fun _ => 0)

/-- The index the interleaving rule gives data byte `i` of block `b`: the number of
bytes `k < i` summed over the blocks having more than `k` data codewords, plus the number
of blocks before `b` having more than `i` data codewords. -/
def specDataIndex (mp : Nat → Nat) (b i : Nat) : Nat :=
  ((List.range i).map (fun k => (blockSizes mp).countP (fun d => k < d))).sum +
    ((blockSizes mp).take b).countP (fun d => i < d)

/-- The index the interleaving rule gives error codeword `i` of block `b`. -/
def specErrorIndex (mp : Nat → Nat) (b i : Nat) : Nat :=
  totalData mp + i * totalBlocks mp + b

/-- The parameter row fits the arrays of `parseMessage`: `13 ≤ E` (the index into
`gen_offset` is `E - 13`), `E < 30` and every block of fewer than 30 data codewords
(`reedSolomon` accesses `errorcode[30]` up to the index `max E d`), `D ≤ 244` (the
message), `D + E * B ≤ 532` (the stream). -/
def RowFits (mp : Nat → Nat) : Prop :=
  13 ≤ mp 0 ∧ mp 0 < 30 ∧ (mp 1 = 0 ∨ mp 2 < 30) ∧ (mp 3 = 0 ∨ mp 4 < 30) ∧
    totalData mp ≤ 244 ∧ totalData mp + mp 0 * totalBlocks mp ≤ 532

instance (mp : Nat → Nat) : Decidable (RowFits mp) := by
  unfold RowFits; infer_instance

/-- No block without data codewords comes before a block with data codewords: the first
group is empty, or its blocks hold data, or the second group holds no data. -/
def NoEmptyLeadingBlocks (mp : Nat → Nat) : Prop :=
  mp 1 = 0 ∨ 1 ≤ mp 2 ∨ mp 3 = 0 ∨ mp 4 = 0

instance (mp : Nat → Nat) : Decidable (NoEmptyLeadingBlocks mp) := by
  unfold NoEmptyLeadingBlocks; infer_instance

/-! ## Module matrix (`qr.c` lines 174-283)

A cell holds `0` (dark) or `255` (light).  `max_pixels = 41` and `qr_version = 5` are the
constants of the code.  The matrix is kept as the sequence of the stores made to it since
lines 190-194 set every pixel to `255`: a load returns the value of the most recent store
to the cell, and `255` when there is none. -/

/-- The matrix `image`: the stores `image[y][x] = v` made so far, as `((y, x), v)`, most
recent first. -/
structure Image where
  stores : List ((Int × Int) × Nat)

/-- The value of `image[y][x]`. -/
def Image.get (img : Image) (y x : Int) : Nat :=
  match img.stores.lookup (y, x) with
  | some v => v
  | none => 255

/-- The matrix after `image[y][x] = v`. -/
def Image.set (img : Image) (y x : Int) (v : Nat) : Image :=
  ⟨((y, x), v) :: img.stores⟩

/-- The constant `max_pixels`. -/
def max_pixels : Int := 41

/-- The constant `finder_pattern = qr_version * 4 + 14`. -/
def finder_pattern : Int := 5 * 4 + 14

/-- Lines 190-194: all pixels white. -/
def blankImage : Image :=
  ⟨[]⟩

/-- Lines 197-220: the three finder patterns. -/
def addFinders (img : Image) : Image :=
  let img := forLoop 0 7 (fun i img =>
    let img := img.set 0 i 0
    let img := img.set 6 i 0
    let img := img.set 0 (finder_pattern + i) 0
    let img := img.set 6 (finder_pattern + i) 0
    let img := img.set finder_pattern i 0
    img.set (max_pixels - 1) i 0) img
  let img := forLoop 1 6 (fun i img =>
    let img := img.set i 0 0
    let img := img.set i 6 0
    let img := img.set i finder_pattern 0
    let img := img.set i (max_pixels - 1) 0
    let img := img.set (finder_pattern + i) 0 0
    img.set (finder_pattern + i) 6 0) img
  forLoop 2 5 (fun i img =>
    forLoop 0 3 (fun j img =>
      let img := img.set (2 + j) i 0
      let img := img.set (2 + j) (i + finder_pattern) 0
      img.set (finder_pattern + 2 + j) i 0) img) img

/-- Lines 223-226: the array `center`, from the parameter row. -/
def center (mp : Nat → Nat) (i : Nat) : Int :=
  if i = 0 then 6 else (mp (5 + i) : Int)

/-- Lines 232-242: stamp one alignment pattern, if its centre is white. -/
def addAlignment (ci cj : Int) (img : Image) : Image :=
  if img.get ci cj = 255 then
    let img := img.set ci cj 0
    let img := forLoop 0 5 (fun k img =>
      let img := img.set (ci - 2) (cj - 2 + k) 0
      img.set (ci + 2) (cj - 2 + k) 0) img
    forLoop 0 3 (fun k img =>
      let img := img.set (ci - 1 + k) (cj - 2) 0
      img.set (ci - 1 + k) (cj + 2) 0) img
  else img

/-- Lines 228-245: the alignment patterns at every combination of two centres. -/
def addAlignments (mp : Nat → Nat) (img : Image) : Image :=
  forLoop 0 7 (fun i img =>
    forLoop 0 7 (fun j img =>
      if center mp i ≠ 0 ∧ center mp j ≠ 0 then addAlignment (center mp i) (center mp j) img
      else img) img) img

/-- Lines 250-253: the timing patterns, `i = 8, 10, ..., 32`. -/
def addTiming (img : Image) : Image :=
  forLoop 0 13 (fun k img =>
    let i : Int := 8 + 2 * k
    let img := img.set 6 i 0
    img.set i 6 0) img

/-- Lines 190-256: the matrix before the format information. -/
def buildBase (mp : Nat → Nat) : Image :=
  (addTiming (addAlignments mp (addFinders blankImage))).set 33 8 0

/-- Lines 262-283: the format information; `mask` is the entry `mask_info[mask_number-1]`,
as its 16-bit pattern.  The first loop consumes bits `0 .. 7`, the second bits `8 .. 14`. -/
def addFormat (mask : Nat) (img : Image) : Image :=
  let img := forLoop 0 8 (fun i img =>
    let skip : Int := if 6 ≤ i then 1 else 0
    if (mask >>> i) &&& 1 > 0 then
      let img := img.set 8 (max_pixels - i - 1) 0
      img.set (i + skip) 8 0
    else img) img
  forLoop 0 7 (fun i img =>
    let skip : Int := if 1 ≤ i then -1 else 0
    if (mask >>> (8 + i)) &&& 1 > 0 then
      let img := img.set (max_pixels - 7 + i) 8 0
      img.set 8 (7 - i + skip) 0
    else img) img

/-- Lines 174-283: the matrix handed to the data fill. -/
def buildImage (mp : Nat → Nat) (mask : Nat) : Image :=
  addFormat mask (buildBase mp)

/-! ## Data fill (`qr.c` lines 285-359)

Every access `image[y][x]` is checked against `0 ≤ y, x < max_pixels`, every load
`interleaved_output[k]` against the 532 bytes of the array; a violated bound ends the
walk with `none`. -/

/-- The constant `primary_bits = output_size * 8`. -/
def primary_bits : Int := 172 * 8

/-- The constant `mask_number`. -/
def mask_number : Nat := 1

/-- The function `is_mask_applicable`. -/
def is_mask_applicable (row : Int) (_column : Int) (_mask_number : Nat) : Bool :=
  row % 2 == 0

/-- The load `image[y][x]`. -/
def Image.load (img : Image) (y x : Int) : Option Nat :=
  if 0 ≤ y ∧ y < max_pixels ∧ 0 ≤ x ∧ x < max_pixels then some (img.get y x) else none

/-- The store `image[y][x] = v`. -/
def Image.store (img : Image) (y x : Int) (v : Nat) : Option Image :=
  if 0 ≤ y ∧ y < max_pixels ∧ 0 ≤ x ∧ x < max_pixels then some (img.set y x v) else none

/-- The local variables of the data fill. -/
structure Walk where
  image : Image
  y : Int
  x : Int
  dir : Int
  i : Int
  working_byte : Nat
  interleaved_index : Int

/-- The statement `if (i % 8 == 0) working_byte = interleaved_output[++interleaved_index];
else working_byte = working_byte << 1;` on the unsigned char `working_byte`. -/
def Walk.nextBit (interleaved_output : Nat → Nat) (s : Walk) : Option Walk :=
  if s.i % 8 = 0 then
    if 0 ≤ s.interleaved_index + 1 ∧ s.interleaved_index + 1 < 532 then
      some { s with
        interleaved_index := s.interleaved_index + 1
        working_byte := interleaved_output (s.interleaved_index + 1).toNat % 256 }
    else none
  else some { s with working_byte := (s.working_byte <<< 1) % 256 }

/-- The statement `if ((working_byte & 128) > 0) image[y][x] = 0;`. -/
def Walk.putBit (s : Walk) : Option Walk :=
  if s.working_byte &&& 128 > 0 then
    match s.image.store s.y s.x 0 with
    | some img => some { s with image := img }
    | none => none
  else some s

/-- The statement `if (is_mask_applicable(y, x, mask_number)) image[y][x] = ~image[y][x];`
(`~` on an unsigned char `v`, stored back into an unsigned char, is `255 - v`). -/
def Walk.applyMask (s : Walk) : Option Walk :=
  if is_mask_applicable s.y s.x mask_number then
    match s.image.load s.y s.x with
    | some v =>
      match s.image.store s.y s.x (255 - v) with
      | some img => some { s with image := img }
      | none => none
    | none => none
  else some s

/-- Lines 307-309: fetch the next bit, place it, mask the module. -/
def Walk.placeBit (interleaved_output : Nat → Nat) (s : Walk) : Option Walk :=
  match s.nextBit interleaved_output with
  | some s1 =>
    match s1.putBit with
    | some s2 => s2.applyMask
    | none => none
  | none => none

/-- Lines 319-323 and 328-332: the same under `if (i < primary_bits)`, the masking
unconditional. -/
def Walk.place (interleaved_output : Nat → Nat) (s : Walk) : Option Walk :=
  if s.i < primary_bits then s.placeBit interleaved_output else s.applyMask

/-- Lines 305-314: `n` further iterations of the loop over `j`. -/
def Walk.edgeLoop (interleaved_output : Nat → Nat) : Nat → Walk → Option Walk
  | 0, s => some s
  | n + 1, s =>
    if s.y ≠ 6 then
      match s.placeBit interleaved_output with
      | some s1 => Walk.edgeLoop interleaved_output n { s1 with i := s1.i + 1, y := s1.y + s1.dir }
      | none => none
    else Walk.edgeLoop interleaved_output n { s with y := s.y + s.dir }

/-- Lines 300-317: the check for an alignment pattern. -/
def Walk.alignment (interleaved_output : Nat → Nat) (s : Walk) : Option Walk :=
  match s.image.load s.y s.x with
  | some v =>
    if v = 0 then
      match s.image.load s.y (s.x - 1) with
      | some v1 =>
        if v1 = 0 then some { s with y := s.y + s.dir * 5 }
        else
          match Walk.edgeLoop interleaved_output 5 { s with x := s.x - 1 } with
          | some s1 => some { s1 with x := s1.x + 1 }
          | none => none
      | none => none
    else some s
  | none => none

/-- Lines 337-353: the direction reversals, on `(y, x, dir)`. -/
def turn (y x dir : Int) : Int × Int × Int :=
  if (x < 9 ∧ y = 8) ∨ (x > max_pixels - 8 ∧ y = 8) ∨ y < 0 then (y + 1, x - 2, 1)
  else if x = 10 ∧ y = max_pixels then (max_pixels - 9, x - 2, -1)
  else if y = max_pixels then (max_pixels - 1, x - 2, -1)
  else if x < 10 ∧ y > max_pixels - 9 then (max_pixels - 9, x - 2, -1)
  else (y, x, dir)

/-- Lines 355-358: skip the timing lines, on `(y, x, dir)`. -/
def skipTiming (y x dir : Int) : Int × Int × Int :=
  if y = 6 then (y + dir, x, dir)
  else if x = 6 then (y, x - 1, dir)
  else (y, x, dir)

/-- Lines 334-358: move on to the next pair of modules, on `(y, x, dir)`. -/
def advance (y x dir : Int) : Int × Int × Int :=
  let t := turn (y + dir) (x + 1) dir
  skipTiming t.1 t.2.1 t.2.2

/-- Lines 299-358 and the `i++` of the `for`: one iteration of the data-fill loop. -/
def Walk.step (interleaved_output : Nat → Nat) (s : Walk) : Option Walk :=
  match s.alignment interleaved_output with
  | some s1 =>
    match s1.place interleaved_output with
    | some s2 =>
      match Walk.place interleaved_output { s2 with i := s2.i + 1, x := s2.x - 1 } with
      | some s3 =>
        let t := advance s3.y s3.x s3.dir
        some { s3 with y := t.1, x := t.2.1, dir := t.2.2, i := s3.i + 1 }
      | none => none
    | none => none
  | none => none

/-- The loop `for (i = 0; i < primary_bits + remainder_bits; i++)`, with fuel for at most
`fuel` iterations. -/
def Walk.run (interleaved_output : Nat → Nat) (remainder_bits : Int) : Nat → Walk → Option Walk
  | 0, s => if s.i < primary_bits + remainder_bits then none else some s
  | fuel + 1, s =>
    if s.i < primary_bits + remainder_bits then
      match s.step interleaved_output with
      | some s1 => Walk.run interleaved_output remainder_bits fuel s1
      | none => none
    else some s

/-- Lines 286-359: the data fill, from the bottom right corner upwards.  Every
iteration advances `i`, so `primary_bits + remainder_bits` iterations are enough fuel. -/
def dataFill (interleaved_output : Nat → Nat) (remainder_bits : Nat) (img : Image) :
    Option Walk :=
  Walk.run interleaved_output remainder_bits (primary_bits + remainder_bits).toNat
    { image := img, y := max_pixels - 1, x := max_pixels - 1, dir := -1, i := 0,
      working_byte := 0, interleaved_index := -1 }

/-- The function `parseMessage`, up to the call of `img_create`: the matrix it renders,
or `none` when an access of the data fill is out of bounds.  `generator` is the array
`&gen_poly[gen_offset[message_parameters[0]-13] - 73]` and `mask` the entry
`mask_info[mask_number-1]`. -/
def parseMessage (a a_inv generator mp : Nat → Nat) (mask : Nat) (freetext : List Nat) :
    Option Image :=
  let message := (formatMessage freetext).message
  let interleaved_output := (interleave a a_inv generator mp message).interleaved_output
  match dataFill interleaved_output (mp 5) (buildImage mp mask) with
  | some s => some s.image
  | none => none

/-! ## The path of the data fill (vocabulary and proof devices of the matrix claims)

The loads of the walk only ever see modules the walk has not written, so the sequence of
modules it visits can be computed once, from the matrix before the data fill. -/

/-- Bit `k` of the interleaved stream, high bit of each byte first; the remainder bits
(`k ≥ 1376`) are `0`. -/
def streamBit (interleaved_output : Nat → Nat) (k : Nat) : Bool :=
  decide (k < 1376) && (interleaved_output (k / 8)).testBit (7 - k % 8)

/-- The effect on the matrix of visiting module `p = (y, x)` with bit number `k`: the
module is darkened when the bit is set, then inverted when its row is even. -/
def paintCell (interleaved_output : Nat → Nat) (k : Nat) (p : Int × Int) (img : Image) : Image :=
  let img1 := if streamBit interleaved_output k then img.set p.1 p.2 0 else img
  if p.1 % 2 = 0 then img1.set p.1 p.2 (255 - img1.get p.1 p.2) else img1

/-- The effect of visiting the modules of `path` in order, the first with bit number `k`. -/
def paint (interleaved_output : Nat → Nat) : List (Int × Int) → Nat → Image → Image
  | [], _, img => img
  | p :: path, k, img => paint interleaved_output path (k + 1) (paintCell interleaved_output k p img)

/-- The number of a module inside the matrix, row by row. -/
def cellCode (p : Int × Int) : Nat :=
  (p.1 * 41 + p.2).toNat

/-- Whether `p` is a module of the matrix. -/
def inMatrix (p : Int × Int) : Bool :=
  decide (0 ≤ p.1) && decide (p.1 < 41) && decide (0 ≤ p.2) && decide (p.2 < 41)

/-- A set of modules as a bit mask: add a module. -/
def maskAdd (m : Nat) (p : Int × Int) : Nat :=
  m ||| (1 <<< cellCode p)

/-- A set of modules as a bit mask: membership. -/
def maskHas (m : Nat) (p : Int × Int) : Bool :=
  m.testBit (cellCode p)

/-- The set of the modules a list of stores writes to. -/
def storesMask : List ((Int × Int) × Nat) → Nat
  | [] => 0
  | e :: l => maskAdd (storesMask l) e.1

/-- All stores of a list write `0` to a module of the matrix. -/
def darkStores (l : List ((Int × Int) × Nat)) : Bool :=
  l.all (fun e => inMatrix e.1 && e.2 == 0)

/-- The modules that can hold format information (lines 262-283). -/
def formatCells : List (Int × Int) :=
  [(8, 40), (8, 39), (8, 38), (8, 37), (8, 36), (8, 35), (8, 34), (8, 33),
   (0, 8), (1, 8), (2, 8), (3, 8), (4, 8), (5, 8), (7, 8), (8, 8),
   (34, 8), (35, 8), (36, 8), (37, 8), (38, 8), (39, 8), (40, 8),
   (8, 7), (8, 5), (8, 4), (8, 3), (8, 2), (8, 1), (8, 0)]

/-- The control variables of the data fill: `y`, `x`, `dir`, `i`. -/
structure Ctrl where
  y : Int
  x : Int
  dir : Int
  i : Int

/-- The control variables of a state of the walk. -/
def Walk.ctrl (s : Walk) : Ctrl :=
  ⟨s.y, s.x, s.dir, s.i⟩

/-- The stream cursor of the walk before bit number `k`: `i = k`; no byte fetched yet when
`k = 0`; otherwise, while data bits last, `interleaved_index` is at the byte of bit
`k - 1` and `working_byte` is that byte shifted so that bit `k - 1` is its high bit. -/
def WbInv (interleaved_output : Nat → Nat) (k : Nat) (s : Walk) : Prop :=
  s.i = (k : Int) ∧ (k = 0 → s.interleaved_index = -1) ∧
    (0 < k → k ≤ 1376 →
      s.interleaved_index = (((k - 1) / 8 : Nat) : Int) ∧
        s.working_byte = ((interleaved_output ((k - 1) / 8) % 256) <<< ((k - 1) % 8)) % 256)

/-- The modules visited by `n` iterations of the loop over `j` (lines 305-314), and the
control variables after them. -/
def Ctrl.edge : Nat → Ctrl → Ctrl × List (Int × Int)
  | 0, c => (c, [])
  | n + 1, c =>
    if c.y ≠ 6 then
      let r := Ctrl.edge n { c with i := c.i + 1, y := c.y + c.dir }
      (r.1, (c.y, c.x) :: r.2)
    else Ctrl.edge n { c with y := c.y + c.dir }

/-- The modules visited by the check for an alignment pattern (lines 300-317) and the
control variables after it, `dark` being the set of the dark modules of the matrix before
the data fill. -/
def Ctrl.align (dark : Nat) (c : Ctrl) : Ctrl × List (Int × Int) :=
  if maskHas dark (c.y, c.x) then
    if maskHas dark (c.y, c.x - 1) then ({ c with y := c.y + c.dir * 5 }, [])
    else
      let e := Ctrl.edge 5 { c with x := c.x - 1 }
      ({ e.1 with x := e.1.x + 1 }, e.2)
  else (c, [])

/-- The modules visited by one iteration of the data-fill loop and the control variables
after it. -/
def Ctrl.step (dark : Nat) (c : Ctrl) : Ctrl × List (Int × Int) :=
  let r := Ctrl.align dark c
  let t := advance r.1.y (r.1.x - 1) r.1.dir
  ({ y := t.1, x := t.2.1, dir := t.2.2, i := r.1.i + 2 },
    r.2 ++ [(r.1.y, r.1.x), (r.1.y, r.1.x - 1)])

/-- What the walk needs of one iteration: the modules it loads are modules of the matrix
and hold no format information; a dark module it meets with a light one to its left is not
on row 6; the modules of the edge loop are given a stream bit. -/
def Ctrl.stepOk (dark format : Nat) (c : Ctrl) : Bool :=
  inMatrix (c.y, c.x) && !maskHas format (c.y, c.x) &&
    (!maskHas dark (c.y, c.x) ||
      (inMatrix (c.y, c.x - 1) && !maskHas format (c.y, c.x - 1) &&
        (maskHas dark (c.y, c.x - 1) || (decide (c.y ≠ 6) && decide (c.i + 5 ≤ primary_bits)))))

/-- The path of the data fill: the modules visited by at most `fuel` iterations from the
control state `c`, after those of `acc` (in reverse order); `none` when an iteration does
not satisfy `stepOk`, or the fuel runs out. -/
def Ctrl.run (dark format : Nat) (total : Int) : Nat → Ctrl → List (Int × Int) →
    Option (List (Int × Int))
  | 0, c, acc => if c.i < total then none else some acc.reverse
  | fuel + 1, c, acc =>
    if c.i < total then
      if Ctrl.stepOk dark format c then
        Ctrl.run dark format total fuel (Ctrl.step dark c).1 ((Ctrl.step dark c).2.reverse ++ acc)
      else none
    else some acc.reverse

/-- A list of modules of the matrix, none of them in the set `m`, without repetition. -/
def freshCells : List (Int × Int) → Nat → Bool
  | [], _ => true
  | p :: l, m => inMatrix p && !maskHas m p && freshCells l (maskAdd m p)

/-- The matrix of the hard-wired configuration before the format information: alignment
centres `{6, 34}`. -/
def baseImage : Image :=
  buildBase (ofList [0, 0, 0, 0, 0, 7, 34])

/-- The set of the dark modules of `baseImage`. -/
def darkMask : Nat :=
  storesMask baseImage.stores

/-- The set of the modules that can hold format information. -/
def formatMask : Nat :=
  formatCells.foldl maskAdd 0

/-- The path of the data fill in the hard-wired configuration: 1376 data bits and 7
remainder bits, from the bottom right corner upwards. -/
def walkPath : List (Int × Int) :=
  match Ctrl.run darkMask formatMask 1383 1383 ⟨40, 40, -1, 0⟩ [] with
  | some path => path
  | none => []

/-- The modules of the square of side `n` with top left corner `(r, c)`. -/
def squareCells (r c : Int) (n : Nat) : List (Int × Int) :=
  (List.range n).flatMap (fun i => (List.range n).map (fun j => (r + (i : Int), c + (j : Int))))

/-- The function modules of the 41 x 41 symbol: the three finder patterns with their
separators, the alignment pattern centred at (34, 34), the two timing lines, the format
modules and the dark module. -/
def functionCells : List (Int × Int) :=
  squareCells 0 0 8 ++ squareCells 0 33 8 ++ squareCells 33 0 8 ++ squareCells 32 32 5 ++
    (List.range 25).map (fun i => ((6 : Int), (8 : Int) + (i : Int))) ++
    (List.range 25).map (fun i => ((8 : Int) + (i : Int), (6 : Int))) ++
    formatCells ++ [(33, 8)]

/-- The set of the function modules. -/
def functionMask : Nat :=
  functionCells.foldl maskAdd 0

/-- The value of the module in row `r`, column `c` of a 7 x 7 finder pattern: the outer
ring dark, the ring inside it light, the central 3 x 3 dark. -/
def finderValue (r c : Int) : Nat :=
  if r = 0 ∨ r = 6 ∨ c = 0 ∨ c = 6 then 0
  else if r = 1 ∨ r = 5 ∨ c = 1 ∨ c = 5 then 255
  else 0

/-- The configuration the code hard-wires, as far as the matrix goes: 7 remainder bits
and the alignment centres `{6, 34}` (`center[1] = 34`, the other entries `0`). -/
def IsVersion6Row (mp : Nat → Nat) : Prop :=
  mp 5 = 7 ∧ mp 6 = 34 ∧ mp 7 = 0 ∧ mp 8 = 0 ∧ mp 9 = 0 ∧ mp 10 = 0 ∧ mp 11 = 0

instance (mp : Nat → Nat) : Decidable (IsVersion6Row mp) := by
  unfold IsVersion6Row; infer_instance

/-! ## The function patterns, as the symbol layout names them -/

/-- The module of the first copy of format bit `k`: `(k, 8)` for `k = 0 .. 5`, `(7, 8)`
for `k = 6`, `(8, 8)` for `k = 7`, `(8, 7)` for `k = 8`, `(8, 14 - k)` for `k = 9 .. 14`. -/
def formatFirst (k : Nat) : Int × Int :=
  if k ≤ 5 then ((k : Int), 8)
  else if k = 6 then (7, 8)
  else if k = 7 then (8, 8)
  else if k = 8 then (8, 7)
  else (8, 14 - (k : Int))

/-- The module of the second copy of format bit `k`: `(8, 40 - k)` for `k = 0 .. 7`,
`(26 + k, 8)` for `k = 8 .. 14`. -/
def formatSecond (k : Nat) : Int × Int :=
  if k ≤ 7 then (8, 40 - (k : Int)) else (26 + (k : Int), 8)

/-- The value of the module in row `r`, column `c` of a 5 x 5 alignment pattern: the
border dark, the ring inside it light, the centre dark. -/
def alignmentValue (r c : Int) : Nat :=
  if r = 0 ∨ r = 4 ∨ c = 0 ∨ c = 4 then 0
  else if r = 2 ∧ c = 2 then 0
  else 255

/-! ## The reference enumeration of the data modules -/

/-- The right-hand columns of the two-column strips, from the right edge leftwards,
column 6 skipped: `40, 38, ..., 8, 5, 3, 1`. -/
def stripColumns : List Int :=
  (List.range 17).map (fun n => 40 - 2 * (n : Int)) ++ [5, 3, 1]

/-- The modules of strip number `n` with right-hand column `x`: upwards when `n` is even,
downwards when it is odd; in each row the right module before the left one. -/
def stripCells (n : Nat) (x : Int) : List (Int × Int) :=
  let rows := (List.range 41).map (fun r => (r : Int))
  (if n % 2 = 0 then rows.reverse else rows).flatMap (fun y => [(y, x), (y, x - 1)])

/-- The reference zigzag enumeration of the non-function modules. -/
def zigzag : List (Int × Int) :=
  (stripColumns.enum.flatMap (fun nx => stripCells nx.1 nx.2)).filter
    (fun p => !maskHas functionMask p)

/-- All modules of the matrix, row by row. -/
def allCells : List (Int × Int) :=
  squareCells 0 0 41

/-! ## The data fill with the log of its bit steps -/

/-- One bit step of the data fill (lines 307-309, 319-323, 328-332): the module it is
applied to and, when it executes `working_byte = interleaved_output[++interleaved_index]`,
the index it reads. -/
structure BitStep where
  y : Int
  x : Int
  fetch : Option Int
deriving DecidableEq

/-- The index that the statement `if (i % 8 == 0) working_byte =
interleaved_output[++interleaved_index]` reads in state `s`, if it reads one. -/
def Walk.fetch (s : Walk) : Option Int :=
  if s.i % 8 = 0 then some (s.interleaved_index + 1) else none

/-- The state of the data fill together with the bit steps made so far. -/
structure Logged where
  walk : Walk
  log : List BitStep

/-- Lines 307-309, logged. -/
def Logged.placeBit (interleaved_output : Nat → Nat) (t : Logged) : Option Logged :=
  match t.walk.placeBit interleaved_output with
  | some s => some ⟨s, t.log ++ [⟨t.walk.y, t.walk.x, t.walk.fetch⟩]⟩
  | none => none

/-- Lines 319-323 and 328-332, logged: the codeword is fetched only under
`if (i < primary_bits)`. -/
def Logged.place (interleaved_output : Nat → Nat) (t : Logged) : Option Logged :=
  match t.walk.place interleaved_output with
  | some s =>
    some ⟨s, t.log ++
      [⟨t.walk.y, t.walk.x, if t.walk.i < primary_bits then t.walk.fetch else none⟩]⟩
  | none => none

/-- Lines 305-314, logged. -/
def Logged.edgeLoop (interleaved_output : Nat → Nat) : Nat → Logged → Option Logged
  | 0, t => some t
  | n + 1, t =>
    if t.walk.y ≠ 6 then
      match t.placeBit interleaved_output with
      | some t1 =>
        Logged.edgeLoop interleaved_output n
          ⟨{ t1.walk with i := t1.walk.i + 1, y := t1.walk.y + t1.walk.dir }, t1.log⟩
      | none => none
    else Logged.edgeLoop interleaved_output n ⟨{ t.walk with y := t.walk.y + t.walk.dir }, t.log⟩

/-- Lines 300-317, logged. -/
def Logged.alignment (interleaved_output : Nat → Nat) (t : Logged) : Option Logged :=
  match t.walk.image.load t.walk.y t.walk.x with
  | some v =>
    if v = 0 then
      match t.walk.image.load t.walk.y (t.walk.x - 1) with
      | some v1 =>
        if v1 = 0 then some ⟨{ t.walk with y := t.walk.y + t.walk.dir * 5 }, t.log⟩
        else
          match Logged.edgeLoop interleaved_output 5 ⟨{ t.walk with x := t.walk.x - 1 }, t.log⟩ with
          | some t1 => some ⟨{ t1.walk with x := t1.walk.x + 1 }, t1.log⟩
          | none => none
      | none => none
    else some t
  | none => none

/-- Lines 299-358 and the `i++` of the `for`, logged. -/
def Logged.step (interleaved_output : Nat → Nat) (t : Logged) : Option Logged :=
  match t.alignment interleaved_output with
  | some t1 =>
    match t1.place interleaved_output with
    | some t2 =>
      match Logged.place interleaved_output
          ⟨{ t2.walk with i := t2.walk.i + 1, x := t2.walk.x - 1 }, t2.log⟩ with
      | some t3 =>
        let n := advance t3.walk.y t3.walk.x t3.walk.dir
        some ⟨{ t3.walk with y := n.1, x := n.2.1, dir := n.2.2, i := t3.walk.i + 1 }, t3.log⟩
      | none => none
    | none => none
  | none => none

/-- The loop `for (i = 0; i < primary_bits + remainder_bits; i++)`, logged, with fuel for
at most `fuel` iterations. -/
def Logged.run (interleaved_output : Nat → Nat) (remainder_bits : Int) :
    Nat → Logged → Option Logged
  | 0, t => if t.walk.i < primary_bits + remainder_bits then none else some t
  | fuel + 1, t =>
    if t.walk.i < primary_bits + remainder_bits then
      match t.step interleaved_output with
      | some t1 => Logged.run interleaved_output remainder_bits fuel t1
      | none => none
    else some t

/-- Lines 286-359, logged: the data fill and the bit steps it makes. -/
def dataFillLog (interleaved_output : Nat → Nat) (remainder_bits : Nat) (img : Image) :
    Option Logged :=
  Logged.run interleaved_output remainder_bits (primary_bits + remainder_bits).toNat
    ⟨{ image := img, y := max_pixels - 1, x := max_pixels - 1, dir := -1, i := 0,
       working_byte := 0, interleaved_index := -1 }, []⟩

/-- The bit steps that visit the modules of `path` in order, the first with bit number
`k`: a codeword is fetched at every eighth data bit, codeword `k / 8` at bit `k`. -/
def stepsOf : Nat → List (Int × Int) → List BitStep
  | _, [] => []
  | k, p :: path =>
    ⟨p.1, p.2, if k % 8 = 0 ∧ k < 1376 then some ((k / 8 : Nat) : Int) else none⟩ ::
      stepsOf (k + 1) path

end TinyQR

namespace TinyQR

/-! ## Message formatter -/

theorem setAt_same (buf : Nat → Nat) (k v : Nat) : setAt buf k v k = v := by
  simp [setAt]

theorem setAt_other (buf : Nat → Nat) (k v j : Nat) (h : j ≠ k) : setAt buf k v j = buf j := by
  simp [setAt, h]

/-- Bit `k` of the nibble-packed byte. -/
theorem nib_testBit (x y k : Nat) :
    ((((x &&& 15) <<< 4) ||| ((y &&& 240) >>> 4)) % 256).testBit k =
      (decide (k < 8) && ((decide (4 ≤ k) && (x.testBit (k - 4) && (15 : Nat).testBit (k - 4)))
        || (y.testBit (4 + k) && (240 : Nat).testBit (4 + k)))) := by
  rw [show (256 : Nat) = 2 ^ 8 from rfl, Nat.testBit_mod_two_pow, Nat.testBit_or,
    Nat.testBit_shiftLeft, Nat.testBit_shiftRight, Nat.testBit_and, Nat.testBit_and]

/-- The nibble-packed byte: low nibble of `x` followed by high nibble of `y`. -/
theorem bits8_nib (x y : Nat) :
    bits8 ((((x &&& 15) <<< 4) ||| ((y &&& 240) >>> 4)) % 256) = lo4 x ++ hi4 y := by
  have c0 : (15 : Nat).testBit 0 = true := by decide
  have c1 : (15 : Nat).testBit 1 = true := by decide
  have c2 : (15 : Nat).testBit 2 = true := by decide
  have c3 : (15 : Nat).testBit 3 = true := by decide
  have d0 : (240 : Nat).testBit 4 = true := by decide
  have d1 : (240 : Nat).testBit 5 = true := by decide
  have d2 : (240 : Nat).testBit 6 = true := by decide
  have d3 : (240 : Nat).testBit 7 = true := by decide
  have d4 : (240 : Nat).testBit 8 = false := by decide
  have d5 : (240 : Nat).testBit 9 = false := by decide
  have d6 : (240 : Nat).testBit 10 = false := by decide
  have d7 : (240 : Nat).testBit 11 = false := by decide
  simp only [bits8, hi4, lo4, nib_testBit]
  simp [c0, c1, c2, c3, d0, d1, d2, d3, d4, d5, d6, d7]


/-- The packed byte `((x & 15) << 4) | ((y & 240) >> 4)`. -/
theorem nib_lt (x y : Nat) : (((x &&& 15) <<< 4) ||| ((y &&& 240) >>> 4)) % 256 < 256 :=
  Nat.mod_lt _ (by decide)

theorem push_index (s : Formatter) (v : Nat) : (s.push v).message_index = s.message_index + 1 := rfl

theorem push_message (s : Formatter) (v j : Nat) :
    (s.push v).message j = if j = s.message_index then v % 256 else s.message j := rfl

theorem push_stores (s : Formatter) (v : Nat) : (s.push v).stores = s.message_index :: s.stores := rfl

theorem frameLoop_index (ft : List Nat) (n i : Nat) (s : Formatter) :
    (frameLoop ft n i s).message_index = s.message_index + n := by
  induction n generalizing i s with
  | zero => rfl
  | succ n ih => rw [frameLoop, ih, push_index]; omega

theorem frameLoop_message (ft : List Nat) (n i : Nat) (s : Formatter) (j : Nat) :
    (frameLoop ft n i s).message j =
      if s.message_index ≤ j ∧ j < s.message_index + n then
        (((cstr ft (i + (j - s.message_index)) &&& 15) <<< 4) |||
          ((cstr ft (i + (j - s.message_index) + 1) &&& 240) >>> 4)) % 256
      else s.message j := by
  induction n generalizing i s with
  | zero =>
    have h : ¬ (s.message_index ≤ j ∧ j < s.message_index + 0) := by omega
    rw [frameLoop, if_neg h]
  | succ n ih =>
    rw [frameLoop, ih, push_index, push_message]
    by_cases h1 : j = s.message_index
    · subst h1; simp
    · by_cases h2 : s.message_index + 1 ≤ j ∧ j < s.message_index + 1 + n
      · have h3 : s.message_index ≤ j ∧ j < s.message_index + (n + 1) := by omega
        have h4 : i + 1 + (j - (s.message_index + 1)) = i + (j - s.message_index) := by omega
        rw [if_pos h2, if_pos h3, h4]
      · have h3 : ¬ (s.message_index ≤ j ∧ j < s.message_index + (n + 1)) := by omega
        rw [if_neg h2, if_neg h3, if_neg h1]

theorem frameLoop_stores (ft : List Nat) (n i : Nat) (s : Formatter) :
    (frameLoop ft n i s).stores = (List.range' s.message_index n).reverse ++ s.stores := by
  induction n generalizing i s with
  | zero => simp [frameLoop]
  | succ n ih =>
    rw [frameLoop, ih, push_index, push_stores, List.range'_succ]
    simp

theorem padLoop_index (n p : Nat) (s : Formatter) :
    (padLoop n p s).message_index = s.message_index + n := by
  induction n generalizing p s with
  | zero => rfl
  | succ n ih => rw [padLoop, ih, push_index]; omega

theorem padLoop_stores (n p : Nat) (s : Formatter) :
    (padLoop n p s).stores = (List.range' s.message_index n).reverse ++ s.stores := by
  induction n generalizing p s with
  | zero => simp [padLoop]
  | succ n ih =>
    rw [padLoop, ih, push_index, push_stores, List.range'_succ]
    simp

theorem xor_one_of_lt_two (p : Nat) (hp : p < 2) : p ^^^ 1 = 1 - p := by
  interval_cases p <;> rfl

theorem padLoop_message (n p : Nat) (hp : p < 2) (s : Formatter) (j : Nat) :
    (padLoop n p s).message j =
      if s.message_index ≤ j ∧ j < s.message_index + n then
        (if (p + (j - s.message_index)) % 2 = 0 then 236 else 17)
      else s.message j := by
  induction n generalizing p s with
  | zero =>
    have h : ¬ (s.message_index ≤ j ∧ j < s.message_index + 0) := by omega
    rw [padLoop, if_neg h]
  | succ n ih =>
    have hp' : p ^^^ 1 < 2 := by rw [xor_one_of_lt_two p hp]; omega
    rw [padLoop, ih _ hp', push_index, push_message, xor_one_of_lt_two p hp]
    by_cases h1 : j = s.message_index
    · subst h1
      have : pad p % 256 = if p % 2 = 0 then 236 else 17 := by
        interval_cases p <;> rfl
      simp [this]
    · by_cases h2 : s.message_index + 1 ≤ j ∧ j < s.message_index + 1 + n
      · have h3 : s.message_index ≤ j ∧ j < s.message_index + (n + 1) := by omega
        have h4 : (1 - p + (j - (s.message_index + 1))) % 2 = (p + (j - s.message_index)) % 2 := by
          omega
        rw [if_pos h2, if_pos h3, h4]
      · have h3 : ¬ (s.message_index ≤ j ∧ j < s.message_index + (n + 1)) := by omega
        rw [if_neg h2, if_neg h3, if_neg h1]

theorem message_length_small (ft : List Nat) (h : ft.length < 32768) :
    message_length ft = ft.length ∧ frameCount ft = ft.length := by
  have : message_length ft = ft.length := by
    unfold message_length; omega
  refine ⟨this, ?_⟩
  unfold frameCount
  rw [this, if_pos h]

theorem frameHeader_index (ft : List Nat) : (frameHeader ft).message_index = 2 := rfl

theorem frame_index (ft : List Nat) (h : ft.length < 32768) :
    (frame ft).message_index = ft.length + 2 := by
  unfold frame
  rw [frameLoop_index, frameHeader_index, (message_length_small ft h).2]; omega

theorem needed_pad_bytes_small (k : Nat) (h : k ≤ 76) : needed_pad_bytes k = 76 - k := by
  unfold needed_pad_bytes; omega

theorem needed_pad_bytes_large (k : Nat) (h1 : 76 < k) (h2 : k ≤ 65612) :
    needed_pad_bytes k = 65612 - k := by
  unfold needed_pad_bytes; omega

end TinyQR

namespace TinyQR

theorem bits8_length (b : Nat) : (bits8 b).length = 8 := rfl

theorem bitsValue_bits8 : ∀ b < 256, bitsValue (bits8 b) = b := by decide!

theorem bitString_cons (b : Nat) (l : List Nat) : bitString (b :: l) = bits8 b ++ bitString l := by
  simp [bitString]

theorem bitString_append (l₁ l₂ : List Nat) :
    bitString (l₁ ++ l₂) = bitString l₁ ++ bitString l₂ := by
  simp [bitString]

theorem bitString_singleton (b : Nat) : bitString [b] = bits8 b := by
  simp [bitString]

/-- Nibble-shifted bytes of a sequence `c 0, c 1, ...` spell out the sequence itself,
moved by four bits. -/
theorem bitString_nibs (c : Nat → Nat) (n : Nat) :
    bitString ((List.range n).map
        (fun j => (((c j &&& 15) <<< 4) ||| ((c (j + 1) &&& 240) >>> 4)) % 256)) ++ lo4 (c n) =
      lo4 (c 0) ++ bitString ((List.range n).map (fun j => c (j + 1))) := by
  induction n with
  | zero => simp [bitString]
  | succ n ih =>
    rw [List.range_succ, List.map_append, List.map_append, bitString_append, bitString_append,
      ← List.append_assoc (lo4 (c 0)), ← ih]
    simp only [List.map_cons, List.map_nil, bitString_singleton, bits8_nib, List.append_assoc]
    rfl

theorem cstr_range (ft : List Nat) :
    (List.range (ft.length + 1)).map (cstr ft) = ft ++ [0] := by
  apply List.ext_getElem
  · simp
  · intro n h1 h2
    simp only [List.getElem_map, List.getElem_range, cstr]
    rw [List.getD_eq_getElem _ _ h2]

theorem readBytes_bitString (l : List Nat) (hl : ∀ b ∈ l, b < 256) (rest : List Bool) :
    readBytes l.length (bitString l ++ rest) = some (l, rest) := by
  induction l with
  | nil => simp [readBytes, bitString]
  | cons b l ih =>
    have hb : b < 256 := hl b (List.mem_cons_self _ _)
    have hl' : ∀ x ∈ l, x < 256 := fun x hx => hl x (List.mem_cons_of_mem _ hx)
    have h8 : 8 ≤ (bitString (b :: l) ++ rest).length := by
      rw [bitString_cons]; simp [bits8_length]
    have hd : (bitString (b :: l) ++ rest).drop 8 = bitString l ++ rest := by
      rw [bitString_cons, List.append_assoc]
      exact List.drop_left' (bits8_length b)
    have ht : (bitString (b :: l) ++ rest).take 8 = bits8 b := by
      rw [bitString_cons, List.append_assoc]
      exact List.take_left' (bits8_length b)
    rw [List.length_cons, readBytes, if_pos h8, hd, ih hl', ht, bitsValue_bits8 b hb]

/-- The framed bit string decodes to the count and the bytes it was made from. -/
theorem decodeFrame_spec (l : List Nat) (hl : ∀ b ∈ l, b < 256) (hlen : l.length < 256)
    (rest : List Bool) :
    decodeFrame ([false, true, false, false] ++ bits8 l.length ++ bitString l ++ rest) =
      some (l.length, l, rest) := by
  have h1 : ([false, true, false, false] ++ bits8 l.length ++ bitString l ++ rest).take 4 =
      [false, true, false, false] := by
    rw [List.append_assoc, List.append_assoc]
    exact List.take_left' rfl
  have h2 : 12 ≤ ([false, true, false, false] ++ bits8 l.length ++ bitString l ++ rest).length := by
    simp [bits8_length]
  have h3 : ([false, true, false, false] ++ bits8 l.length ++ bitString l ++ rest).drop 4 =
      bits8 l.length ++ (bitString l ++ rest) := by
    rw [List.append_assoc, List.append_assoc]
    exact List.drop_left' rfl
  have h4 : ([false, true, false, false] ++ bits8 l.length ++ bitString l ++ rest).drop 12 =
      bitString l ++ rest := by
    rw [List.append_assoc]
    exact List.drop_left' (by simp [bits8_length])
  unfold decodeFrame
  rw [if_pos ⟨h1, h2⟩, h3, h4]
  simp only []
  rw [List.take_left' (bits8_length _), bitsValue_bits8 _ hlen, readBytes_bitString l hl]

theorem frame_message_zero (ft : List Nat) :
    (frame ft).message 0 = (64 ||| ((message_length ft &&& 240) >>> 4)) % 256 := by
  unfold frame
  rw [frameLoop_message, frameHeader_index, if_neg (by omega)]
  rfl

theorem frame_message_one (ft : List Nat) :
    (frame ft).message 1 =
      (((message_length ft &&& 15) <<< 4) ||| ((cstr ft 0 &&& 240) >>> 4)) % 256 := by
  unfold frame
  rw [frameLoop_message, frameHeader_index, if_neg (by omega)]
  rfl

theorem frame_message_text (ft : List Nat) (h : ft.length < 32768) (i : Nat)
    (hi : i < ft.length) :
    (frame ft).message (i + 2) =
      (((cstr ft i &&& 15) <<< 4) ||| ((cstr ft (i + 1) &&& 240) >>> 4)) % 256 := by
  unfold frame
  rw [frameLoop_message, frameHeader_index, (message_length_small ft h).2,
    if_pos (by omega)]
  simp

theorem bits8_header : ∀ n < 256,
    bits8 ((64 ||| ((n &&& 240) >>> 4)) % 256) = [false, true, false, false] ++ hi4 n := by
  decide!

/-- The bit string of the first `L + 2` bytes of the framed message. -/
theorem frame_bits (ft : List Nat) (hL : ft.length < 256) :
    bitString (prefixBytes (frame ft).message (ft.length + 2)) =
      [false, true, false, false] ++ bits8 ft.length ++ bitString ft ++
        [false, false, false, false] := by
  have h32 : ft.length < 32768 := by omega
  have hml := (message_length_small ft h32).1
  -- the sequence that is nibble-shifted: the count, then the text, then the NUL
  let c : Nat → Nat := fun k => if k = 0 then ft.length else cstr ft (k - 1)
  have hbytes : prefixBytes (frame ft).message (ft.length + 2) =
      ((64 ||| ((ft.length &&& 240) >>> 4)) % 256) ::
        (List.range (ft.length + 1)).map
          (fun j => (((c j &&& 15) <<< 4) ||| ((c (j + 1) &&& 240) >>> 4)) % 256) := by
    apply List.ext_getElem
    · simp [prefixBytes]
    · intro n h1 h2
      simp only [prefixBytes, List.getElem_map, List.getElem_range]
      rcases n with _ | n
      · rw [frame_message_zero, hml]; rfl
      · rcases n with _ | n
        · rw [frame_message_one, hml]; simp [c]
        · have hn : n < ft.length := by
            simp [prefixBytes] at h1; omega
          rw [frame_message_text ft h32 n hn]
          simp [c]
  have hc : (List.range (ft.length + 1)).map (fun j => c (j + 1)) = ft ++ [0] := by
    rw [← cstr_range]
    apply List.map_congr_left
    intro j _
    simp [c]
  have hlast : lo4 (c (ft.length + 1)) = [false, false, false, false] := by
    have : c (ft.length + 1) = 0 := by
      simp [c, cstr]
    rw [this]; rfl
  have key := bitString_nibs c (ft.length + 1)
  rw [hc, hlast, bitString_append] at key
  have hz : bitString [0] = [false, false, false, false] ++ [false, false, false, false] := rfl
  rw [hz, ← List.append_assoc, ← List.append_assoc] at key
  have key' := List.append_cancel_right key
  rw [hbytes, bitString_cons, bits8_header _ hL, key']
  simp [bits8, c]

end TinyQR

namespace TinyQR

theorem formatMessage_message_low (ft : List Nat) (h : ft.length < 32768) (j : Nat)
    (hj : j < ft.length + 2) : (formatMessage ft).message j = (frame ft).message j := by
  unfold formatMessage
  simp only []
  rw [padLoop_message _ _ (by decide), frame_index ft h, if_neg (by omega)]

theorem nib_zero_low (x : Nat) :
    ((((x &&& 15) <<< 4) ||| ((0 &&& 240) >>> 4)) % 256) &&& 15 = 0 := by
  have key : ∀ v < 16, (((v <<< 4) ||| ((0 &&& 240) >>> 4)) % 256) &&& 15 = 0 := by decide
  exact key _ (Nat.lt_of_le_of_lt Nat.and_le_right (by decide))

theorem frame_last_nibble (ft : List Nat) (h : ft.length < 32768) :
    (frame ft).message (ft.length + 1) &&& 15 = 0 := by
  have hz : cstr ft ft.length = 0 := by simp [cstr]
  rcases Nat.eq_zero_or_pos ft.length with h0 | hpos
  · have hz0 : cstr ft 0 = 0 := by
      have := hz; rw [h0] at this; exact this
    rw [h0, frame_message_one, hz0]
    exact nib_zero_low _
  · obtain ⟨n, hn⟩ : ∃ n, ft.length = n + 1 := ⟨ft.length - 1, by omega⟩
    have hz1 : cstr ft (n + 1) = 0 := by rw [← hn]; exact hz
    rw [hn, frame_message_text ft h n (by omega), hz1]
    exact nib_zero_low _

theorem prefixBytes_congr (m₁ m₂ : Nat → Nat) (n : Nat) (h : ∀ j < n, m₁ j = m₂ j) :
    prefixBytes m₁ n = prefixBytes m₂ n := by
  unfold prefixBytes
  apply List.map_congr_left
  intro j hj
  exact h j (List.mem_range.mp hj)

theorem frame_stores (ft : List Nat) (h : ft.length < 32768) :
    (frame ft).stores = (List.range (ft.length + 2)).reverse := by
  unfold frame
  rw [frameLoop_stores, frameHeader_index, (message_length_small ft h).2]
  have h1 : (frameHeader ft).stores = [1, 0] := rfl
  rw [h1, List.range_eq_range']
  have := List.range'_append_1 0 2 ft.length
  rw [← this]
  simp [List.range']

/-- C2 (message framing).  For a text of length `L ≤ 74`, the first `L + 2` bytes of
the message built by the formatter, read high bit first, are the mode nibble `0100`,
the eight bits of `L`, the text bytes in order, and four `0` bits; the low nibble of
byte `L + 1` is `0`; decoding the bit string gives back `L` and the text. -/
theorem message_framing (freetext : List Nat) (htext : IsText freetext)
    (hL : freetext.length ≤ 74) :
    bitString (prefixBytes (formatMessage freetext).message (freetext.length + 2)) =
        [false, true, false, false] ++ bits8 freetext.length ++ bitString freetext ++
          [false, false, false, false] ∧
      (formatMessage freetext).message (freetext.length + 1) &&& 15 = 0 ∧
      decodeFrame (bitString (prefixBytes (formatMessage freetext).message
          (freetext.length + 2))) =
        some (freetext.length, freetext, [false, false, false, false]) := by
  have h32 : freetext.length < 32768 := by omega
  have hpre : prefixBytes (formatMessage freetext).message (freetext.length + 2) =
      prefixBytes (frame freetext).message (freetext.length + 2) :=
    prefixBytes_congr _ _ _ (fun j hj => formatMessage_message_low freetext h32 j hj)
  have hbits := frame_bits freetext (by omega)
  refine ⟨by rw [hpre, hbits], ?_, ?_⟩
  · rw [formatMessage_message_low freetext h32 _ (by omega)]
    exact frame_last_nibble freetext h32
  · rw [hpre, hbits]
    exact decodeFrame_spec freetext (fun b hb => (htext b hb).2) (by omega) _

theorem message_framing_witness :
    IsText [104, 105] ∧ [104, 105].length ≤ 74 ∧
      bitString (prefixBytes (formatMessage [104, 105]).message 4) =
        bitString [0x40, 0x26, 0x86, 0x90] ∧
      decodeFrame (bitString (prefixBytes (formatMessage [104, 105]).message 4)) =
        some (2, [104, 105], [false, false, false, false]) :=
  ⟨by decide, by decide,
    (message_framing [104, 105] (by decide) (by decide)).1.trans (by decide),
    (message_framing [104, 105] (by decide) (by decide)).2.2⟩

/-- C8 (padding and length).  For a text of length `L ≤ 74`, after the padding loop
`message_index` is `76`; the loop makes exactly `74 - L` stores, at the indices
`L + 2 .. 75` (none when `L = 74`); bytes `L + 2 .. 75` alternate `0xEC`, `0x11`
starting with `0xEC`; bytes `0 .. L + 1` are as the framing step wrote them. -/
theorem padding_and_length (freetext : List Nat) (hL : freetext.length ≤ 74) :
    (formatMessage freetext).message_index = 76 ∧
      needed_pad_bytes (frame freetext).message_index = 74 - freetext.length ∧
      (formatMessage freetext).stores =
        (List.range' (freetext.length + 2) (74 - freetext.length)).reverse ++
          (frame freetext).stores ∧
      (∀ j, freetext.length + 2 ≤ j → j ≤ 75 →
        (formatMessage freetext).message j =
          if (j - (freetext.length + 2)) % 2 = 0 then 0xEC else 0x11) ∧
      (∀ j, j ≤ freetext.length + 1 →
        (formatMessage freetext).message j = (frame freetext).message j) := by
  have h32 : freetext.length < 32768 := by omega
  have hidx := frame_index freetext h32
  have hneed : needed_pad_bytes (frame freetext).message_index = 74 - freetext.length := by
    rw [hidx, needed_pad_bytes_small _ (by omega)]; omega
  refine ⟨?_, hneed, ?_, ?_, ?_⟩
  · unfold formatMessage
    simp only []
    rw [padLoop_index, hneed, hidx]; omega
  · unfold formatMessage
    simp only []
    rw [padLoop_stores, hneed, hidx]
  · intro j h1 h2
    unfold formatMessage
    simp only []
    rw [padLoop_message _ _ (by decide), hneed, hidx, if_pos (by omega), Nat.zero_add]
  · intro j hj
    exact formatMessage_message_low freetext h32 j (by omega)

theorem padding_and_length_witness :
    [104, 105].length ≤ 74 ∧ (formatMessage [104, 105]).message_index = 76 ∧
      (formatMessage [104, 105]).message 4 = 0xEC ∧
      (formatMessage [104, 105]).message 5 = 0x11 ∧
      (formatMessage [104, 105]).message 75 = 0x11 :=
  ⟨by decide, (padding_and_length [104, 105] (by decide)).1,
    ((padding_and_length [104, 105] (by decide)).2.2.2.1 4 (by decide) (by decide)).trans rfl,
    ((padding_and_length [104, 105] (by decide)).2.2.2.1 5 (by decide) (by decide)).trans rfl,
    ((padding_and_length [104, 105] (by decide)).2.2.2.1 75 (by decide) (by decide)).trans rfl⟩

/-- Past the capacity the padding count wraps around: for `75 ≤ L < 32768` the padding
loop makes `65610 - L` stores, from index `L + 2` on. -/
theorem formatMessage_large (ft : List Nat) (h75 : 75 ≤ ft.length) (h32 : ft.length < 32768) :
    needed_pad_bytes (frame ft).message_index = 65610 - ft.length ∧
      (formatMessage ft).stores =
        (List.range' (ft.length + 2) (65610 - ft.length)).reverse ++ (frame ft).stores ∧
      (formatMessage ft).message_index = 65612 := by
  have hidx := frame_index ft h32
  have hneed : needed_pad_bytes (frame ft).message_index = 65610 - ft.length := by
    rw [hidx, needed_pad_bytes_large _ (by omega) (by omega)]; omega
  refine ⟨hneed, ?_, ?_⟩
  · unfold formatMessage
    simp only []
    rw [padLoop_stores, hneed, hidx]
  · unfold formatMessage
    simp only []
    rw [padLoop_index, hneed, hidx]; omega

/-- C7, the claim fails: for the text of 75 letters `A` the formatter reports nothing.
Framing stores 77 bytes, so byte 76 is written past the 76-byte capacity; then
`needed_pad_bytes` is `(uint16_t)(76 - 77) = 65535` and the padding loop stores to the
indices `77 .. 65611`, among them index 244, the first one outside `message[244]`. -/
theorem capacity_not_checked :
    IsText (List.replicate 75 65) ∧ (List.replicate 75 65).length = 75 ∧
      (frame (List.replicate 75 65)).message_index = 77 ∧
      76 ∈ (frame (List.replicate 75 65)).stores ∧
      needed_pad_bytes (frame (List.replicate 75 65)).message_index = 65535 ∧
      244 ∈ (formatMessage (List.replicate 75 65)).stores ∧
      (formatMessage (List.replicate 75 65)).message_index = 65612 := by
  have hlen : (List.replicate 75 65).length = 75 := List.length_replicate _ _
  have h32 : (List.replicate 75 65).length < 32768 := by rw [hlen]; decide
  have h75 : 75 ≤ (List.replicate 75 65).length := by rw [hlen]
  have hidx := frame_index _ h32
  have hst := frame_stores _ h32
  obtain ⟨hneed, hstores, hfin⟩ := formatMessage_large _ h75 h32
  rw [hlen] at hidx hst hneed hstores
  refine ⟨by decide, hlen, hidx, ?_, hneed, ?_, hfin⟩
  · rw [hst, List.mem_reverse, List.mem_range]; decide
  · rw [hstores, List.mem_append, List.mem_reverse, List.mem_range']
    exact Or.inl ⟨167, by decide, by decide⟩

/-- C7, as amended.  For a text of length `75 ≤ L ≤ 242` the framing step runs to its
end without truncating: it makes exactly `L + 2` stores, at the indices `0 .. L + 1` in
order (so into `message[76 .. L + 1]`, past the 76-byte capacity and inside the 244-byte
array), and the framed bits decode to `L` and the whole text. -/
theorem framing_past_capacity (freetext : List Nat) (htext : IsText freetext)
    (h75 : 75 ≤ freetext.length) (h242 : freetext.length ≤ 242) :
    (frame freetext).message_index = freetext.length + 2 ∧
      (frame freetext).stores = (List.range (freetext.length + 2)).reverse ∧
      (∀ k ∈ (frame freetext).stores, k < 244) ∧
      decodeFrame (bitString (prefixBytes (frame freetext).message (freetext.length + 2))) =
        some (freetext.length, freetext, [false, false, false, false]) := by
  have h32 : freetext.length < 32768 := by omega
  refine ⟨frame_index freetext h32, frame_stores freetext h32, ?_, ?_⟩
  · intro k hk
    rw [frame_stores freetext h32] at hk
    have := List.mem_range.mp (List.mem_reverse.mp hk)
    omega
  · rw [frame_bits freetext (by omega)]
    exact decodeFrame_spec freetext (fun b hb => (htext b hb).2) (by omega) _

theorem framing_past_capacity_witness :
    IsText (List.replicate 75 65) ∧ 75 ≤ (List.replicate 75 65).length ∧
      (List.replicate 75 65).length ≤ 242 ∧
      (frame (List.replicate 75 65)).message_index = (List.replicate 75 65).length + 2 :=
  ⟨by decide, by decide, by decide,
    (framing_past_capacity (List.replicate 75 65) (by decide) (by decide) (by decide)).1⟩

end TinyQR

namespace TinyQR

/-! ## Loops -/

theorem forLoop_empty {σ : Type} (lo hi : Nat) (body : Nat → σ → σ) (s : σ) (h : hi ≤ lo) :
    forLoop lo hi body s = s := by
  unfold forLoop
  rw [Nat.sub_eq_zero_of_le h]
  rfl

theorem forLoop_first {σ : Type} (lo hi : Nat) (body : Nat → σ → σ) (s : σ) (h : lo < hi) :
    forLoop lo hi body s = forLoop (lo + 1) hi body (body lo s) := by
  unfold forLoop
  obtain ⟨n, hn⟩ : ∃ n, hi - lo = n + 1 := ⟨hi - lo - 1, by omega⟩
  have h2 : hi - (lo + 1) = n := by omega
  rw [hn, h2, List.range'_succ, List.foldl_cons]

theorem forLoop_last {σ : Type} (lo hi : Nat) (body : Nat → σ → σ) (s : σ) (h : lo ≤ hi) :
    forLoop lo (hi + 1) body s = body hi (forLoop lo hi body s) := by
  unfold forLoop
  have h2 : hi + 1 - lo = (hi - lo) + 1 := by omega
  rw [h2, List.range'_concat, List.foldl_append, List.foldl_cons, List.foldl_nil]
  congr 1
  omega

/-- Invariant rule for `forLoop`. -/
theorem forLoop_inv {σ : Type} (I : Nat → σ → Prop) (lo hi : Nat) (body : Nat → σ → σ)
    (s : σ) (hle : lo ≤ hi) (h0 : I lo s)
    (hstep : ∀ i st, lo ≤ i → i < hi → I i st → I (i + 1) (body i st)) :
    I hi (forLoop lo hi body s) := by
  induction hi with
  | zero =>
    have : lo = 0 := by omega
    subst this
    rw [forLoop_empty _ _ _ _ (le_refl _)]
    exact h0
  | succ n ih =>
    rcases Nat.eq_or_lt_of_le hle with heq | hlt
    · rw [← heq, forLoop_empty _ _ _ _ (le_refl _)]
      exact h0
    · have hle' : lo ≤ n := by omega
      rw [forLoop_last _ _ _ _ hle']
      exact hstep n _ hle' (by omega)
        (ih hle' (fun i st h1 h2 hI => hstep i st h1 (by omega) hI))

end TinyQR

namespace TinyQR

/-! ## Codeword interleaver -/

theorem replay_append (l₁ l₂ : List Store) (buf : Nat → Nat) :
    replay (l₁ ++ l₂) buf = replay l₂ (replay l₁ buf) := by
  simp [replay, List.foldl_append]

theorem replay_concat (l : List Store) (s : Store) (buf : Nat → Nat) :
    replay (l ++ [s]) buf = setAt (replay l buf) s.index s.value := by
  simp [replay, List.foldl_append]

theorem replay_nil (buf : Nat → Nat) : replay [] buf = buf := rfl

theorem dataOffsetAt_succ (mp : Nat → Nat) (b k : Nat) :
    dataOffsetAt mp b (k + 1) = dataOffsetAt mp b k +
      ((if k + 1 < mp 2 then mp 1 else 0) + (if k + 1 < mp 4 then mp 3 else 0)) := by
  by_cases c1 : k + 1 < mp 2 <;> by_cases c2 : k + 1 < mp 4 <;> simp [dataOffsetAt, c1, c2]
  omega

/-- The stores of the data loop: byte `i` goes to `dataOffsetAt mp b i`; the flag is kept
when the bytes read lie inside `message` and the offsets stay below 532. -/
theorem copyData_spec (mp message : Nat → Nat) (b off d : Nat) (out : Nat → Nat)
    (tr : List Store) (ok0 : Bool) :
    let dstore : Nat → Store := fun i =>
      ⟨StoreKind.data, b, i, dataOffsetAt mp b i, message (i + off)⟩
    (copyData mp message b off d ⟨out, b, tr, ok0⟩).trace =
        ((List.range d).map dstore).reverse ++ tr ∧
      (copyData mp message b off d ⟨out, b, tr, ok0⟩).interleaved_output =
        replay ((List.range d).map dstore) out ∧
      (off + d ≤ 244 → (∀ i, dataOffsetAt mp b i < 532) →
        (copyData mp message b off d ⟨out, b, tr, ok0⟩).ok = ok0) := by
  intro dstore
  have h := forLoop_inv
    (fun i (c : OutCursor) =>
      c.trace = ((List.range i).map dstore).reverse ++ tr ∧
      c.interleaved_output = replay ((List.range i).map dstore) out ∧
      c.interleaved_output_offset = dataOffsetAt mp b i ∧
      (off + d ≤ 244 → (∀ i, dataOffsetAt mp b i < 532) → c.ok = ok0))
    0 d
    (fun i (c : OutCursor) =>
      let c := c.load (i + off) 244
      let c := c.store StoreKind.data b i (message (i + off))
      let c := if i + 1 < mp 2 then c.advance (mp 1) else c
      if i + 1 < mp 4 then c.advance (mp 3) else c)
    ⟨out, b, tr, ok0⟩ (Nat.zero_le _)
    ⟨by simp, by simp [replay_nil], by simp [dataOffsetAt], fun _ _ => rfl⟩
    (by
      intro i c _ hid ⟨h1, h2, h3, h4⟩
      have hst : ((c.load (i + off) 244).store StoreKind.data b i (message (i + off))) =
          ⟨setAt c.interleaved_output (dataOffsetAt mp b i) (message (i + off)),
            dataOffsetAt mp b i, dstore i :: c.trace,
            c.ok && decide (i + off < 244) && decide (dataOffsetAt mp b i < 532)⟩ := by
        simp [OutCursor.store, OutCursor.load, h3, dstore]
      simp only [hst]
      refine ⟨?_, ?_, ?_, ?_⟩
      · by_cases c1 : i + 1 < mp 2 <;> by_cases c2 : i + 1 < mp 4 <;>
          simp [c1, c2, h1, List.range_succ, OutCursor.advance]
      · by_cases c1 : i + 1 < mp 2 <;> by_cases c2 : i + 1 < mp 4 <;>
          simp [c1, c2, h2, List.range_succ, replay_concat, dstore, OutCursor.advance]
      · by_cases c1 : i + 1 < mp 2 <;> by_cases c2 : i + 1 < mp 4 <;>
          simp [c1, c2, dataOffsetAt, OutCursor.advance]
      · intro hm hb
        have e0 := h4 hm hb
        have e1 : i + off < 244 := by omega
        have e2 := hb i
        have e3 := hb (i + 1)
        rw [dataOffsetAt_succ] at e3
        by_cases c1 : i + 1 < mp 2 <;> by_cases c2 : i + 1 < mp 4 <;>
          simp only [c1, c2, if_true, if_false, Nat.add_zero, Nat.zero_add] at e3 ⊢ <;>
          simp only [OutCursor.advance, e0, e1, e2, decide_True, Bool.and_true,
            Bool.and_eq_true, decide_eq_true_eq, Bool.and_self]
        · have : dataOffsetAt mp b i + mp 1 < 32768 := by omega
          have : dataOffsetAt mp b i + mp 1 + mp 3 < 32768 := by omega
          simp [*]
        · have : dataOffsetAt mp b i + mp 1 < 32768 := by omega
          simp [*]
        · have : dataOffsetAt mp b i + mp 3 < 32768 := by omega
          simp [*])
  exact ⟨h.1, h.2.1, h.2.2.2⟩

/-- The stores of the error loop: codeword `i` goes to `start + i * total_blocks`; the flag
is kept when `e ≤ 30` and the offsets stay below 532. -/
theorem copyError_spec (total_blocks b e : Nat) (errorcode : List Nat) (out : Nat → Nat)
    (start : Nat) (tr : List Store) (ok0 : Bool) :
    let estore : Nat → Store := fun i =>
      ⟨StoreKind.error, b, i, start + i * total_blocks, errorcode.getD i 0⟩
    (copyError total_blocks b e errorcode ⟨out, start, tr, ok0⟩).trace =
        ((List.range e).map estore).reverse ++ tr ∧
      (copyError total_blocks b e errorcode ⟨out, start, tr, ok0⟩).interleaved_output =
        replay ((List.range e).map estore) out ∧
      (e ≤ 30 → start + e * total_blocks < 532 + total_blocks → start + e * total_blocks < 32768 →
        (copyError total_blocks b e errorcode ⟨out, start, tr, ok0⟩).ok = ok0) := by
  intro estore
  have h := forLoop_inv
    (fun i (c : OutCursor) =>
      c.trace = ((List.range i).map estore).reverse ++ tr ∧
      c.interleaved_output = replay ((List.range i).map estore) out ∧
      c.interleaved_output_offset = start + i * total_blocks ∧
      (e ≤ 30 → start + e * total_blocks < 532 + total_blocks →
        start + e * total_blocks < 32768 → c.ok = ok0))
    0 e
    (fun i (c : OutCursor) =>
      let c := c.load i 30
      let c := c.store StoreKind.error b i (errorcode.getD i 0)
      c.advance total_blocks)
    ⟨out, start, tr, ok0⟩ (Nat.zero_le _)
    ⟨by simp, by simp [replay_nil], by simp, fun _ _ _ => rfl⟩
    (by
      intro i c _ hie ⟨h1, h2, h3, h4⟩
      refine ⟨?_, ?_, ?_, ?_⟩
      · simp [OutCursor.store, OutCursor.load, OutCursor.advance, h1, h3, List.range_succ,
          estore]
      · simp [OutCursor.store, OutCursor.load, OutCursor.advance, h2, h3, List.range_succ,
          replay_concat, estore]
      · simp [OutCursor.store, OutCursor.load, OutCursor.advance, h3]; ring
      · intro he hb hw
        have e0 := h4 he hb hw
        have e1 : i < 30 := by omega
        obtain ⟨k, hk⟩ : ∃ k, e = i + 1 + k := ⟨e - (i + 1), by omega⟩
        have hmul : e * total_blocks = i * total_blocks + total_blocks + k * total_blocks := by
          rw [hk]; ring
        have e2 : start + i * total_blocks < 532 := by omega
        have e3 : start + i * total_blocks + total_blocks < 32768 := by omega
        simp [OutCursor.store, OutCursor.load, OutCursor.advance, h3, e0, e1, e2, e3])
  exact ⟨h.1, h.2.1, h.2.2.2⟩

/-- What one execution of the block body does, for the block numbered `b`. -/
theorem interleaveBlock_spec (a a_inv generator mp message : Nat → Nat) (b : Nat)
    (s : Interleaver) (hb : s.block_number = b) (hoff : s.message_offset = blockOffset mp b)
    (hec : s.errorcode = errorcodeAfter a a_inv generator mp message b) :
    (interleaveBlock a a_inv generator mp message (blockSize mp b) s).block_number = b + 1 ∧
      (interleaveBlock a a_inv generator mp message (blockSize mp b) s).message_offset =
        blockOffset mp b + blockSize mp b ∧
      (interleaveBlock a a_inv generator mp message (blockSize mp b) s).errorcode =
        errorcodeAfter a a_inv generator mp message (b + 1) ∧
      (interleaveBlock a a_inv generator mp message (blockSize mp b) s).trace =
        (blockStores a a_inv generator mp message b).reverse ++ s.trace ∧
      (interleaveBlock a a_inv generator mp message (blockSize mp b) s).interleaved_output =
        replay (blockStores a a_inv generator mp message b) s.interleaved_output := by
  have hrs : reedSolomon a a_inv (blockSize mp b) (blockOffset mp b) message (mp 0)
      s.errorcode generator = errorcodeAfter a a_inv generator mp message (b + 1) := by
    rw [hec]; rfl
  generalize hok : (s.ok && decide (13 ≤ mp 0) &&
    (reedSolomonAccesses a a_inv (blockSize mp b) (blockOffset mp b) message (mp 0)
      s.errorcode generator).all (fun k => decide (k < 30))) = ok1
  obtain ⟨hd1, hd2, _⟩ := copyData_spec mp message b (blockOffset mp b) (blockSize mp b)
    s.interleaved_output s.trace ok1
  generalize hok2 : ((copyData mp message b (blockOffset mp b) (blockSize mp b)
      ⟨s.interleaved_output, b, s.trace, ok1⟩).ok &&
      decide (mp 1 * mp 2 + mp 3 * mp 4 + b < 32768)) = ok2
  obtain ⟨he1, he2, _⟩ := copyError_spec (mp 1 + mp 3) b (mp 0)
    (errorcodeAfter a a_inv generator mp message (b + 1))
    (copyData mp message b (blockOffset mp b) (blockSize mp b)
      ⟨s.interleaved_output, b, s.trace, ok1⟩).interleaved_output
    (mp 1 * mp 2 + mp 3 * mp 4 + b)
    (copyData mp message b (blockOffset mp b) (blockSize mp b)
      ⟨s.interleaved_output, b, s.trace, ok1⟩).trace ok2
  simp only [interleaveBlock, hb, hoff, hrs, hok, hok2]
  refine ⟨trivial, trivial, trivial, ?_, ?_⟩
  · rw [he1, hd1]
    simp [blockStores, totalData, totalBlocks]
  · rw [he2, hd2]
    simp [blockStores, replay_append, totalData, totalBlocks]

/-- The flag after one execution of the block body: it is kept when the calls stay
inside the arrays. -/
theorem interleaveBlock_ok (a a_inv generator mp message : Nat → Nat) (b : Nat)
    (s : Interleaver) (hb : s.block_number = b) (hoff : s.message_offset = blockOffset mp b)
    (hec : s.errorcode = errorcodeAfter a a_inv generator mp message b)
    (hok : s.ok = true) (hE : 13 ≤ mp 0) (hE30 : mp 0 ≤ 30)
    (hacc : ∀ k ∈ reedSolomonAccesses a a_inv (blockSize mp b) (blockOffset mp b) message
      (mp 0) (errorcodeAfter a a_inv generator mp message b) generator, k < 30)
    (hmsg : blockOffset mp b + blockSize mp b ≤ 244)
    (hdata : ∀ i, dataOffsetAt mp b i < 532)
    (herr : totalData mp + b + mp 0 * totalBlocks mp < 532 + totalBlocks mp)
    (hB : totalBlocks mp ≤ 532) :
    (interleaveBlock a a_inv generator mp message (blockSize mp b) s).ok = true := by
  have hrs : reedSolomon a a_inv (blockSize mp b) (blockOffset mp b) message (mp 0)
      s.errorcode generator = errorcodeAfter a a_inv generator mp message (b + 1) := by
    rw [hec]; rfl
  have hok1 : (s.ok && decide (13 ≤ mp 0) &&
      (reedSolomonAccesses a a_inv (blockSize mp b) (blockOffset mp b) message (mp 0)
        s.errorcode generator).all (fun k => decide (k < 30))) = true := by
    rw [hok, hec]
    simp only [Bool.true_and, Bool.and_eq_true, decide_eq_true_eq, List.all_eq_true]
    exact ⟨hE, hacc⟩
  obtain ⟨_, _, hd3⟩ := copyData_spec mp message b (blockOffset mp b) (blockSize mp b)
    s.interleaved_output s.trace true
  have hd := hd3 hmsg hdata
  unfold totalData totalBlocks at herr
  unfold totalBlocks at hB
  have hD : mp 1 * mp 2 + mp 3 * mp 4 + b < 532 := by
    have : 1 * (mp 1 + mp 3) ≤ mp 0 * (mp 1 + mp 3) := Nat.mul_le_mul_right _ (by omega)
    omega
  have hok2 : ((copyData mp message b (blockOffset mp b) (blockSize mp b)
      ⟨s.interleaved_output, b, s.trace, true⟩).ok &&
      decide (mp 1 * mp 2 + mp 3 * mp 4 + b < 32768)) = true := by
    rw [hd]
    simp only [Bool.true_and, decide_eq_true_eq]
    omega
  obtain ⟨_, _, he3⟩ := copyError_spec (mp 1 + mp 3) b (mp 0)
    (errorcodeAfter a a_inv generator mp message (b + 1))
    (copyData mp message b (blockOffset mp b) (blockSize mp b)
      ⟨s.interleaved_output, b, s.trace, true⟩).interleaved_output
    (mp 1 * mp 2 + mp 3 * mp 4 + b)
    (copyData mp message b (blockOffset mp b) (blockSize mp b)
      ⟨s.interleaved_output, b, s.trace, true⟩).trace true
  have he := he3 hE30 herr (by omega)
  simp only [interleaveBlock, hb, hoff, hrs, hok1, hok2, he, Bool.true_and, Bool.and_eq_true,
    decide_eq_true_eq]
  constructor <;> omega

end TinyQR

namespace TinyQR

theorem blockSizes_length (mp : Nat → Nat) : (blockSizes mp).length = totalBlocks mp := by
  simp [blockSizes, totalBlocks]

theorem blockSize_first (mp : Nat → Nat) (b : Nat) (h : b < mp 1) : blockSize mp b = mp 2 := by
  unfold blockSize blockSizes
  rw [List.getD_eq_getElem _ _ (by simp; omega), List.getElem_append_left (by simp; exact h)]
  simp

theorem blockSize_second (mp : Nat → Nat) (k : Nat) (h : k < mp 3) :
    blockSize mp (mp 1 + k) = mp 4 := by
  unfold blockSize blockSizes
  rw [List.getD_eq_getElem _ _ (by simp; omega), List.getElem_append_right (by simp)]
  simp

theorem blockOffset_succ (mp : Nat → Nat) (b : Nat) (h : b < totalBlocks mp) :
    blockOffset mp (b + 1) = blockOffset mp b + blockSize mp b := by
  unfold blockOffset blockSize
  rw [List.sum_take_succ _ _ (by rw [blockSizes_length]; exact h),
    List.getD_eq_getElem _ _ (by rw [blockSizes_length]; exact h)]

/-- The stores of the first `b` blocks, in program order. -/
theorem allStores_succ (a a_inv generator mp message : Nat → Nat) (b : Nat) :
    (List.range (b + 1)).flatMap (blockStores a a_inv generator mp message) =
      (List.range b).flatMap (blockStores a a_inv generator mp message) ++
        blockStores a a_inv generator mp message b := by
  simp [List.range_succ]

theorem InterleaveInv_step (a a_inv generator mp message : Nat → Nat) (b : Nat)
    (s : Interleaver) (hb : b < totalBlocks mp)
    (h : InterleaveInv a a_inv generator mp message b s) :
    InterleaveInv a a_inv generator mp message (b + 1)
      (interleaveBlock a a_inv generator mp message (blockSize mp b) s) := by
  obtain ⟨h1, h2, h3, h4, h5⟩ := h
  obtain ⟨g1, g2, g3, g4, g5⟩ := interleaveBlock_spec a a_inv generator mp message b s h1 h2 h3
  refine ⟨g1, ?_, g3, ?_, ?_⟩
  · rw [g2, blockOffset_succ mp b hb]
  · rw [g4, h4, allStores_succ, List.reverse_append]
  · rw [g5, h5, allStores_succ, replay_append]

/-- The whole interleaver: the stores of all blocks, block after block. -/
theorem interleave_spec (a a_inv generator mp message : Nat → Nat) :
    InterleaveInv a a_inv generator mp message (totalBlocks mp)
      (interleave a a_inv generator mp message) := by
  have h0 : InterleaveInv a a_inv generator mp message 0 interleaveInit := by
    refine ⟨rfl, ?_, rfl, ?_, ?_⟩
    · simp [interleaveInit, blockOffset]
    · simp [interleaveInit]
    · simp [interleaveInit, replay_nil]
  have hg1 := forLoop_inv (fun k st => InterleaveInv a a_inv generator mp message k st)
    0 (mp 1) (fun _ st => interleaveBlock a a_inv generator mp message (mp 2) st)
    interleaveInit (Nat.zero_le _) h0
    (by
      intro i st _ hi hI
      have := InterleaveInv_step a a_inv generator mp message i st
        (by unfold totalBlocks; omega) hI
      rwa [blockSize_first mp i hi] at this)
  have hg2 := forLoop_inv
    (fun k st => InterleaveInv a a_inv generator mp message (mp 1 + k) st)
    0 (mp 3) (fun _ st => interleaveBlock a a_inv generator mp message (mp 4) st)
    (forLoop 0 (mp 1) (fun _ st => interleaveBlock a a_inv generator mp message (mp 2) st)
      interleaveInit) (Nat.zero_le _) hg1
    (by
      intro i st _ hi hI
      have := InterleaveInv_step a a_inv generator mp message (mp 1 + i) st
        (by unfold totalBlocks; omega) hI
      rwa [blockSize_second mp i hi] at this)
  have hunf : interleave a a_inv generator mp message =
      forLoop 0 (mp 3) (fun _ st => interleaveBlock a a_inv generator mp message (mp 4) st)
        (forLoop 0 (mp 1) (fun _ st => interleaveBlock a a_inv generator mp message (mp 2) st)
          interleaveInit) := by
    unfold interleave
    rw [forLoop_first _ _ _ _ (by decide), forLoop_first _ _ _ _ (by decide),
      forLoop_empty _ _ _ _ (le_refl _)]
  rw [hunf]
  exact hg2

end TinyQR

namespace TinyQR

/-- Number of blocks with more than `k` data codewords. -/
theorem countP_blockSizes (mp : Nat → Nat) (k : Nat) :
    (blockSizes mp).countP (fun d => k < d) =
      (if k < mp 2 then mp 1 else 0) + (if k < mp 4 then mp 3 else 0) := by
  simp [blockSizes, List.countP_append, List.countP_replicate]

/-- Number of blocks before `b` with more than `i` data codewords. -/
theorem countP_take_blockSizes (mp : Nat → Nat) (b i : Nat) :
    ((blockSizes mp).take b).countP (fun d => i < d) =
      (if i < mp 2 then min b (mp 1) else 0) + (if i < mp 4 then min (b - mp 1) (mp 3) else 0) := by
  simp [blockSizes, List.take_append_eq_append_take, List.take_replicate, List.countP_append,
    List.countP_replicate]

/-- The running offset of the data loop against the sum in the interleaving rule. -/
theorem dataOffsetAt_sum (mp : Nat → Nat) (b i : Nat) :
    dataOffsetAt mp b i + (blockSizes mp).countP (fun d => 0 < d) =
      b + ((List.range i).map (fun k => (blockSizes mp).countP (fun d => k < d))).sum +
        (blockSizes mp).countP (fun d => i < d) := by
  induction i with
  | zero => simp [dataOffsetAt]
  | succ i ih =>
    rw [dataOffsetAt_succ, List.range_succ, List.map_append, List.sum_append]
    simp only [List.map_cons, List.map_nil, List.sum_cons, List.sum_nil]
    rw [countP_blockSizes mp (i + 1)]
    omega

/-- On a row whose first group has blocks of at least one codeword and no longer than
those of the second group, or whose second group is empty, the data loop stores byte `i`
of block `b` at the index of the interleaving rule. -/
theorem dataOffsetAt_eq_spec (mp : Nat → Nat)
    (hrow : (1 ≤ mp 2 ∧ mp 2 ≤ mp 4) ∨ mp 3 = 0) (b i : Nat) (hb : b < totalBlocks mp)
    (hi : i < blockSize mp b) : dataOffsetAt mp b i = specDataIndex mp b i := by
  have hsum := dataOffsetAt_sum mp b i
  unfold specDataIndex
  rw [countP_take_blockSizes]
  rw [countP_blockSizes mp 0, countP_blockSizes mp i] at hsum
  unfold totalBlocks at hb
  rcases Nat.lt_or_ge b (mp 1) with h1 | h1
  · rw [blockSize_first mp b h1] at hi
    have hm : min b (mp 1) = b := Nat.min_eq_left (le_of_lt h1)
    have hm2 : min (b - mp 1) (mp 3) = 0 := by
      rw [Nat.sub_eq_zero_of_le (le_of_lt h1)]; simp
    rw [hm, hm2]
    rcases hrow with ⟨r1, r2⟩ | r3
    · have e1 : i < mp 4 := by omega
      have e2 : 0 < mp 2 := by omega
      have e3 : 0 < mp 4 := by omega
      simp only [hi, e1, e2, e3, if_true] at hsum ⊢
      omega
    · have e2 : 0 < mp 2 := by omega
      simp only [hi, e2, r3, if_true] at hsum ⊢
      split_ifs at hsum ⊢ <;> omega
  · obtain ⟨k, hk⟩ : ∃ k, b = mp 1 + k := ⟨b - mp 1, by omega⟩
    have hk3 : k < mp 3 := by omega
    rw [hk, blockSize_second mp k hk3] at hi
    have hm : min b (mp 1) = mp 1 := Nat.min_eq_right h1
    have hm2 : min (b - mp 1) (mp 3) = k := by
      rw [hk, Nat.add_sub_cancel_left]; exact Nat.min_eq_left (le_of_lt hk3)
    rw [hm, hm2]
    rcases hrow with ⟨r1, r2⟩ | r3
    · have e2 : 0 < mp 2 := by omega
      have e3 : 0 < mp 4 := by omega
      simp only [hi, e2, e3, if_true] at hsum ⊢
      split_ifs at hsum ⊢ <;> omega
    · omega

end TinyQR

namespace TinyQR

/-! ## The interleaver stays inside its arrays -/

/-- The indices of its buffer that `reedSolomon` accesses are at most
`max error_codewords data_codewords`. -/
theorem reedSolomonAccesses_le_max (a a_inv message generator : Nat → Nat)
    (errorcode : List Nat) (d off E : Nat) :
    ∀ k ∈ reedSolomonAccesses a a_inv d off message E errorcode generator, k ≤ max E d := by
  have hstep : ∀ ec : List Nat, ∀ k ∈ rsStepAccesses d E ec, k ≤ max E d := by
    intro ec k hk
    unfold rsStepAccesses at hk
    simp only [List.mem_append, List.mem_cons, List.mem_singleton, List.not_mem_nil,
      or_false] at hk
    rcases hk with ((h | h) | h) | h
    · omega
    · omega
    · split_ifs at h
      · obtain ⟨i, hi, hk⟩ := List.mem_flatMap.mp h
        have := List.mem_range'_1.mp hi
        rcases List.mem_append.mp hk with h1 | h1
        · split_ifs at h1
          · rw [List.mem_singleton.mp h1]; omega
          · cases h1
        · rw [List.mem_singleton.mp h1]; omega
      · obtain ⟨i, hi, hk⟩ := List.mem_flatMap.mp h
        have := List.mem_range'_1.mp hi
        simp only [List.mem_cons, List.mem_singleton, List.not_mem_nil, or_false] at hk
        omega
    · obtain ⟨i, hi, hk⟩ := List.mem_flatMap.mp h
      have := List.mem_range'_1.mp hi
      simp only [List.mem_cons, List.mem_singleton, List.not_mem_nil, or_false] at hk
      omega
  intro k hk
  unfold reedSolomonAccesses at hk
  rcases List.mem_append.mp hk with h | h
  · unfold rsInitAccesses at h
    rcases List.mem_append.mp h with h | h
    · have := List.mem_range'_1.mp h
      omega
    · have := List.mem_range'_1.mp h
      omega
  · exact forLoop_inv (fun _ (st : List Nat × List Nat) => ∀ k ∈ st.2, k ≤ max E d) 1 (d + 1) _ _
      (by omega) (fun k hk => by cases hk)
      (fun i st _ _ hst k hk => by
        rcases List.mem_append.mp hk with h | h
        · exact hst k h
        · exact hstep _ k h) k h

theorem sum_blockSizes (mp : Nat → Nat) : (blockSizes mp).sum = totalData mp := by
  simp [blockSizes, totalData, List.sum_append, List.sum_replicate]

theorem blockOffset_le (mp : Nat → Nat) (b : Nat) : blockOffset mp b ≤ totalData mp := by
  unfold blockOffset
  rw [← sum_blockSizes]
  conv_rhs => rw [← List.take_append_drop b (blockSizes mp), List.sum_append]
  exact Nat.le_add_right _ _

theorem mul_min_succ (n i d : Nat) :
    n * min (i + 1) (d - 1) = n * min i (d - 1) + (if i + 1 < d then n else 0) := by
  by_cases h : i + 1 < d
  · rw [if_pos h, Nat.min_eq_left (by omega), Nat.min_eq_left (by omega), Nat.mul_succ]
  · rw [if_neg h, Nat.min_eq_right (by omega), Nat.min_eq_right (by omega), Nat.add_zero]

/-- The offset of the data loop in closed form. -/
theorem dataOffsetAt_closed (mp : Nat → Nat) (b i : Nat) :
    dataOffsetAt mp b i = b + mp 1 * min i (mp 2 - 1) + mp 3 * min i (mp 4 - 1) := by
  induction i with
  | zero => simp [dataOffsetAt]
  | succ i ih =>
    rw [dataOffsetAt_succ, ih, mul_min_succ, mul_min_succ]
    omega

theorem dataOffsetAt_le (mp : Nat → Nat) (b i : Nat) :
    dataOffsetAt mp b i ≤ b + totalData mp := by
  rw [dataOffsetAt_closed]
  unfold totalData
  have h1 : mp 1 * min i (mp 2 - 1) ≤ mp 1 * mp 2 := Nat.mul_le_mul_left _ (by omega)
  have h2 : mp 3 * min i (mp 4 - 1) ≤ mp 3 * mp 4 := Nat.mul_le_mul_left _ (by omega)
  omega

/-- On a row that fits the arrays, block `b` stays inside them. -/
theorem InterleaveInv_ok_step (a a_inv generator mp message : Nat → Nat) (hfit : RowFits mp)
    (b : Nat) (s : Interleaver) (hb : b < totalBlocks mp)
    (h : InterleaveInv a a_inv generator mp message b s) (hok : s.ok = true) :
    (interleaveBlock a a_inv generator mp message (blockSize mp b) s).ok = true := by
  obtain ⟨h1, h2, h3, _, _⟩ := h
  obtain ⟨f1, f2, f3, f4, f5, f6⟩ := hfit
  have hEB : 1 * totalBlocks mp ≤ mp 0 * totalBlocks mp := Nat.mul_le_mul_right _ (by omega)
  have hsize : blockSize mp b < 30 := by
    unfold totalBlocks at hb
    rcases Nat.lt_or_ge b (mp 1) with g | g
    · rw [blockSize_first mp b g]; omega
    · obtain ⟨k, hk⟩ : ∃ k, b = mp 1 + k := ⟨b - mp 1, by omega⟩
      rw [hk, blockSize_second mp k (by omega)]; omega
  apply interleaveBlock_ok a a_inv generator mp message b s h1 h2 h3 hok f1 (by omega)
  · intro k hk
    have := reedSolomonAccesses_le_max _ _ _ _ _ _ _ _ k hk
    omega
  · rw [← blockOffset_succ mp b hb]
    exact le_trans (blockOffset_le mp (b + 1)) f5
  · intro i
    have := dataOffsetAt_le mp b i
    omega
  · omega
  · omega

/-- On a row that fits the arrays, the interleaver makes no access outside `message`,
`errorcode` and `interleaved_output`, and no offset leaves the `int16_t` range. -/
theorem interleave_ok (a a_inv generator mp message : Nat → Nat) (hfit : RowFits mp) :
    (interleave a a_inv generator mp message).ok = true := by
  have h0 : InterleaveInv a a_inv generator mp message 0 interleaveInit ∧
      interleaveInit.ok = true := by
    refine ⟨⟨rfl, ?_, rfl, ?_, ?_⟩, rfl⟩
    · simp [interleaveInit, blockOffset]
    · simp [interleaveInit]
    · simp [interleaveInit, replay_nil]
  have hg1 := forLoop_inv
    (fun k st => InterleaveInv a a_inv generator mp message k st ∧ st.ok = true)
    0 (mp 1) (fun _ st => interleaveBlock a a_inv generator mp message (mp 2) st)
    interleaveInit (Nat.zero_le _) h0
    (by
      intro i st _ hi ⟨hI, hk⟩
      have hb : i < totalBlocks mp := by unfold totalBlocks; omega
      have h1 := InterleaveInv_step a a_inv generator mp message i st hb hI
      have h2 := InterleaveInv_ok_step a a_inv generator mp message hfit i st hb hI hk
      rw [blockSize_first mp i hi] at h1 h2
      exact ⟨h1, h2⟩)
  have hg2 := forLoop_inv
    (fun k st => InterleaveInv a a_inv generator mp message (mp 1 + k) st ∧ st.ok = true)
    0 (mp 3) (fun _ st => interleaveBlock a a_inv generator mp message (mp 4) st)
    (forLoop 0 (mp 1) (fun _ st => interleaveBlock a a_inv generator mp message (mp 2) st)
      interleaveInit) (Nat.zero_le _) hg1
    (by
      intro i st _ hi ⟨hI, hk⟩
      have hb : mp 1 + i < totalBlocks mp := by unfold totalBlocks; omega
      have h1 := InterleaveInv_step a a_inv generator mp message (mp 1 + i) st hb hI
      have h2 := InterleaveInv_ok_step a a_inv generator mp message hfit (mp 1 + i) st hb hI hk
      rw [blockSize_second mp i hi] at h1 h2
      exact ⟨h1, h2⟩)
  have hunf : interleave a a_inv generator mp message =
      forLoop 0 (mp 3) (fun _ st => interleaveBlock a a_inv generator mp message (mp 4) st)
        (forLoop 0 (mp 1) (fun _ st => interleaveBlock a a_inv generator mp message (mp 2) st)
          interleaveInit) := by
    unfold interleave
    rw [forLoop_first _ _ _ _ (by decide), forLoop_first _ _ _ _ (by decide),
      forLoop_empty _ _ _ _ (le_refl _)]
  rw [hunf]
  exact hg2.2

end TinyQR

namespace TinyQR

theorem filter_flatMap' {α β : Type} (p : β → Bool) (f : α → List β) (l : List α) :
    (l.flatMap f).filter p = l.flatMap (fun x => (f x).filter p) := by
  induction l with
  | nil => rfl
  | cons x l ih => simp [List.flatMap_cons, List.filter_append, ih]

theorem flatMap_congr_range {β : Type} (n : Nat) (f g : Nat → List β)
    (h : ∀ b < n, f b = g b) : (List.range n).flatMap f = (List.range n).flatMap g := by
  induction n with
  | zero => rfl
  | succ n ih =>
    simp only [List.range_succ, List.flatMap_append, List.flatMap_cons, List.flatMap_nil,
      List.append_nil]
    rw [ih (fun b hb => h b (by omega)), h n (by omega)]

theorem blockStores_filter_data (a a_inv generator mp message : Nat → Nat) (b : Nat) :
    (blockStores a a_inv generator mp message b).filter
        (fun s => decide (s.kind = StoreKind.data)) =
      (List.range (blockSize mp b)).map
        (fun i => ⟨StoreKind.data, b, i, dataOffsetAt mp b i, message (i + blockOffset mp b)⟩) := by
  unfold blockStores
  rw [List.filter_append]
  have h1 : ∀ l : List Nat, (l.map (fun i => (⟨StoreKind.data, b, i, dataOffsetAt mp b i,
      message (i + blockOffset mp b)⟩ : Store))).filter
        (fun s => decide (s.kind = StoreKind.data)) =
      l.map (fun i => ⟨StoreKind.data, b, i, dataOffsetAt mp b i,
        message (i + blockOffset mp b)⟩) := by
    intro l
    induction l with
    | nil => rfl
    | cons x l ih => simp [List.filter_cons, ih]
  have h2 : ∀ l : List Nat, (l.map (fun i => (⟨StoreKind.error, b, i,
      totalData mp + b + i * totalBlocks mp,
      (errorcodeAfter a a_inv generator mp message (b + 1)).getD i 0⟩ : Store))).filter
        (fun s => decide (s.kind = StoreKind.data)) = [] := by
    intro l
    induction l with
    | nil => rfl
    | cons x l ih => simp [List.filter_cons, ih]
  rw [h1, h2, List.append_nil]

theorem blockStores_filter_error (a a_inv generator mp message : Nat → Nat) (b : Nat) :
    (blockStores a a_inv generator mp message b).filter
        (fun s => decide (s.kind = StoreKind.error)) =
      (List.range (mp 0)).map
        (fun i => ⟨StoreKind.error, b, i, totalData mp + b + i * totalBlocks mp,
          (errorcodeAfter a a_inv generator mp message (b + 1)).getD i 0⟩) := by
  unfold blockStores
  rw [List.filter_append]
  have h1 : ∀ l : List Nat, (l.map (fun i => (⟨StoreKind.data, b, i, dataOffsetAt mp b i,
      message (i + blockOffset mp b)⟩ : Store))).filter
        (fun s => decide (s.kind = StoreKind.error)) = [] := by
    intro l
    induction l with
    | nil => rfl
    | cons x l ih => simp [List.filter_cons, ih]
  have h2 : ∀ l : List Nat, (l.map (fun i => (⟨StoreKind.error, b, i,
      totalData mp + b + i * totalBlocks mp,
      (errorcodeAfter a a_inv generator mp message (b + 1)).getD i 0⟩ : Store))).filter
        (fun s => decide (s.kind = StoreKind.error)) =
      l.map (fun i => ⟨StoreKind.error, b, i, totalData mp + b + i * totalBlocks mp,
        (errorcodeAfter a a_inv generator mp message (b + 1)).getD i 0⟩) := by
    intro l
    induction l with
    | nil => rfl
    | cons x l ih => simp [List.filter_cons, ih]
  rw [h1, h2, List.nil_append]

theorem interleave_trace (a a_inv generator mp message : Nat → Nat) :
    (interleave a a_inv generator mp message).trace.reverse =
      (List.range (totalBlocks mp)).flatMap (blockStores a a_inv generator mp message) := by
  rw [(interleave_spec a a_inv generator mp message).2.2.2.1, List.reverse_reverse]

theorem length_flatMap_const {α : Type} (n c : Nat) (f : Nat → List α)
    (h : ∀ b, (f b).length = c) : ((List.range n).flatMap f).length = n * c := by
  induction n with
  | zero => simp
  | succ n ih =>
    simp only [List.range_succ, List.flatMap_append, List.flatMap_cons, List.flatMap_nil,
      List.append_nil, List.length_append]
    rw [ih, h]; ring

/-- Every executed store is a data store or an error store of some block. -/
theorem store_cases (a a_inv generator mp message : Nat → Nat) (t : Store)
    (ht : t ∈ (interleave a a_inv generator mp message).trace) :
    ∃ b, b < totalBlocks mp ∧
      ((∃ i, i < blockSize mp b ∧ t =
          ⟨StoreKind.data, b, i, dataOffsetAt mp b i, message (i + blockOffset mp b)⟩) ∨
        ∃ i, i < mp 0 ∧ t =
          ⟨StoreKind.error, b, i, totalData mp + b + i * totalBlocks mp,
            (errorcodeAfter a a_inv generator mp message (b + 1)).getD i 0⟩) := by
  rw [← List.mem_reverse, interleave_trace, List.mem_flatMap] at ht
  obtain ⟨b, hb, hmem⟩ := ht
  refine ⟨b, List.mem_range.mp hb, ?_⟩
  unfold blockStores at hmem
  rcases List.mem_append.mp hmem with h | h
  · obtain ⟨i, hi, rfl⟩ := List.mem_map.mp h
    exact Or.inl ⟨i, List.mem_range.mp hi, rfl⟩
  · obtain ⟨i, hi, rfl⟩ := List.mem_map.mp h
    exact Or.inr ⟨i, List.mem_range.mp hi, rfl⟩

/-- A data store of the trace. -/
theorem data_store_mem (a a_inv generator mp message : Nat → Nat) (b i : Nat)
    (hb : b < totalBlocks mp) (hi : i < blockSize mp b) :
    (⟨StoreKind.data, b, i, dataOffsetAt mp b i, message (i + blockOffset mp b)⟩ : Store) ∈
      (interleave a a_inv generator mp message).trace := by
  rw [← List.mem_reverse, interleave_trace, List.mem_flatMap]
  refine ⟨b, List.mem_range.mpr hb, ?_⟩
  unfold blockStores
  rw [List.mem_append]
  left
  exact List.mem_map.mpr ⟨i, List.mem_range.mpr hi, rfl⟩

/-- An error store of the trace. -/
theorem error_store_mem (a a_inv generator mp message : Nat → Nat) (b i : Nat)
    (hb : b < totalBlocks mp) (hi : i < mp 0) :
    (⟨StoreKind.error, b, i, totalData mp + b + i * totalBlocks mp,
        (errorcodeAfter a a_inv generator mp message (b + 1)).getD i 0⟩ : Store) ∈
      (interleave a a_inv generator mp message).trace := by
  rw [← List.mem_reverse, interleave_trace, List.mem_flatMap]
  refine ⟨b, List.mem_range.mpr hb, ?_⟩
  unfold blockStores
  rw [List.mem_append]
  right
  exact List.mem_map.mpr ⟨i, List.mem_range.mpr hi, rfl⟩

theorem replay_not_mem (l : List Store) (buf : Nat → Nat) (j : Nat)
    (h : j ∉ l.map (fun s => s.index)) : replay l buf j = buf j := by
  induction l generalizing buf with
  | nil => rfl
  | cons x l ih =>
    simp only [List.map_cons, List.mem_cons, not_or] at h
    show replay l (setAt buf x.index x.value) j = buf j
    rw [ih _ h.2, setAt_other _ _ _ _ h.1]

/-- When a store is the only one to its index, the buffer holds its byte there. -/
theorem replay_unique (l : List Store) (buf : Nat → Nat) (s : Store) (hs : s ∈ l)
    (huniq : ∀ t ∈ l, t.index = s.index → t = s) : replay l buf s.index = s.value := by
  induction l generalizing buf with
  | nil => cases hs
  | cons x l ih =>
    show replay l (setAt buf x.index x.value) s.index = s.value
    by_cases hmem : s ∈ l
    · exact ih _ hmem (fun t ht => huniq t (List.mem_cons_of_mem _ ht))
    · have hx : s = x := by
        rcases List.mem_cons.mp hs with h | h
        · exact h
        · exact absurd h hmem
      have hnot : s.index ∉ l.map (fun t => t.index) := by
        intro h
        obtain ⟨t, ht, hidx⟩ := List.mem_map.mp h
        have := huniq t (List.mem_cons_of_mem _ ht) hidx
        rw [this] at ht
        exact hmem ht
      rw [replay_not_mem _ _ _ hnot, ← hx, setAt_same]

/-- The buffer is what the executed stores leave of the zeroed array. -/
theorem interleave_output (a a_inv generator mp message : Nat → Nat) :
    (interleave a a_inv generator mp message).interleaved_output =
      replay (interleave a a_inv generator mp message).trace.reverse (fun _ => 0) := by
  rw [interleave_trace]
  exact (interleave_spec a a_inv generator mp message).2.2.2.2

theorem mul_pred (n d : Nat) (h : 1 ≤ d) : n * (d - 1) + n = n * d := by
  obtain ⟨t, ht⟩ : ∃ t, d = t + 1 := ⟨d - 1, by omega⟩
  rw [ht, Nat.add_sub_cancel, Nat.mul_succ]

/-- With no empty block before a block that holds data, every data store goes below
index `D`. -/
theorem dataOffsetAt_lt_totalData (mp : Nat → Nat) (hrow : NoEmptyLeadingBlocks mp) (b i : Nat)
    (hb : b < totalBlocks mp) (hi : i < blockSize mp b) :
    dataOffsetAt mp b i < totalData mp := by
  rw [dataOffsetAt_closed]
  unfold totalData
  unfold totalBlocks at hb
  have h2 : mp 3 * min i (mp 4 - 1) ≤ mp 3 * (mp 4 - 1) := Nat.mul_le_mul_left _ (by omega)
  have h1 : mp 1 * min i (mp 2 - 1) ≤ mp 1 * (mp 2 - 1) := Nat.mul_le_mul_left _ (by omega)
  have h3 : mp 3 * (mp 4 - 1) ≤ mp 3 * mp 4 := Nat.mul_le_mul_left _ (by omega)
  have h4 : mp 1 * (mp 2 - 1) ≤ mp 1 * mp 2 := Nat.mul_le_mul_left _ (by omega)
  rcases Nat.lt_or_ge b (mp 1) with g | g
  · rw [blockSize_first mp b g] at hi
    have e := mul_pred (mp 1) (mp 2) (by omega)
    omega
  · obtain ⟨k, hk⟩ : ∃ k, b = mp 1 + k := ⟨b - mp 1, by omega⟩
    have hk3 : k < mp 3 := by omega
    rw [hk, blockSize_second mp k hk3] at hi
    have e := mul_pred (mp 3) (mp 4) (by omega)
    rcases hrow with r | r | r | r
    · have z : mp 1 * min i (mp 2 - 1) = 0 := by rw [r, Nat.zero_mul]
      omega
    · have e' := mul_pred (mp 1) (mp 2) r
      omega
    · omega
    · omega

theorem error_index_inj (B b i b' i' : Nat) (hb : b < B) (hb' : b' < B)
    (h : b' + i' * B = b + i * B) : b' = b ∧ i' = i := by
  have h1 : (b' + i' * B) % B = b' := by
    rw [Nat.add_mul_mod_self_right, Nat.mod_eq_of_lt hb']
  have h2 : (b + i * B) % B = b := by
    rw [Nat.add_mul_mod_self_right, Nat.mod_eq_of_lt hb]
  have hbb : b' = b := by rw [← h1, ← h2, h]
  refine ⟨hbb, ?_⟩
  rw [hbb] at h
  have : i' * B = i * B := by omega
  exact Nat.eq_of_mul_eq_mul_right (by omega) this

/-- The error stores of the trace, in program order. -/
theorem interleave_error_stores (a a_inv generator mp message : Nat → Nat) :
    (interleave a a_inv generator mp message).trace.reverse.filter
        (fun s => decide (s.kind = StoreKind.error)) =
      (List.range (totalBlocks mp)).flatMap (fun b =>
        (List.range (mp 0)).map (fun i =>
          (⟨StoreKind.error, b, i, totalData mp + i * totalBlocks mp + b,
            (reedSolomon a a_inv (blockSize mp b) (blockOffset mp b) message (mp 0)
              (errorcodeAfter a a_inv generator mp message b) generator).getD i 0⟩ : Store))) := by
  rw [interleave_trace, filter_flatMap']
  apply flatMap_congr_range
  intro b _
  rw [blockStores_filter_error]
  apply List.map_congr_left
  intro i _
  have : totalData mp + b + i * totalBlocks mp = totalData mp + i * totalBlocks mp + b := by
    omega
  rw [this]
  rfl

/-- C4, as amended (error-codeword interleaving).  On a parameter row that fits the
arrays of `parseMessage` (`13 ≤ E < 30`, blocks of fewer than 30 data codewords,
`D ≤ 244`, `D + E * B ≤ 532`) and has no block without data before a block with data,
the interleaver stays inside its arrays; the stores of line 161 are, in program order,
for each block `b` and each `i < E`, the store of byte `i` of the buffer `reedSolomon`
returned for block `b` to `interleaved_output[D + i * B + b]`, `E * B` stores in all; the
data stores all go below `D`; and on return `interleaved_output[D + i * B + b]` holds
that error codeword. -/
theorem error_codeword_interleaving (a a_inv generator mp message : Nat → Nat)
    (hfit : RowFits mp) (hrow : NoEmptyLeadingBlocks mp) :
    (interleave a a_inv generator mp message).ok = true ∧
      (interleave a a_inv generator mp message).trace.reverse.filter
          (fun s => decide (s.kind = StoreKind.error)) =
        (List.range (totalBlocks mp)).flatMap (fun b =>
          (List.range (mp 0)).map (fun i =>
            (⟨StoreKind.error, b, i, totalData mp + i * totalBlocks mp + b,
              (reedSolomon a a_inv (blockSize mp b) (blockOffset mp b) message (mp 0)
                (errorcodeAfter a a_inv generator mp message b) generator).getD i 0⟩ :
              Store))) ∧
      ((interleave a a_inv generator mp message).trace.reverse.filter
        (fun s => decide (s.kind = StoreKind.error))).length = mp 0 * totalBlocks mp ∧
      (∀ s ∈ (interleave a a_inv generator mp message).trace,
        s.kind = StoreKind.data → s.index < totalData mp) ∧
      (∀ s ∈ (interleave a a_inv generator mp message).trace,
        s.kind = StoreKind.error →
          totalData mp ≤ s.index ∧ s.index < totalData mp + mp 0 * totalBlocks mp) ∧
      ∀ b i, b < totalBlocks mp → i < mp 0 →
        (interleave a a_inv generator mp message).interleaved_output (specErrorIndex mp b i) =
          (reedSolomon a a_inv (blockSize mp b) (blockOffset mp b) message (mp 0)
            (errorcodeAfter a a_inv generator mp message b) generator).getD i 0 := by
  have key := interleave_error_stores a a_inv generator mp message
  have hdata : ∀ s ∈ (interleave a a_inv generator mp message).trace,
      s.kind = StoreKind.data → s.index < totalData mp := by
    intro s hs hk
    obtain ⟨b, hb, h | h⟩ := store_cases a a_inv generator mp message s hs
    · obtain ⟨i, hi, rfl⟩ := h
      exact dataOffsetAt_lt_totalData mp hrow b i hb hi
    · obtain ⟨i, _, rfl⟩ := h
      cases hk
  refine ⟨interleave_ok a a_inv generator mp message hfit, key, ?_, hdata, ?_, ?_⟩
  · rw [key, length_flatMap_const _ (mp 0) _ (by intro b; simp)]
    ring
  · intro s hs hk
    obtain ⟨b, hb, h | h⟩ := store_cases a a_inv generator mp message s hs
    · obtain ⟨i, _, rfl⟩ := h
      cases hk
    · obtain ⟨i, hi, rfl⟩ := h
      obtain ⟨q, hq⟩ : ∃ q, mp 0 = i + 1 + q := ⟨mp 0 - (i + 1), by omega⟩
      have e : mp 0 * totalBlocks mp =
          i * totalBlocks mp + totalBlocks mp + q * totalBlocks mp := by
        rw [hq]; ring
      show totalData mp ≤ totalData mp + b + i * totalBlocks mp ∧
        totalData mp + b + i * totalBlocks mp < totalData mp + mp 0 * totalBlocks mp
      omega
  · intro b i hb hi
    have hmem := error_store_mem a a_inv generator mp message b i hb hi
    have hidx : specErrorIndex mp b i = totalData mp + b + i * totalBlocks mp := by
      unfold specErrorIndex; omega
    rw [hidx, interleave_output]
    refine replay_unique _ (fun _ => 0)
      (⟨StoreKind.error, b, i, totalData mp + b + i * totalBlocks mp,
        (errorcodeAfter a a_inv generator mp message (b + 1)).getD i 0⟩ : Store)
      (List.mem_reverse.mpr hmem) ?_
    intro t ht hti
    obtain ⟨b', hb', h | h⟩ := store_cases a a_inv generator mp message t
      (List.mem_reverse.mp ht)
    · obtain ⟨i', hi', rfl⟩ := h
      have := dataOffsetAt_lt_totalData mp hrow b' i' hb' hi'
      have hti' : dataOffsetAt mp b' i' = totalData mp + b + i * totalBlocks mp := hti
      omega
    · obtain ⟨i', _, rfl⟩ := h
      have hti' : totalData mp + b' + i' * totalBlocks mp =
          totalData mp + b + i * totalBlocks mp := hti
      obtain ⟨e1, e2⟩ := error_index_inj (totalBlocks mp) b i b' i' hb hb' (by omega)
      rw [e1, e2]

end TinyQR

namespace TinyQR

theorem sum_countP_blockSizes (mp : Nat → Nat) (i : Nat) :
    ((List.range i).map (fun k => (blockSizes mp).countP (fun d => k < d))).sum =
      min i (mp 2) * mp 1 + min i (mp 4) * mp 3 := by
  induction i with
  | zero => simp
  | succ i ih =>
    rw [List.range_succ, List.map_append, List.sum_append, ih]
    simp only [List.map_cons, List.map_nil, List.sum_cons, List.sum_nil, countP_blockSizes]
    have e1 : min (i + 1) (mp 2) = min i (mp 2) + (if i < mp 2 then 1 else 0) := by
      split_ifs <;> omega
    have e2 : min (i + 1) (mp 4) = min i (mp 4) + (if i < mp 4 then 1 else 0) := by
      split_ifs <;> omega
    rw [e1, e2]
    split_ifs <;> ring

/-- The interleaving rule in closed form. -/
theorem specDataIndex_closed (mp : Nat → Nat) (b i : Nat) :
    specDataIndex mp b i = min i (mp 2) * mp 1 + min i (mp 4) * mp 3 +
      ((if i < mp 2 then min b (mp 1) else 0) +
        (if i < mp 4 then min (b - mp 1) (mp 3) else 0)) := by
  unfold specDataIndex
  rw [sum_countP_blockSizes, countP_take_blockSizes]

theorem map_blockSize_range (mp : Nat → Nat) :
    (List.range (totalBlocks mp)).map (blockSize mp) = blockSizes mp := by
  apply List.ext_getElem
  · simp [blockSizes_length]
  · intro n h1 h2
    simp only [List.getElem_map, List.getElem_range, blockSize]
    rw [List.getD_eq_getElem _ _ h2]

theorem blockStores_length (a a_inv generator mp message : Nat → Nat) (b : Nat) :
    (blockStores a a_inv generator mp message b).length = blockSize mp b + mp 0 := by
  simp [blockStores]

theorem sum_map_add_const (l : List Nat) (f : Nat → Nat) (c : Nat) :
    (l.map (fun b => f b + c)).sum = (l.map f).sum + l.length * c := by
  induction l with
  | nil => simp
  | cons x l ih => simp only [List.map_cons, List.sum_cons, List.length_cons, ih]; ring

theorem length_flatMap_sum {α : Type} (l : List Nat) (f : Nat → List α) :
    (l.flatMap f).length = (l.map (fun b => (f b).length)).sum := by
  induction l with
  | nil => rfl
  | cons x l ih => simp [List.flatMap_cons, ih]

/-- The interleaver makes `D + E * B` stores. -/
theorem interleave_trace_length (a a_inv generator mp message : Nat → Nat) :
    (interleave a a_inv generator mp message).trace.length =
      totalData mp + mp 0 * totalBlocks mp := by
  rw [← List.length_reverse, interleave_trace, length_flatMap_sum]
  have : (fun b => (blockStores a a_inv generator mp message b).length) =
      fun b => blockSize mp b + mp 0 := by
    funext b; exact blockStores_length _ _ _ _ _ b
  rw [this, sum_map_add_const, map_blockSize_range, sum_blockSizes, List.length_range]
  ring

/-- When no index is stored to twice, the buffer holds at each stored index the byte
stored there. -/
theorem replay_nodup (l : List Store) (buf : Nat → Nat)
    (h : (l.map (fun s => s.index)).Nodup) (s : Store) (hs : s ∈ l) :
    replay l buf s.index = s.value := by
  induction l generalizing buf with
  | nil => cases hs
  | cons x l ih =>
    simp only [List.map_cons, List.nodup_cons] at h
    show replay l (setAt buf x.index x.value) s.index = s.value
    rcases List.mem_cons.mp hs with rfl | hmem
    · rw [replay_not_mem _ _ _ h.1, setAt_same]
    · exact ih _ h.2 hmem

end TinyQR

namespace TinyQR

/-- Every position of the data part is the target of a data store. -/
theorem data_position_hit (mp : Nat → Nat)
    (hrow : (1 ≤ mp 2 ∧ mp 2 ≤ mp 4) ∨ mp 3 = 0) (p : Nat) (hp : p < totalData mp) :
    ∃ b i, b < totalBlocks mp ∧ i < blockSize mp b ∧ specDataIndex mp b i = p := by
  unfold totalData at hp
  rcases hrow with ⟨r1, r2⟩ | r3
  · rcases Nat.lt_or_ge p (mp 2 * (mp 1 + mp 3)) with h1 | h1
    · -- the part where every block contributes
      have hB : 0 < mp 1 + mp 3 := by
        rcases Nat.eq_zero_or_pos (mp 1 + mp 3) with h0 | h0
        · rw [h0] at h1; simp at h1
        · exact h0
      have hi : p / (mp 1 + mp 3) < mp 2 := by
        rw [Nat.div_lt_iff_lt_mul hB]; exact h1
      have hbB : p % (mp 1 + mp 3) < mp 1 + mp 3 := Nat.mod_lt _ hB
      have hdm := Nat.div_add_mod p (mp 1 + mp 3)
      generalize p / (mp 1 + mp 3) = q at hi hdm ⊢
      generalize p % (mp 1 + mp 3) = r at hbB hdm ⊢
      refine ⟨r, q, hbB, ?_, ?_⟩
      · rcases Nat.lt_or_ge r (mp 1) with g | g
        · rw [blockSize_first mp _ g]; exact hi
        · obtain ⟨k, hk⟩ : ∃ k, r = mp 1 + k := ⟨r - mp 1, by omega⟩
          rw [hk, blockSize_second mp k (by omega)]; omega
      · rw [specDataIndex_closed]
        have e1 : min q (mp 2) = q := by omega
        have e2 : min q (mp 4) = q := by omega
        have e3 : q < mp 4 := by omega
        rw [e1, e2, if_pos hi, if_pos e3]
        have e4 : min r (mp 1) + min (r - mp 1) (mp 3) = r := by omega
        have e5 : (mp 1 + mp 3) * q = q * mp 1 + q * mp 3 := by ring
        omega
    · -- the part where only the blocks of the second group contribute
      have hq : p - mp 2 * (mp 1 + mp 3) < mp 3 * (mp 4 - mp 2) := by
        have : mp 3 * (mp 4 - mp 2) + mp 2 * (mp 1 + mp 3) = mp 1 * mp 2 + mp 3 * mp 4 := by
          obtain ⟨t, ht⟩ : ∃ t, mp 4 = mp 2 + t := ⟨mp 4 - mp 2, by omega⟩
          rw [ht, Nat.add_sub_cancel_left]; ring
        omega
      have h3 : 0 < mp 3 := by
        rcases Nat.eq_zero_or_pos (mp 3) with h0 | h0
        · rw [h0] at hq; simp at hq
        · exact h0
      have hi : (p - mp 2 * (mp 1 + mp 3)) / mp 3 < mp 4 - mp 2 :=
        (Nat.div_lt_iff_lt_mul h3).mpr (by rw [Nat.mul_comm (mp 4 - mp 2)]; exact hq)
      have hk : (p - mp 2 * (mp 1 + mp 3)) % mp 3 < mp 3 := Nat.mod_lt _ h3
      have hdm := Nat.div_add_mod (p - mp 2 * (mp 1 + mp 3)) (mp 3)
      generalize (p - mp 2 * (mp 1 + mp 3)) / mp 3 = q at hi hdm ⊢
      generalize (p - mp 2 * (mp 1 + mp 3)) % mp 3 = r at hk hdm ⊢
      refine ⟨mp 1 + r, mp 2 + q, by unfold totalBlocks; omega, ?_, ?_⟩
      · rw [blockSize_second mp _ hk]; omega
      · rw [specDataIndex_closed]
        have e1 : min (mp 2 + q) (mp 2) = mp 2 := by omega
        have e2 : min (mp 2 + q) (mp 4) = mp 2 + q := by omega
        have e3 : ¬ (mp 2 + q < mp 2) := by omega
        have e4 : mp 2 + q < mp 4 := by omega
        rw [e1, e2, if_neg e3, if_pos e4, Nat.add_sub_cancel_left,
          Nat.min_eq_left (le_of_lt hk)]
        have e5 : (mp 2 + q) * mp 3 = mp 2 * mp 3 + mp 3 * q := by ring
        have e6 : mp 2 * (mp 1 + mp 3) = mp 2 * mp 1 + mp 2 * mp 3 := by ring
        omega
  · -- a single group
    rw [r3, Nat.zero_mul, Nat.add_zero] at hp
    have h1 : 0 < mp 1 := by
      rcases Nat.eq_zero_or_pos (mp 1) with h0 | h0
      · rw [h0] at hp; simp at hp
      · exact h0
    have hi : p / mp 1 < mp 2 :=
      (Nat.div_lt_iff_lt_mul h1).mpr (by rw [Nat.mul_comm (mp 2)]; exact hp)
    have hb : p % mp 1 < mp 1 := Nat.mod_lt _ h1
    have hdm := Nat.div_add_mod p (mp 1)
    generalize p / mp 1 = q at hi hdm ⊢
    generalize p % mp 1 = r at hb hdm ⊢
    refine ⟨r, q, by unfold totalBlocks; omega, ?_, ?_⟩
    · rw [blockSize_first mp _ hb]; exact hi
    · rw [specDataIndex_closed, r3, if_pos hi]
      have e1 : min q (mp 2) = q := by omega
      have e2 : q * mp 1 = mp 1 * q := Nat.mul_comm _ _
      rw [e1, Nat.mul_zero, Nat.min_eq_left (le_of_lt hb)]
      split_ifs <;> simp <;> omega

/-- Every position of the error part is the target of an error store. -/
theorem error_position_hit (mp : Nat → Nat) (p : Nat) (h1 : totalData mp ≤ p)
    (h2 : p < totalData mp + mp 0 * totalBlocks mp) :
    ∃ b i, b < totalBlocks mp ∧ i < mp 0 ∧ totalData mp + b + i * totalBlocks mp = p := by
  have hq : p - totalData mp < mp 0 * totalBlocks mp := by omega
  have hB : 0 < totalBlocks mp := by
    rcases Nat.eq_zero_or_pos (totalBlocks mp) with h0 | h0
    · rw [h0] at hq; simp at hq
    · exact h0
  have hi : (p - totalData mp) / totalBlocks mp < mp 0 := by
    rw [Nat.div_lt_iff_lt_mul hB]; exact hq
  have hdm := Nat.div_add_mod (p - totalData mp) (totalBlocks mp)
  have hr := Nat.mod_lt (p - totalData mp) hB
  generalize (p - totalData mp) / totalBlocks mp = q at hi hdm ⊢
  generalize (p - totalData mp) % totalBlocks mp = r at hr hdm ⊢
  refine ⟨r, q, hr, hi, ?_⟩
  have : q * totalBlocks mp = totalBlocks mp * q := Nat.mul_comm _ _
  omega

end TinyQR

namespace TinyQR

/-- When the first group is empty the data loop follows the interleaving rule. -/
theorem dataOffsetAt_eq_spec_first_empty (mp : Nat → Nat) (h1 : mp 1 = 0) (b i : Nat)
    (hb : b < totalBlocks mp) (hi : i < blockSize mp b) :
    dataOffsetAt mp b i = specDataIndex mp b i := by
  unfold totalBlocks at hb
  have hb3 : b < mp 3 := by omega
  have hsz : blockSize mp b = mp 4 := by
    have := blockSize_second mp b hb3
    rwa [h1, Nat.zero_add] at this
  rw [hsz] at hi
  have e1 : min i (mp 4 - 1) = i := Nat.min_eq_left (by omega)
  have e2 : min i (mp 4) = i := Nat.min_eq_left (le_of_lt hi)
  have e3 : min b (mp 3) = b := Nat.min_eq_left (le_of_lt hb3)
  rw [dataOffsetAt_closed, specDataIndex_closed, h1, if_pos hi, e1, e2, Nat.sub_zero, e3]
  simp only [Nat.zero_mul, Nat.mul_zero, Nat.min_zero, ite_self, Nat.add_zero, Nat.zero_add]
  rw [Nat.mul_comm]
  omega

/-- When the first group is empty every position below `D` is that of a data byte. -/
theorem data_position_hit_first_empty (mp : Nat → Nat) (h1 : mp 1 = 0) (p : Nat)
    (hp : p < totalData mp) :
    ∃ b i, b < totalBlocks mp ∧ i < blockSize mp b ∧ specDataIndex mp b i = p := by
  unfold totalData at hp
  rw [h1, Nat.zero_mul, Nat.zero_add] at hp
  have h3 : 0 < mp 3 := by
    rcases Nat.eq_zero_or_pos (mp 3) with h0 | h0
    · rw [h0] at hp; simp at hp
    · exact h0
  have hi : p / mp 3 < mp 4 := (Nat.div_lt_iff_lt_mul h3).mpr (by rw [Nat.mul_comm]; exact hp)
  have hb : p % mp 3 < mp 3 := Nat.mod_lt _ h3
  have hdm := Nat.div_add_mod p (mp 3)
  generalize p / mp 3 = q at hi hdm ⊢
  generalize p % mp 3 = r at hb hdm ⊢
  have hsz : blockSize mp r = mp 4 := by
    have := blockSize_second mp r hb
    rwa [h1, Nat.zero_add] at this
  refine ⟨r, q, by unfold totalBlocks; omega, by rw [hsz]; exact hi, ?_⟩
  have e2 : min q (mp 4) = q := Nat.min_eq_left (le_of_lt hi)
  have e3 : min r (mp 3) = r := Nat.min_eq_left (le_of_lt hb)
  rw [specDataIndex_closed, h1, if_pos hi, e2, Nat.sub_zero, e3]
  simp only [Nat.mul_zero, Nat.min_zero, ite_self, Nat.zero_add]
  have : q * mp 3 = mp 3 * q := Nat.mul_comm _ _
  omega

/-- On a row of the claimed shape (`d1 ≤ d2`, or no second group) with no empty block
before a block that holds data, the data loop stores byte `i` of block `b` at the index
of the interleaving rule. -/
theorem dataOffsetAt_eq_rule (mp : Nat → Nat) (hdom : mp 2 ≤ mp 4 ∨ mp 3 = 0)
    (hrow : NoEmptyLeadingBlocks mp) (b i : Nat) (hb : b < totalBlocks mp)
    (hi : i < blockSize mp b) : dataOffsetAt mp b i = specDataIndex mp b i := by
  rcases hdom with hd | h3
  · rcases hrow with r | r | r | r
    · exact dataOffsetAt_eq_spec_first_empty mp r b i hb hi
    · exact dataOffsetAt_eq_spec mp (Or.inl ⟨r, hd⟩) b i hb hi
    · exact dataOffsetAt_eq_spec mp (Or.inr r) b i hb hi
    · exfalso
      unfold totalBlocks at hb
      rcases Nat.lt_or_ge b (mp 1) with g | g
      · rw [blockSize_first mp b g] at hi; omega
      · obtain ⟨k, hk⟩ : ∃ k, b = mp 1 + k := ⟨b - mp 1, by omega⟩
        rw [hk, blockSize_second mp k (by omega)] at hi; omega
  · exact dataOffsetAt_eq_spec mp (Or.inr h3) b i hb hi

/-- On such a row every position below `D` is that of a data byte. -/
theorem data_position_hit_rule (mp : Nat → Nat) (hdom : mp 2 ≤ mp 4 ∨ mp 3 = 0)
    (hrow : NoEmptyLeadingBlocks mp) (p : Nat) (hp : p < totalData mp) :
    ∃ b i, b < totalBlocks mp ∧ i < blockSize mp b ∧ specDataIndex mp b i = p := by
  rcases hdom with hd | h3
  · rcases hrow with r | r | r | r
    · exact data_position_hit_first_empty mp r p hp
    · exact data_position_hit mp (Or.inl ⟨r, hd⟩) p hp
    · exact data_position_hit mp (Or.inr r) p hp
    · exfalso
      unfold totalData at hp
      have h2 : mp 2 = 0 := by omega
      rw [r, h2] at hp
      simp at hp
  · exact data_position_hit mp (Or.inr h3) p hp

/-- On such a row the positions stored to are exactly `0 .. D + E * B - 1`, each once. -/
theorem interleave_positions_perm (a a_inv generator mp message : Nat → Nat)
    (hdom : mp 2 ≤ mp 4 ∨ mp 3 = 0) (hrow : NoEmptyLeadingBlocks mp) :
    (List.range (totalData mp + mp 0 * totalBlocks mp)).Perm
      ((interleave a a_inv generator mp message).trace.map (fun s => s.index)) := by
  have hsub : List.range (totalData mp + mp 0 * totalBlocks mp) ⊆
      (interleave a a_inv generator mp message).trace.map (fun s => s.index) := by
    intro p hp
    have hp' := List.mem_range.mp hp
    rcases Nat.lt_or_ge p (totalData mp) with h | h
    · obtain ⟨b, i, hb, hi, hidx⟩ := data_position_hit_rule mp hdom hrow p h
      refine List.mem_map.mpr ⟨_, data_store_mem a a_inv generator mp message b i hb hi, ?_⟩
      show dataOffsetAt mp b i = p
      rw [dataOffsetAt_eq_rule mp hdom hrow b i hb hi, hidx]
    · obtain ⟨b, i, hb, hi, hidx⟩ := error_position_hit mp p h hp'
      exact List.mem_map.mpr ⟨_, error_store_mem a a_inv generator mp message b i hb hi, hidx⟩
  refine (List.subperm_of_subset (List.nodup_range _) hsub).perm_of_length_le ?_
  rw [List.length_map, interleave_trace_length, List.length_range]

/-- On such a row the stream holds, on return, every data byte and every error codeword
at its index. -/
theorem interleave_read_back (a a_inv generator mp message : Nat → Nat)
    (hdom : mp 2 ≤ mp 4 ∨ mp 3 = 0) (hrow : NoEmptyLeadingBlocks mp) :
    (∀ b i, b < totalBlocks mp → i < blockSize mp b →
        (interleave a a_inv generator mp message).interleaved_output (specDataIndex mp b i) =
          message (blockOffset mp b + i)) ∧
      ∀ b i, b < totalBlocks mp → i < mp 0 →
        (interleave a a_inv generator mp message).interleaved_output (specErrorIndex mp b i) =
          (reedSolomon a a_inv (blockSize mp b) (blockOffset mp b) message (mp 0)
            (errorcodeAfter a a_inv generator mp message b) generator).getD i 0 := by
  have hperm := interleave_positions_perm a a_inv generator mp message hdom hrow
  have hnodup : ((interleave a a_inv generator mp message).trace.reverse.map
      (fun s => s.index)).Nodup := by
    rw [List.map_reverse, List.nodup_reverse]
    exact hperm.nodup_iff.mp (List.nodup_range _)
  have hout := interleave_output a a_inv generator mp message
  constructor
  · intro b i hb hi
    have hmem := data_store_mem a a_inv generator mp message b i hb hi
    have := replay_nodup _ (fun _ => 0) hnodup _ (List.mem_reverse.mpr hmem)
    rw [← hout] at this
    rw [← dataOffsetAt_eq_rule mp hdom hrow b i hb hi, Nat.add_comm _ i]
    exact this
  · intro b i hb hi
    have hmem := error_store_mem a a_inv generator mp message b i hb hi
    have := replay_nodup _ (fun _ => 0) hnodup _ (List.mem_reverse.mpr hmem)
    rw [← hout] at this
    have hidx : specErrorIndex mp b i = totalData mp + b + i * totalBlocks mp := by
      unfold specErrorIndex; omega
    rw [hidx]
    exact this

/-- The data stores of the trace, in program order. -/
theorem interleave_data_stores (a a_inv generator mp message : Nat → Nat)
    (hdom : mp 2 ≤ mp 4 ∨ mp 3 = 0) (hrow : NoEmptyLeadingBlocks mp) :
    (interleave a a_inv generator mp message).trace.reverse.filter
        (fun s => decide (s.kind = StoreKind.data)) =
      (List.range (totalBlocks mp)).flatMap (fun b =>
        (List.range (blockSize mp b)).map (fun i =>
          (⟨StoreKind.data, b, i, specDataIndex mp b i,
            message (blockOffset mp b + i)⟩ : Store))) := by
  rw [interleave_trace, filter_flatMap']
  apply flatMap_congr_range
  intro b hb
  rw [blockStores_filter_data]
  apply List.map_congr_left
  intro i hi
  rw [dataOffsetAt_eq_rule mp hdom hrow b i hb (List.mem_range.mp hi), Nat.add_comm i]

end TinyQR

namespace TinyQR

set_option maxRecDepth 1000000 in
/-- C4, the claim fails on a row whose first group has blocks of no data codeword.  The
row `(E, n1, d1, n2, d2) = (13, 1, 0, 1, 1)` fits the arrays and the interleaver stays
inside them; `D = 1`, so error codeword `0` of block `0`, which is `0`, belongs at
`interleaved_output[D + 0 * B + 0] = interleaved_output[1]`; but the data byte `7` of
block `1` is stored to index `1` afterwards, and on return the stream holds `7` there:
the error codewords do not start after the data codewords. -/
theorem error_codeword_overwritten :
    RowFits (ofList [13, 1, 0, 1, 1]) ∧
      (interleave alphaPow alphaLog
        (ofList [74, 152, 176, 100, 86, 100, 106, 104, 130, 218, 206, 140, 78])
        (ofList [13, 1, 0, 1, 1]) (ofList [7])).ok = true ∧
      totalData (ofList [13, 1, 0, 1, 1]) = 1 ∧
      specErrorIndex (ofList [13, 1, 0, 1, 1]) 0 0 = 1 ∧
      (reedSolomon alphaPow alphaLog (blockSize (ofList [13, 1, 0, 1, 1]) 0)
        (blockOffset (ofList [13, 1, 0, 1, 1]) 0) (ofList [7]) 13
        (errorcodeAfter alphaPow alphaLog
          (ofList [74, 152, 176, 100, 86, 100, 106, 104, 130, 218, 206, 140, 78])
          (ofList [13, 1, 0, 1, 1]) (ofList [7]) 0)
        (ofList [74, 152, 176, 100, 86, 100, 106, 104, 130, 218, 206, 140, 78])).getD 0 0 = 0 ∧
      (⟨StoreKind.data, 1, 0, 1, 7⟩ : Store) ∈
        (interleave alphaPow alphaLog
          (ofList [74, 152, 176, 100, 86, 100, 106, 104, 130, 218, 206, 140, 78])
          (ofList [13, 1, 0, 1, 1]) (ofList [7])).trace ∧
      (interleave alphaPow alphaLog
        (ofList [74, 152, 176, 100, 86, 100, 106, 104, 130, 218, 206, 140, 78])
        (ofList [13, 1, 0, 1, 1]) (ofList [7])).interleaved_output
          (specErrorIndex (ofList [13, 1, 0, 1, 1]) 0 0) = 7 := by
  decide!

set_option maxRecDepth 1000000 in
/-- A row that does not fit: with `(E, n1, d1, n2, d2) = (29, 12, 20, 0, 0)` the stream
would need `D + E * B = 588` bytes, and the flag reports the stores past
`interleaved_output[532]`. -/
theorem interleave_flags_overflow :
    ¬ RowFits (ofList [29, 12, 20, 0, 0]) ∧
      (interleave alphaPow alphaLog (ofList []) (ofList [29, 12, 20, 0, 0]) (ofList [7])).ok =
        false := by
  decide!

theorem error_codeword_interleaving_witness :
    RowFits (ofList [18, 2, 15, 2, 16]) ∧ NoEmptyLeadingBlocks (ofList [18, 2, 15, 2, 16]) ∧
      (interleave alphaPow alphaLog
        (ofList [215, 234, 158, 94, 184, 97, 118, 170, 79, 187, 152, 148, 252, 179, 5, 98, 96, 153])
        (ofList [18, 2, 15, 2, 16]) (fun i => (7 * i + 3) % 256)).ok = true ∧
      ∀ b i, b < totalBlocks (ofList [18, 2, 15, 2, 16]) → i < ofList [18, 2, 15, 2, 16] 0 →
        (interleave alphaPow alphaLog
          (ofList [215, 234, 158, 94, 184, 97, 118, 170, 79, 187, 152, 148, 252, 179, 5, 98, 96, 153])
          (ofList [18, 2, 15, 2, 16]) (fun i => (7 * i + 3) % 256)).interleaved_output
            (specErrorIndex (ofList [18, 2, 15, 2, 16]) b i) =
          (reedSolomon alphaPow alphaLog (blockSize (ofList [18, 2, 15, 2, 16]) b)
            (blockOffset (ofList [18, 2, 15, 2, 16]) b) (fun i => (7 * i + 3) % 256)
            (ofList [18, 2, 15, 2, 16] 0)
            (errorcodeAfter alphaPow alphaLog
              (ofList [215, 234, 158, 94, 184, 97, 118, 170, 79, 187, 152, 148, 252, 179, 5, 98, 96, 153])
              (ofList [18, 2, 15, 2, 16]) (fun i => (7 * i + 3) % 256) b)
            (ofList [215, 234, 158, 94, 184, 97, 118, 170, 79, 187, 152, 148, 252, 179, 5, 98, 96, 153])).getD
            i 0 :=
  ⟨by decide, by decide,
    (error_codeword_interleaving alphaPow alphaLog
      (ofList [215, 234, 158, 94, 184, 97, 118, 170, 79, 187, 152, 148, 252, 179, 5, 98, 96, 153])
      (ofList [18, 2, 15, 2, 16]) (fun i => (7 * i + 3) % 256) (by decide) (by decide)).1,
    (error_codeword_interleaving alphaPow alphaLog
      (ofList [215, 234, 158, 94, 184, 97, 118, 170, 79, 187, 152, 148, 252, 179, 5, 98, 96, 153])
      (ofList [18, 2, 15, 2, 16]) (fun i => (7 * i + 3) % 256) (by decide) (by decide)).2.2.2.2.2⟩

/-- C3, as amended (data-codeword interleaving).  On a parameter row that fits the
arrays of `parseMessage` (`13 ≤ E < 30`, blocks of fewer than 30 data codewords,
`D ≤ 244`, `D + E * B ≤ 532`), in which `d1 ≤ d2` or the second group is empty, and
which has no block without data before a block with data, the interleaver stays inside
its arrays; the stores of line 151 are, in program order, for each block `b` and each
`i` below its data-codeword count, the store of data byte `i` of block `b` (blocks being
consecutive slices of the message) to the index the interleaving rule gives; that index
is below `D`; and on return `interleaved_output` holds the byte at that index. -/
theorem data_codeword_interleaving (a a_inv generator mp message : Nat → Nat)
    (hfit : RowFits mp) (hdom : mp 2 ≤ mp 4 ∨ mp 3 = 0) (hrow : NoEmptyLeadingBlocks mp) :
    (interleave a a_inv generator mp message).ok = true ∧
      (interleave a a_inv generator mp message).trace.reverse.filter
          (fun s => decide (s.kind = StoreKind.data)) =
        (List.range (totalBlocks mp)).flatMap (fun b =>
          (List.range (blockSize mp b)).map (fun i =>
            (⟨StoreKind.data, b, i, specDataIndex mp b i,
              message (blockOffset mp b + i)⟩ : Store))) ∧
      ∀ b i, b < totalBlocks mp → i < blockSize mp b →
        specDataIndex mp b i < totalData mp ∧
          (interleave a a_inv generator mp message).interleaved_output (specDataIndex mp b i) =
            message (blockOffset mp b + i) := by
  refine ⟨interleave_ok a a_inv generator mp message hfit,
    interleave_data_stores a a_inv generator mp message hdom hrow, ?_⟩
  intro b i hb hi
  refine ⟨?_, (interleave_read_back a a_inv generator mp message hdom hrow).1 b i hb hi⟩
  rw [← dataOffsetAt_eq_rule mp hdom hrow b i hb hi]
  exact dataOffsetAt_lt_totalData mp hrow b i hb hi

set_option maxRecDepth 1000000 in
/-- C3, the claim fails on a row whose first group has blocks of no data codeword.  The
row `(E, n1, d1, n2, d2) = (13, 1, 0, 1, 1)` has `d1 ≤ d2`, fits the arrays, and the
interleaver stays inside them; its only data store, byte `0` of block `1` (the byte `7`),
goes to index `1`, while the interleaving rule gives index `0`; on return
`interleaved_output[0]` holds `0`, not the byte. -/
theorem data_interleaving_empty_blocks :
    RowFits (ofList [13, 1, 0, 1, 1]) ∧
      ofList [13, 1, 0, 1, 1] 2 ≤ ofList [13, 1, 0, 1, 1] 4 ∧
      (interleave alphaPow alphaLog
        (ofList [74, 152, 176, 100, 86, 100, 106, 104, 130, 218, 206, 140, 78])
        (ofList [13, 1, 0, 1, 1]) (ofList [7])).ok = true ∧
      (interleave alphaPow alphaLog
          (ofList [74, 152, 176, 100, 86, 100, 106, 104, 130, 218, 206, 140, 78])
          (ofList [13, 1, 0, 1, 1]) (ofList [7])).trace.reverse.filter
          (fun s => decide (s.kind = StoreKind.data)) =
        [⟨StoreKind.data, 1, 0, 1, 7⟩] ∧
      specDataIndex (ofList [13, 1, 0, 1, 1]) 1 0 = 0 ∧
      ofList [7] (blockOffset (ofList [13, 1, 0, 1, 1]) 1 + 0) = 7 ∧
      (interleave alphaPow alphaLog
        (ofList [74, 152, 176, 100, 86, 100, 106, 104, 130, 218, 206, 140, 78])
        (ofList [13, 1, 0, 1, 1]) (ofList [7])).interleaved_output
          (specDataIndex (ofList [13, 1, 0, 1, 1]) 1 0) = 0 := by
  decide!

theorem data_codeword_interleaving_witness :
    RowFits (ofList [18, 2, 15, 2, 16]) ∧
      (ofList [18, 2, 15, 2, 16] 2 ≤ ofList [18, 2, 15, 2, 16] 4 ∨
        ofList [18, 2, 15, 2, 16] 3 = 0) ∧
      NoEmptyLeadingBlocks (ofList [18, 2, 15, 2, 16]) ∧
      (interleave alphaPow alphaLog
        (ofList [215, 234, 158, 94, 184, 97, 118, 170, 79, 187, 152, 148, 252, 179, 5, 98, 96, 153])
        (ofList [18, 2, 15, 2, 16]) (fun i => (7 * i + 3) % 256)).ok = true ∧
      ∀ b i, b < totalBlocks (ofList [18, 2, 15, 2, 16]) → i < blockSize (ofList [18, 2, 15, 2, 16]) b →
        specDataIndex (ofList [18, 2, 15, 2, 16]) b i < totalData (ofList [18, 2, 15, 2, 16]) ∧
          (interleave alphaPow alphaLog
            (ofList [215, 234, 158, 94, 184, 97, 118, 170, 79, 187, 152, 148, 252, 179, 5, 98, 96, 153])
            (ofList [18, 2, 15, 2, 16]) (fun i => (7 * i + 3) % 256)).interleaved_output
              (specDataIndex (ofList [18, 2, 15, 2, 16]) b i) =
            (fun i => (7 * i + 3) % 256) (blockOffset (ofList [18, 2, 15, 2, 16]) b + i) :=
  ⟨by decide, by decide, by decide,
    (data_codeword_interleaving alphaPow alphaLog
      (ofList [215, 234, 158, 94, 184, 97, 118, 170, 79, 187, 152, 148, 252, 179, 5, 98, 96, 153])
      (ofList [18, 2, 15, 2, 16]) (fun i => (7 * i + 3) % 256) (by decide) (by decide) (by decide)).1,
    (data_codeword_interleaving alphaPow alphaLog
      (ofList [215, 234, 158, 94, 184, 97, 118, 170, 79, 187, 152, 148, 252, 179, 5, 98, 96, 153])
      (ofList [18, 2, 15, 2, 16]) (fun i => (7 * i + 3) % 256) (by decide) (by decide) (by decide)).2.2⟩

/-- C10, as amended (interleaving is invertible).  On a parameter row that fits the
arrays of `parseMessage`, with two groups of `d1 < d2` data codewords or with a single
group, and with no block without data before a block with data, the interleaver stays
inside its arrays; the positions of `interleaved_output` it stores to are the positions
`0 .. D + E * B - 1`, each exactly once (the list of stored positions is a permutation of
that range, and there are `D + E * B` stores); and on return, reading the stream at the
index of data byte `i` of block `b` gives that byte of the message, and reading it at the
index of error codeword `i` of block `b` gives that byte of the buffer `reedSolomon`
returned for the block. -/
theorem interleaving_invertible (a a_inv generator mp message : Nat → Nat)
    (hfit : RowFits mp) (hdom : mp 2 < mp 4 ∨ mp 3 = 0) (hrow : NoEmptyLeadingBlocks mp) :
    (interleave a a_inv generator mp message).ok = true ∧
      (List.range (totalData mp + mp 0 * totalBlocks mp)).Perm
        ((interleave a a_inv generator mp message).trace.map (fun s => s.index)) ∧
      (interleave a a_inv generator mp message).trace.length =
        totalData mp + mp 0 * totalBlocks mp ∧
      (∀ b i, b < totalBlocks mp → i < blockSize mp b →
        (interleave a a_inv generator mp message).interleaved_output (specDataIndex mp b i) =
          message (blockOffset mp b + i)) ∧
      (∀ b i, b < totalBlocks mp → i < mp 0 →
        (interleave a a_inv generator mp message).interleaved_output (specErrorIndex mp b i) =
          (reedSolomon a a_inv (blockSize mp b) (blockOffset mp b) message (mp 0)
            (errorcodeAfter a a_inv generator mp message b) generator).getD i 0) := by
  have hdom' : mp 2 ≤ mp 4 ∨ mp 3 = 0 := by
    rcases hdom with h | h
    · exact Or.inl (le_of_lt h)
    · exact Or.inr h
  exact ⟨interleave_ok a a_inv generator mp message hfit,
    interleave_positions_perm a a_inv generator mp message hdom' hrow,
    interleave_trace_length a a_inv generator mp message,
    (interleave_read_back a a_inv generator mp message hdom' hrow).1,
    (interleave_read_back a a_inv generator mp message hdom' hrow).2⟩

theorem interleaving_invertible_witness :
    RowFits (ofList [18, 2, 15, 2, 16]) ∧
      (ofList [18, 2, 15, 2, 16] 2 < ofList [18, 2, 15, 2, 16] 4 ∨
        ofList [18, 2, 15, 2, 16] 3 = 0) ∧
      NoEmptyLeadingBlocks (ofList [18, 2, 15, 2, 16]) ∧
      (interleave alphaPow alphaLog
        (ofList [215, 234, 158, 94, 184, 97, 118, 170, 79, 187, 152, 148, 252, 179, 5, 98, 96, 153])
        (ofList [18, 2, 15, 2, 16]) (fun i => (7 * i + 3) % 256)).ok = true ∧
      (List.range (totalData (ofList [18, 2, 15, 2, 16]) + ofList [18, 2, 15, 2, 16] 0 * totalBlocks (ofList [18, 2, 15, 2, 16]))).Perm
        ((interleave alphaPow alphaLog
          (ofList [215, 234, 158, 94, 184, 97, 118, 170, 79, 187, 152, 148, 252, 179, 5, 98, 96, 153])
          (ofList [18, 2, 15, 2, 16]) (fun i => (7 * i + 3) % 256)).trace.map (fun s => s.index)) ∧
      (interleave alphaPow alphaLog
        (ofList [215, 234, 158, 94, 184, 97, 118, 170, 79, 187, 152, 148, 252, 179, 5, 98, 96, 153])
        (ofList [18, 2, 15, 2, 16]) (fun i => (7 * i + 3) % 256)).trace.length =
        totalData (ofList [18, 2, 15, 2, 16]) + ofList [18, 2, 15, 2, 16] 0 * totalBlocks (ofList [18, 2, 15, 2, 16]) :=
  ⟨by decide, by decide, by decide,
    (interleaving_invertible alphaPow alphaLog
      (ofList [215, 234, 158, 94, 184, 97, 118, 170, 79, 187, 152, 148, 252, 179, 5, 98, 96, 153])
      (ofList [18, 2, 15, 2, 16]) (fun i => (7 * i + 3) % 256) (by decide) (by decide) (by decide)).1,
    (interleaving_invertible alphaPow alphaLog
      (ofList [215, 234, 158, 94, 184, 97, 118, 170, 79, 187, 152, 148, 252, 179, 5, 98, 96, 153])
      (ofList [18, 2, 15, 2, 16]) (fun i => (7 * i + 3) % 256) (by decide) (by decide) (by decide)).2.1,
    (interleaving_invertible alphaPow alphaLog
      (ofList [215, 234, 158, 94, 184, 97, 118, 170, 79, 187, 152, 148, 252, 179, 5, 98, 96, 153])
      (ofList [18, 2, 15, 2, 16]) (fun i => (7 * i + 3) % 256) (by decide) (by decide) (by decide)).2.2.1⟩

set_option maxRecDepth 1000000 in
/-- C10, the claim fails on a row whose first group has blocks of no data codeword.  The
row `(E, n1, d1, n2, d2) = (13, 1, 0, 1, 1)` has two groups with `d1 < d2`, fits the
arrays (`D + E * B = 27`), and the interleaver stays inside them; of its 27 stores two go
to position `1` (the data byte of block `1` overwrites error codeword `0` of block `0`)
and none goes to position `0`. -/
theorem interleaving_not_injective :
    RowFits (ofList [13, 1, 0, 1, 1]) ∧
      ofList [13, 1, 0, 1, 1] 2 < ofList [13, 1, 0, 1, 1] 4 ∧
      (interleave alphaPow alphaLog
        (ofList [74, 152, 176, 100, 86, 100, 106, 104, 130, 218, 206, 140, 78])
        (ofList [13, 1, 0, 1, 1]) (ofList [7])).ok = true ∧
      totalData (ofList [13, 1, 0, 1, 1]) + ofList [13, 1, 0, 1, 1] 0 * totalBlocks (ofList [13, 1, 0, 1, 1]) = 27 ∧
      (interleave alphaPow alphaLog
        (ofList [74, 152, 176, 100, 86, 100, 106, 104, 130, 218, 206, 140, 78])
        (ofList [13, 1, 0, 1, 1]) (ofList [7])).trace.length = 27 ∧
      ((interleave alphaPow alphaLog
        (ofList [74, 152, 176, 100, 86, 100, 106, 104, 130, 218, 206, 140, 78])
        (ofList [13, 1, 0, 1, 1]) (ofList [7])).trace.map (fun s => s.index)).count 1 = 2 ∧
      0 ∉ (interleave alphaPow alphaLog
        (ofList [74, 152, 176, 100, 86, 100, 106, 104, 130, 218, 206, 140, 78])
        (ofList [13, 1, 0, 1, 1]) (ofList [7])).trace.map (fun s => s.index) := by
  decide!

end TinyQR

namespace TinyQR

/-! ## GF(256) -/

theorem xtime_lt : ∀ x < 256, xtime x < 256 := by decide!

theorem xtime_zero : xtime 0 = 0 := rfl

/-- The bits of `α * x`: those of `x` moved up by one, with `0x1D` added when bit 7 of
`x` is set. -/
theorem xtime_testBit_low : ∀ x < 256, ∀ i < 8, (xtime x).testBit i =
    ((decide (1 ≤ i) && x.testBit (i - 1)) != (x.testBit 7 && (29 : Nat).testBit i)) := by
  decide!

theorem xtime_testBit (x : Nat) (hx : x < 256) (i : Nat) : (xtime x).testBit i =
    (decide (i < 8) &&
      ((decide (1 ≤ i) && x.testBit (i - 1)) != (x.testBit 7 && (29 : Nat).testBit i))) := by
  rcases Nat.lt_or_ge i 8 with h | h
  · rw [xtime_testBit_low x hx i h]
    simp [h]
  · have h1 : xtime x < 2 ^ i :=
      Nat.lt_of_lt_of_le (xtime_lt x hx) (Nat.pow_le_pow_right (by decide) h : 2 ^ 8 ≤ 2 ^ i)
    rw [Nat.testBit_lt_two_pow h1]
    simp [Nat.not_lt.mpr h]

theorem xor_lt_256 (x y : Nat) (hx : x < 256) (hy : y < 256) : x ^^^ y < 256 :=
  Nat.xor_lt_two_pow (n := 8) hx hy

/-- Multiplication by `α` is additive. -/
theorem xtime_xor (u : Nat) (hu : u < 256) (v : Nat) (hv : v < 256) :
    xtime (u ^^^ v) = xtime u ^^^ xtime v := by
  apply Nat.eq_of_testBit_eq
  intro i
  rw [Nat.testBit_xor, xtime_testBit _ (xor_lt_256 u v hu hv), xtime_testBit u hu,
    xtime_testBit v hv, Nat.testBit_xor, Nat.testBit_xor]
  generalize decide (i < 8) = p
  generalize decide (1 ≤ i) = q
  generalize u.testBit (i - 1) = a1
  generalize v.testBit (i - 1) = b1
  generalize u.testBit 7 = a7
  generalize v.testBit 7 = b7
  generalize (29 : Nat).testBit i = c
  cases p <;> cases q <;> cases a1 <;> cases b1 <;> cases a7 <;> cases b7 <;> cases c <;> rfl

theorem gfMulAux_lt (k x y : Nat) (hx : x < 256) : gfMulAux k x y < 256 := by
  induction k generalizing x y with
  | zero => simp [gfMulAux]
  | succ k ih =>
    rw [gfMulAux]
    apply xor_lt_256
    · split_ifs
      · exact hx
      · decide
    · exact ih _ _ (xtime_lt x hx)

theorem gfMul_lt (x y : Nat) (hx : x < 256) : gfMul x y < 256 :=
  gfMulAux_lt 8 x y hx

theorem gfMulAux_xtime (k x y : Nat) (hx : x < 256) :
    gfMulAux k (xtime x) y = xtime (gfMulAux k x y) := by
  induction k generalizing x y with
  | zero => rfl
  | succ k ih =>
    rw [gfMulAux, gfMulAux, ih _ _ (xtime_lt x hx)]
    have h1 : (if y % 2 = 1 then x else 0) < 256 := by
      split_ifs
      · exact hx
      · decide
    rw [xtime_xor _ h1 _ (gfMulAux_lt k _ _ (xtime_lt x hx))]
    split_ifs <;> rfl

theorem gfMulAux_zero_left (k y : Nat) : gfMulAux k 0 y = 0 := by
  induction k generalizing y with
  | zero => rfl
  | succ k ih =>
    rw [gfMulAux, xtime_zero, ih]
    split_ifs <;> rfl

theorem gfMulAux_zero_right (k x : Nat) : gfMulAux k x 0 = 0 := by
  induction k generalizing x with
  | zero => rfl
  | succ k ih =>
    rw [gfMulAux]
    simp [ih]

theorem gfMul_zero_left (y : Nat) : gfMul 0 y = 0 := gfMulAux_zero_left 8 y

theorem gfMul_one_right (x : Nat) : gfMul x 1 = x := by
  unfold gfMul
  rw [gfMulAux]
  simp [gfMulAux_zero_right]

theorem gfMul_one_left : ∀ y < 256, gfMul 1 y = y := by decide!

theorem gfMul_xtime (x y : Nat) (hx : x < 256) : gfMul (xtime x) y = xtime (gfMul x y) :=
  gfMulAux_xtime 8 x y hx

theorem alphaPow_lt (e : Nat) : alphaPow e < 256 := by
  induction e with
  | zero => decide
  | succ e ih => exact xtime_lt _ ih

theorem alphaPow_eq_iterate (e : Nat) : alphaPow e = xtime^[e] 1 := by
  induction e with
  | zero => rfl
  | succ e ih => rw [alphaPow, ih, Function.iterate_succ_apply']

theorem gfMul_alphaPow (l y : Nat) (hy : y < 256) : gfMul (alphaPow l) y = xtime^[l] y := by
  induction l with
  | zero => exact gfMul_one_left y hy
  | succ l ih =>
    rw [alphaPow, gfMul_xtime _ _ (alphaPow_lt l), ih, Function.iterate_succ_apply']

/-- Powers of `α` multiply by adding exponents. -/
theorem gfMul_alphaPow_alphaPow (l g : Nat) :
    gfMul (alphaPow l) (alphaPow g) = alphaPow (l + g) := by
  rw [gfMul_alphaPow _ _ (alphaPow_lt g), alphaPow_eq_iterate g, alphaPow_eq_iterate (l + g),
    Function.iterate_add_apply]

theorem alphaPow_255 : alphaPow 255 = 1 := by decide!

theorem alphaPow_add_255 (n : Nat) : alphaPow (n + 255) = alphaPow n := by
  rw [← gfMul_alphaPow_alphaPow, alphaPow_255, gfMul_one_right]

/-- `α` has order dividing 255. -/
theorem alphaPow_mod (n : Nat) : alphaPow (n % 255) = alphaPow n := by
  induction n using Nat.strong_induction_on with
  | _ n ih =>
    rcases Nat.lt_or_ge n 255 with h | h
    · rw [Nat.mod_eq_of_lt h]
    · obtain ⟨m, hm⟩ : ∃ m, n = m + 255 := ⟨n - 255, by omega⟩
      rw [hm, Nat.add_mod_right, ih m (by omega), alphaPow_add_255]

/-- Every non-zero byte is a power of `α`. -/
theorem alphaLog_spec : ∀ c < 256, c ≠ 0 → alphaLog c < 255 ∧ alphaPow (alphaLog c) = c := by
  decide!

theorem alphaLog_alphaPow : ∀ e < 255, alphaLog (alphaPow e) = e := by decide!

/-- With the tables of the field, the table lookup of the division step is the product of
the leading coefficient and the generator coefficient. -/
theorem table_product (a a_inv : Nat → Nat) (ha : ∀ e < 255, a e = alphaPow e)
    (hinv : ∀ e < 255, a_inv (a e) = e) (c : Nat) (hc : c < 256) (hc0 : c ≠ 0) (g : Nat) :
    a ((g + a_inv c) % 255) = gfMul c (alphaPow g) := by
  obtain ⟨hl, hp⟩ := alphaLog_spec c hc hc0
  have hlog : a_inv c = alphaLog c := by
    have := hinv (alphaLog c) hl
    rwa [ha _ hl, hp] at this
  rw [hlog, ha _ (Nat.mod_lt _ (by decide)), alphaPow_mod, Nat.add_comm,
    ← gfMul_alphaPow_alphaPow, hp]

end TinyQR

namespace TinyQR

/-! ## Polynomial long division on coefficient lists -/

theorem polyAdd_cons (x y : Nat) (p q : List Nat) :
    polyAdd (x :: p) (y :: q) = (x ^^^ y) :: polyAdd p q := rfl

theorem polyAdd_length (p q : List Nat) (h : p.length = q.length) :
    (polyAdd p q).length = p.length := by
  simp [polyAdd, h]

theorem polyAdd_append (p₁ q₁ p₂ q₂ : List Nat) (h : p₁.length = q₁.length) :
    polyAdd (p₁ ++ p₂) (q₁ ++ q₂) = polyAdd p₁ q₁ ++ polyAdd p₂ q₂ := by
  unfold polyAdd
  exact List.zipWith_append _ _ _ _ _ h

theorem polyAdd_zeros_left (p : List Nat) : polyAdd (List.replicate p.length 0) p = p := by
  induction p with
  | nil => rfl
  | cons x p ih =>
    rw [List.length_cons, List.replicate_succ, polyAdd_cons, ih, Nat.zero_xor]

theorem polyAdd_zeros (n : Nat) :
    polyAdd (List.replicate n 0) (List.replicate n 0) = List.replicate n 0 := by
  have := polyAdd_zeros_left (List.replicate n 0)
  rwa [List.length_replicate] at this

theorem polyAdd_assoc (p q r : List Nat) :
    polyAdd (polyAdd p q) r = polyAdd p (polyAdd q r) := by
  induction p generalizing q r with
  | nil => simp [polyAdd]
  | cons x p ih =>
    cases q with
    | nil => simp [polyAdd]
    | cons y q =>
      cases r with
      | nil => simp [polyAdd]
      | cons z r => rw [polyAdd_cons, polyAdd_cons, polyAdd_cons, polyAdd_cons, ih, Nat.xor_assoc]

theorem polyAdd_cancel (p q : List Nat) (h : p.length = q.length) :
    polyAdd p (polyAdd q p) = q := by
  induction p generalizing q with
  | nil =>
    cases q with
    | nil => rfl
    | cons y q => simp at h
  | cons x p ih =>
    cases q with
    | nil => simp at h
    | cons y q =>
      rw [polyAdd_cons, polyAdd_cons, ih q (by simpa using h)]
      congr 1
      rw [Nat.xor_comm y x, ← Nat.xor_assoc, Nat.xor_self, Nat.zero_xor]

theorem polyScale_length (c : Nat) (p : List Nat) : (polyScale c p).length = p.length := by
  simp [polyScale]

theorem divStep_length (g w : List Nat) (h : w.length = g.length) :
    (divStep g w).length = g.length := by
  cases w with
  | nil => simpa [divStep] using h
  | cons c w =>
    rw [divStep, polyAdd_length _ _ (by simp [polyScale_length] at h ⊢; omega)]
    simp at h ⊢; omega

theorem iterate_divStep_length (g w : List Nat) (h : w.length = g.length) (m : Nat) :
    ((divStep g)^[m] w).length = g.length := by
  induction m generalizing w with
  | zero => exact h
  | succ m ih => rw [Function.iterate_succ_apply]; exact ih _ (divStep_length g w h)

theorem polyAdd_bytes (p q : List Nat) (hp : ∀ c ∈ p, c < 256) (hq : ∀ c ∈ q, c < 256) :
    ∀ c ∈ polyAdd p q, c < 256 := by
  induction p generalizing q with
  | nil => intro c hc; simp [polyAdd] at hc
  | cons x p ih =>
    cases q with
    | nil => intro c hc; simp [polyAdd] at hc
    | cons y q =>
      intro c hc
      rw [polyAdd_cons] at hc
      rcases List.mem_cons.mp hc with rfl | hc
      · exact xor_lt_256 x y (hp x (List.mem_cons_self _ _)) (hq y (List.mem_cons_self _ _))
      · exact ih q (fun c hc => hp c (List.mem_cons_of_mem _ hc))
          (fun c hc => hq c (List.mem_cons_of_mem _ hc)) c hc

theorem divStep_bytes (g w : List Nat) (hw : ∀ c ∈ w, c < 256) :
    ∀ c ∈ divStep g w, c < 256 := by
  cases w with
  | nil => intro c hc; simp [divStep] at hc
  | cons x w =>
    rw [divStep]
    apply polyAdd_bytes
    · intro c hc
      rcases List.mem_append.mp hc with hc | hc
      · exact hw c (List.mem_cons_of_mem _ hc)
      · rw [List.mem_singleton.mp hc]; decide
    · intro c hc
      unfold polyScale at hc
      obtain ⟨y, _, rfl⟩ := List.mem_map.mp hc
      exact gfMul_lt x y (hw x (List.mem_cons_self _ _))

theorem iterate_divStep_bytes (g w : List Nat) (hw : ∀ c ∈ w, c < 256) (m : Nat) :
    ∀ c ∈ (divStep g)^[m] w, c < 256 := by
  induction m generalizing w with
  | zero => exact hw
  | succ m ih => rw [Function.iterate_succ_apply]; exact ih _ (divStep_bytes g w hw)

/-- Long division: after `m` steps on the window `w`, the polynomial whose coefficients
are `w` followed by `m` zeros is `q * (x^E + g) + r` with `r` the final window. -/
theorem long_division (g : List Nat) (hg : g ≠ []) (m : Nat) (w : List Nat)
    (hw : w.length = g.length) (hwb : ∀ c ∈ w, c < 256) :
    ∃ q : List Nat, q.length = m ∧ (∀ c ∈ q, c < 256) ∧
      w ++ List.replicate m 0 =
        polyAdd (polyMul q (1 :: g)) (List.replicate m 0 ++ (divStep g)^[m] w) := by
  induction m generalizing w with
  | zero =>
    refine ⟨[], rfl, fun c hc => absurd hc (List.not_mem_nil c), ?_⟩
    simp only [List.replicate_zero, List.append_nil, List.nil_append, Function.iterate_zero,
      id_eq, polyMul, List.length_cons, Nat.add_sub_cancel]
    rw [← hw, polyAdd_zeros_left]
  | succ m ih =>
    cases w with
    | nil =>
      exfalso
      apply hg
      exact List.length_eq_zero.mp hw.symm
    | cons c w =>
      have hw1 : (divStep g (c :: w)).length = g.length := divStep_length g _ hw
      obtain ⟨q, hq, hqb, hdiv⟩ := ih (divStep g (c :: w)) hw1 (divStep_bytes g _ hwb)
      refine ⟨c :: q, by simp [hq], ?_, ?_⟩
      · intro x hx
        rcases List.mem_cons.mp hx with rfl | hx
        · exact hwb x (List.mem_cons_self _ _)
        · exact hqb x hx
      have hwl : w.length + 1 = g.length := by simpa using hw
      have hX : ((divStep g)^[m] (divStep g (c :: w))).length = g.length :=
        iterate_divStep_length g _ hw1 m
      rw [Function.iterate_succ_apply]
      have e1 : polyMul (c :: q) (1 :: g) =
          polyAdd (c :: (polyScale c g ++ List.replicate m 0)) (0 :: polyMul q (1 :: g)) := by
        rw [polyMul, hq]
        simp [polyScale, gfMul_one_right]
      have e2 : polyAdd (polyScale c g) (divStep g (c :: w)) = w ++ [0] := by
        rw [divStep]
        exact polyAdd_cancel _ _ (by rw [polyScale_length]; simp; omega)
      rw [e1, List.replicate_succ]
      simp only [List.cons_append]
      rw [polyAdd_cons, polyAdd_cons, polyAdd_assoc, ← hdiv,
        polyAdd_append _ _ _ _ (by rw [polyScale_length, hw1]), polyAdd_zeros, e2]
      simp

end TinyQR

namespace TinyQR

/-! ## The loops of `reedSolomon` -/

theorem getD_set (l : List Nat) (k v j : Nat) :
    (l.set k v).getD j 0 = if j = k ∧ k < l.length then v else l.getD j 0 := by
  simp only [List.getD_eq_getElem?_getD, List.getElem?_set]
  by_cases h1 : k = j
  · subst h1
    by_cases h2 : k < l.length
    · simp [h2]
    · simp [h2, List.getElem?_eq_none (Nat.le_of_not_lt h2)]
  · have h1' : ¬ j = k := fun h => h1 h.symm
    simp [h1, h1']

/-- Lines 60-64. -/
theorem rsInit_spec (d off : Nat) (message : Nat → Nat) (E : Nat) (ec : List Nat)
    (hdE : d ≤ E) (hE : E < ec.length) :
    (rsInit d off message E ec).length = ec.length ∧
      ∀ j, (rsInit d off message E ec).getD j 0 =
        if j < d then message (j + off) else if j < E then 0 else ec.getD j 0 := by
  have h1 := forLoop_inv
    (fun i (b : List Nat) => b.length = ec.length ∧
      ∀ j, b.getD j 0 = if j < i then message (j + off) else ec.getD j 0)
    0 d (fun i b => b.set i (message (i + off))) ec (Nat.zero_le _)
    ⟨rfl, fun j => by simp⟩
    (by
      intro i b _ hi ⟨hl, hb⟩
      refine ⟨by simp [hl], fun j => ?_⟩
      rw [getD_set, hb j]
      by_cases c1 : j = i
      · subst c1
        simp [hl, show j < ec.length by omega]
      · have c2 : ¬ (j = i ∧ i < b.length) := fun h => c1 h.1
        rw [if_neg c2]
        by_cases c3 : j < i
        · rw [if_pos c3, if_pos (by omega)]
        · rw [if_neg c3, if_neg (by omega)])
  have h2 := forLoop_inv
    (fun i (b : List Nat) => b.length = ec.length ∧
      ∀ j, b.getD j 0 =
        if j < d then message (j + off) else if j < i then 0 else ec.getD j 0)
    d E (fun i b => b.set i 0)
    (forLoop 0 d (fun i b => b.set i (message (i + off))) ec) hdE
    ⟨h1.1, fun j => by
      rw [h1.2 j]
      by_cases c : j < d
      · rw [if_pos c, if_pos c]
      · rw [if_neg c, if_neg c, if_neg c]⟩
    (by
      intro i b hi1 hi2 ⟨hl, hb⟩
      refine ⟨by simp [hl], fun j => ?_⟩
      rw [getD_set, hb j]
      by_cases c1 : j = i
      · subst c1
        simp [hl, show j < ec.length by omega, show ¬ j < d by omega]
      · have c2 : ¬ (j = i ∧ i < b.length) := fun h => c1 h.1
        rw [if_neg c2]
        by_cases c3 : j < d
        · rw [if_pos c3, if_pos c3]
        · rw [if_neg c3, if_neg c3]
          by_cases c4 : j < i
          · rw [if_pos c4, if_pos (by omega)]
          · rw [if_neg c4, if_neg (by omega)])
  exact h2

/-- Lines 71-76. -/
theorem rsReduce_spec (a : Nat → Nat) (E lead : Nat) (generator : Nat → Nat) (ec : List Nat)
    (hE : E < ec.length) :
    (rsReduce a E lead generator ec).length = ec.length ∧
      ∀ j, (rsReduce a E lead generator ec).getD j 0 =
        if j < E then
          (if j + 1 < E then ec.getD (j + 1) 0 else 0) ^^^ a ((generator j + lead) % 255)
        else ec.getD j 0 := by
  have h := forLoop_inv
    (fun i (b : List Nat) => b.length = ec.length ∧
      ∀ j, b.getD j 0 =
        if j + 1 < i then
          (if j + 1 < E then ec.getD (j + 1) 0 else 0) ^^^ a ((generator j + lead) % 255)
        else ec.getD j 0)
    1 (E + 1)
    (fun i b =>
      let temp_value := if i < E then b.getD i 0 else 0
      b.set (i - 1) (temp_value ^^^ a ((generator (i - 1) + lead) % 255)))
    ec (by omega)
    ⟨rfl, fun j => by simp⟩
    (by
      intro i b hi1 hi2 ⟨hl, hb⟩
      refine ⟨by simp [hl], fun j => ?_⟩
      have hbi : b.getD i 0 = ec.getD i 0 := by rw [hb i, if_neg (by omega)]
      obtain ⟨k, rfl⟩ : ∃ k, i = k + 1 := ⟨i - 1, by omega⟩
      simp only [Nat.add_sub_cancel]
      rw [getD_set, hbi, hb j]
      by_cases c1 : j = k
      · subst c1
        split_ifs <;> first | rfl | (exfalso; omega)
      · split_ifs <;> first | rfl | (exfalso; omega))
  refine ⟨h.1, fun j => ?_⟩
  have := h.2 j
  unfold rsReduce
  rw [this]
  by_cases c : j < E
  · rw [if_pos c, if_pos (by omega)]
  · rw [if_neg c, if_neg (by omega)]

/-- Lines 78-79 and 82-84. -/
theorem rsShift_spec (lo hi : Nat) (ec : List Nat) (hlo : 1 ≤ lo) (hle : lo ≤ hi)
    (hhi : hi ≤ ec.length) :
    (rsShift lo hi ec).length = ec.length ∧
      ∀ j, (rsShift lo hi ec).getD j 0 =
        if lo ≤ j + 1 ∧ j + 1 < hi then ec.getD (j + 1) 0 else ec.getD j 0 := by
  have h := forLoop_inv
    (fun i (b : List Nat) => b.length = ec.length ∧
      ∀ j, b.getD j 0 = if lo ≤ j + 1 ∧ j + 1 < i then ec.getD (j + 1) 0 else ec.getD j 0)
    lo hi (fun i b => b.set (i - 1) (b.getD i 0)) ec hle
    ⟨rfl, fun j => by
      have : ¬ (lo ≤ j + 1 ∧ j + 1 < lo) := by omega
      rw [if_neg this]⟩
    (by
      intro i b hi1 hi2 ⟨hl, hb⟩
      refine ⟨by simp [hl], fun j => ?_⟩
      have hbi : b.getD i 0 = ec.getD i 0 := by rw [hb i, if_neg (by omega)]
      obtain ⟨k, rfl⟩ : ∃ k, i = k + 1 := ⟨i - 1, by omega⟩
      simp only [Nat.add_sub_cancel]
      rw [getD_set, hbi, hb j]
      by_cases c1 : j = k
      · subst c1
        split_ifs <;> first | rfl | (exfalso; omega)
      · split_ifs <;> first | rfl | (exfalso; omega))
  exact h

end TinyQR

namespace TinyQR

theorem take_getElem_getD (l : List Nat) (E j : Nat) (h : j < (l.take E).length) :
    (l.take E)[j] = l.getD j 0 := by
  have h' : j < l.length := by
    rw [List.length_take] at h; omega
  rw [List.getElem_take, List.getD_eq_getElem _ _ h']

/-- Lines 68-84 for `data_codewords ≤ error_codewords`: one step of the long division
on the first `E` bytes of the buffer. -/
theorem rsStep_window (a a_inv generator : Nat → Nat) (ha : ∀ e < 255, a e = alphaPow e)
    (hinv : ∀ e < 255, a_inv (a e) = e) (d E : Nat) (hE1 : 1 ≤ E) (hdE : d ≤ E)
    (ec : List Nat) (hlen : E < ec.length) (hz : ec.getD E 0 = 0)
    (hbytes : ∀ j < E, ec.getD j 0 < 256) :
    (rsStep a a_inv d E generator ec).length = ec.length ∧
      (rsStep a a_inv d E generator ec).getD E 0 = 0 ∧
      (∀ j < E, (rsStep a a_inv d E generator ec).getD j 0 < 256) ∧
      (rsStep a a_inv d E generator ec).take E =
        divStep ((List.range E).map (fun i => alphaPow (generator i))) (ec.take E) := by
  -- the bytes of the result, in both branches
  have key : (rsStep a a_inv d E generator ec).length = ec.length ∧
      ∀ j, (rsStep a a_inv d E generator ec).getD j 0 =
        if j < E then
          (if j + 1 < E then ec.getD (j + 1) 0 else 0) ^^^
            gfMul (ec.getD 0 0) (alphaPow (generator j))
        else ec.getD j 0 := by
    unfold rsStep
    simp only []
    have hthird : ∀ x : List Nat, rsShift (E + 1) (d + 1) x = x := fun x =>
      forLoop_empty _ _ _ _ (by omega)
    rw [hthird]
    by_cases hc : ec.getD 0 0 ≠ 0
    · rw [if_pos hc]
      obtain ⟨h1, h2⟩ := rsReduce_spec a E (a_inv (ec.getD 0 0)) generator ec hlen
      refine ⟨h1, fun j => ?_⟩
      rw [h2 j, table_product a a_inv ha hinv _ (hbytes 0 (by omega)) hc]
    · rw [if_neg hc]
      have hc0 : ec.getD 0 0 = 0 := by
        by_contra h; exact hc h
      obtain ⟨h1, h2⟩ := rsShift_spec 1 (E + 1) ec (le_refl _) (by omega) (by omega)
      refine ⟨h1, fun j => ?_⟩
      rw [h2 j, hc0, gfMul_zero_left, Nat.xor_zero]
      by_cases c1 : j < E
      · rw [if_pos (by omega), if_pos c1]
        by_cases c2 : j + 1 < E
        · rw [if_pos c2]
        · have : j + 1 = E := by omega
          rw [if_neg c2, this, hz]
      · rw [if_neg (by omega), if_neg c1]
  obtain ⟨klen, kget⟩ := key
  refine ⟨klen, ?_, ?_, ?_⟩
  · rw [kget E, if_neg (by omega), hz]
  · intro j hj
    rw [kget j, if_pos hj]
    apply xor_lt_256
    · split_ifs with c
      · exact hbytes _ c
      · decide
    · exact gfMul_lt _ _ (hbytes 0 (by omega))
  · -- as lists
    obtain ⟨c, t, rfl⟩ : ∃ c t, ec = c :: t := by
      cases ec with
      | nil => simp at hlen
      | cons c t => exact ⟨c, t, rfl⟩
    obtain ⟨E', rfl⟩ : ∃ E', E = E' + 1 := ⟨E - 1, by omega⟩
    have htl : E' < t.length := by simpa using hlen
    rw [List.take_succ_cons, divStep]
    apply List.ext_getElem
    · rw [polyAdd_length _ _ (by simp [polyScale_length]; omega)]
      simp [klen]; omega
    · intro j h1 h2
      have hj : j < E' + 1 := by
        rw [List.length_take] at h1; omega
      rw [take_getElem_getD, kget j, if_pos hj]
      simp only [polyAdd, polyScale, List.getElem_zipWith, List.getElem_map, List.getElem_range]
      congr 1
      by_cases c2 : j + 1 < E' + 1
      · rw [if_pos c2, List.getElem_append_left (by simp; omega), List.getElem_take]
        simp only [List.getD_cons_succ]
        exact List.getD_eq_getElem _ _ (by omega)
      · rw [if_neg c2, List.getElem_append_right (by simp; omega)]
        simp

end TinyQR

namespace TinyQR

theorem iterate_divStep_succ (g w : List Nat) (m : Nat) :
    (divStep g)^[m + 1] w = divStep g ((divStep g)^[m] w) :=
  Function.iterate_succ_apply' _ _ _

/-- The window after `rsInit`: the data codewords, zero-extended to `E` bytes. -/
theorem rsInit_window (d off : Nat) (message : Nat → Nat) (E : Nat) (ec : List Nat)
    (hdE : d ≤ E) (hE : E < ec.length) :
    (rsInit d off message E ec).take E =
      (List.range d).map (fun i => message (i + off)) ++ List.replicate (E - d) 0 := by
  obtain ⟨hl, hg⟩ := rsInit_spec d off message E ec hdE hE
  apply List.ext_getElem
  · simp [hl]; omega
  · intro j h1 h2
    have hj : j < E := by
      rw [List.length_take] at h1; omega
    rw [take_getElem_getD, hg j]
    by_cases c : j < d
    · rw [if_pos c, List.getElem_append_left (by simpa using c)]
      simp
    · rw [if_neg c, if_pos hj, List.getElem_append_right (by simp; omega)]
      simp

/-- The buffer `reedSolomon` returns, for `data_codewords ≤ error_codewords`: its first
`E` bytes are the window after `data_codewords` division steps. -/
theorem reedSolomon_window (a a_inv message generator : Nat → Nat)
    (ha : ∀ e < 255, a e = alphaPow e) (hinv : ∀ e < 255, a_inv (a e) = e)
    (d off E : Nat) (hE1 : 1 ≤ E) (hdE : d ≤ E) (ec : List Nat) (hlen : E < ec.length)
    (hz : ec.getD E 0 = 0) (hmsg : ∀ i < d, message (i + off) < 256) :
    (reedSolomon a a_inv d off message E ec generator).take E =
      (divStep ((List.range E).map (fun i => alphaPow (generator i))))^[d]
        ((List.range d).map (fun i => message (i + off)) ++ List.replicate (E - d) 0) := by
  obtain ⟨hl, hg⟩ := rsInit_spec d off message E ec hdE hlen
  have h := forLoop_inv
    (fun j (b : List Nat) => b.length = ec.length ∧ b.getD E 0 = 0 ∧
      (∀ i < E, b.getD i 0 < 256) ∧
      b.take E = (divStep ((List.range E).map (fun i => alphaPow (generator i))))^[j - 1]
        ((List.range d).map (fun i => message (i + off)) ++ List.replicate (E - d) 0))
    1 (d + 1) (fun _ b => rsStep a a_inv d E generator b)
    (rsInit d off message E ec) (by omega)
    ⟨hl, by rw [hg E, if_neg (by omega), if_neg (by omega), hz],
      fun i hi => by
        rw [hg i]
        split_ifs with c1
        · exact hmsg i c1
        · decide,
      rsInit_window d off message E ec hdE hlen⟩
    (by
      intro j b hj1 _ ⟨h1, h2, h3, h4⟩
      obtain ⟨g1, g2, g3, g4⟩ := rsStep_window a a_inv generator ha hinv d E hE1 hdE b
        (by rw [h1]; exact hlen) h2 h3
      refine ⟨g1.trans h1, g2, g3, ?_⟩
      rw [g4, h4, ← iterate_divStep_succ]
      congr 2
      omega)
  exact h.2.2.2

/-- C1 (Reed-Solomon correctness).  With `a`, `a_inv` the antilog and log tables of
GF(256) and `generator` the exponents of the non-leading coefficients of the monic
polynomial `g` of degree `E`, for a block of `1 ≤ data_codewords ≤ E < 30` data codewords
and a 30-byte buffer with `errorcode[E] = 0` on entry, the bytes `errorcode[0 .. E-1]` on
return are the coefficients of the remainder of `D(x) * x^E` on division by `g(x)`, `D`
being the polynomial of the block's data codewords. -/
theorem reedSolomon_remainder (a a_inv message generator : Nat → Nat) (errorcode : List Nat)
    (data_codewords data_offset error_codewords : Nat)
    (ha : ∀ e < 255, a e = alphaPow e) (hinv : ∀ e < 255, a_inv (a e) = e)
    (hd : 1 ≤ data_codewords) (hdE : data_codewords ≤ error_codewords)
    (hE : error_codewords < 30) (hlen : errorcode.length = 30)
    (hz : errorcode.getD error_codewords 0 = 0)
    (hmsg : ∀ i < data_codewords, message (i + data_offset) < 256) :
    IsRemainder
      ((List.range data_codewords).map (fun i => message (i + data_offset)) ++
        List.replicate error_codewords 0)
      (generatorPoly generator error_codewords)
      ((reedSolomon a a_inv data_codewords data_offset message error_codewords errorcode
        generator).take error_codewords) := by
  have hE1 : 1 ≤ error_codewords := le_trans hd hdE
  have hwin := reedSolomon_window a a_inv message generator ha hinv data_codewords data_offset
    error_codewords hE1 hdE errorcode (by rw [hlen]; exact hE) hz hmsg
  have hg : (List.range error_codewords).map (fun i => alphaPow (generator i)) ≠ [] := by
    intro h
    have := congrArg List.length h
    simp at this
    omega
  have hw : ((List.range data_codewords).map (fun i => message (i + data_offset)) ++
      List.replicate (error_codewords - data_codewords) 0).length =
      ((List.range error_codewords).map (fun i => alphaPow (generator i))).length := by
    simp; omega
  have hwb : ∀ c ∈ (List.range data_codewords).map (fun i => message (i + data_offset)) ++
      List.replicate (error_codewords - data_codewords) 0, c < 256 := by
    intro c hc
    rcases List.mem_append.mp hc with hc | hc
    · obtain ⟨i, hi, rfl⟩ := List.mem_map.mp hc
      exact hmsg i (List.mem_range.mp hi)
    · rw [(List.mem_replicate.mp hc).2]; decide
  obtain ⟨q, hq, hqb, hdiv⟩ := long_division _ hg data_codewords _ hw hwb
  have hrlen : ((reedSolomon a a_inv data_codewords data_offset message error_codewords
      errorcode generator).take error_codewords).length = error_codewords := by
    rw [hwin, iterate_divStep_length _ _ hw]
    simp
  refine ⟨by rw [hrlen]; simp [generatorPoly], ?_, q, ?_, hqb, ?_⟩
  · rw [hwin]
    exact iterate_divStep_bytes _ _ hwb data_codewords
  · rw [hq, hrlen]; simp
  · rw [hwin, generatorPoly, hq, ← hdiv, List.append_assoc, ← List.replicate_add]
    congr 2
    omega

set_option maxRecDepth 1000000 in
/-- The error codewords of the 1-Q symbol for HELLO WORLD. -/
theorem hello_world_codewords :
    (reedSolomon alphaPow alphaLog 13 0
        (ofList [32, 91, 11, 120, 209, 114, 220, 77, 67, 64, 236, 17, 236]) 13
        (List.replicate 30 0)
        (ofList [74, 152, 176, 100, 86, 100, 106, 104, 130, 218, 206, 140, 78])).take 13 =
      [168, 72, 22, 82, 217, 54, 156, 0, 46, 15, 180, 122, 16] := by
  decide!

theorem reedSolomon_remainder_witness :
    (∀ e < 255, alphaPow e = alphaPow e) ∧ (∀ e < 255, alphaLog (alphaPow e) = e) ∧
      (reedSolomon alphaPow alphaLog 13 0
          (ofList [32, 91, 11, 120, 209, 114, 220, 77, 67, 64, 236, 17, 236]) 13
          (List.replicate 30 0)
          (ofList [74, 152, 176, 100, 86, 100, 106, 104, 130, 218, 206, 140, 78])).take 13 =
        [168, 72, 22, 82, 217, 54, 156, 0, 46, 15, 180, 122, 16] ∧
      IsRemainder
        ((List.range 13).map (fun i =>
          ofList [32, 91, 11, 120, 209, 114, 220, 77, 67, 64, 236, 17, 236] (i + 0)) ++
          List.replicate 13 0)
        (generatorPoly (ofList [74, 152, 176, 100, 86, 100, 106, 104, 130, 218, 206, 140, 78]) 13)
        ((reedSolomon alphaPow alphaLog 13 0
          (ofList [32, 91, 11, 120, 209, 114, 220, 77, 67, 64, 236, 17, 236]) 13
          (List.replicate 30 0)
          (ofList [74, 152, 176, 100, 86, 100, 106, 104, 130, 218, 206, 140, 78])).take 13) :=
  ⟨fun _ _ => rfl, alphaLog_alphaPow, hello_world_codewords,
    reedSolomon_remainder alphaPow alphaLog
      (ofList [32, 91, 11, 120, 209, 114, 220, 77, 67, 64, 236, 17, 236])
      (ofList [74, 152, 176, 100, 86, 100, 106, 104, 130, 218, 206, 140, 78])
      (List.replicate 30 0) 13 0 13 (fun _ _ => rfl) alphaLog_alphaPow (by decide) (by decide)
      (by decide) (by decide) (by decide) (by decide)⟩

end TinyQR

namespace TinyQR

/-! ## Module sets as bit masks -/

theorem inMatrix_iff (p : Int × Int) :
    inMatrix p = true ↔ 0 ≤ p.1 ∧ p.1 < 41 ∧ 0 ≤ p.2 ∧ p.2 < 41 := by
  simp [inMatrix, and_assoc]

theorem cellCode_inj (p q : Int × Int) (hp : inMatrix p = true) (hq : inMatrix q = true)
    (h : cellCode p = cellCode q) : p = q := by
  rw [inMatrix_iff] at hp hq
  unfold cellCode at h
  have : p.1 * 41 + p.2 = q.1 * 41 + q.2 := by omega
  have h1 : p.1 = q.1 := by omega
  have h2 : p.2 = q.2 := by omega
  exact Prod.ext h1 h2

theorem maskHas_maskAdd (m : Nat) (p q : Int × Int) :
    maskHas (maskAdd m p) q = (maskHas m q || decide (cellCode p = cellCode q)) := by
  unfold maskHas maskAdd
  rw [Nat.testBit_or, Nat.one_shiftLeft, Nat.testBit_two_pow]

theorem maskHas_maskAdd_self (m : Nat) (p : Int × Int) : maskHas (maskAdd m p) p = true := by
  rw [maskHas_maskAdd]; simp

theorem maskHas_maskAdd_of_ne (m : Nat) (p q : Int × Int) (hp : inMatrix p = true)
    (hq : inMatrix q = true) (h : q ≠ p) : maskHas (maskAdd m p) q = maskHas m q := by
  rw [maskHas_maskAdd]
  have : cellCode p ≠ cellCode q := fun hc => h (cellCode_inj p q hp hq hc).symm
  simp [this]

theorem maskHas_mono (m : Nat) (p q : Int × Int) (h : maskHas m q = true) :
    maskHas (maskAdd m p) q = true := by
  rw [maskHas_maskAdd, h]; rfl

theorem maskHas_zero (q : Int × Int) : maskHas 0 q = false := by
  simp [maskHas]

/-- A list accepted by `freshCells` has no repetition, lies in the matrix and avoids the
set it was checked against. -/
theorem freshCells_spec (l : List (Int × Int)) (m : Nat) (h : freshCells l m = true) :
    l.Nodup ∧ ∀ p ∈ l, inMatrix p = true ∧ maskHas m p = false := by
  induction l generalizing m with
  | nil => exact ⟨List.nodup_nil, fun p hp => by cases hp⟩
  | cons p l ih =>
    simp only [freshCells, Bool.and_eq_true, Bool.not_eq_true'] at h
    obtain ⟨⟨hin, hnot⟩, hrest⟩ := h
    obtain ⟨hnd, hall⟩ := ih _ hrest
    refine ⟨List.nodup_cons.mpr ⟨?_, hnd⟩, ?_⟩
    · intro hmem
      have := (hall p hmem).2
      rw [maskHas_maskAdd_self] at this
      cases this
    · intro q hq
      rcases List.mem_cons.mp hq with rfl | hq'
      · exact ⟨hin, hnot⟩
      · refine ⟨(hall q hq').1, ?_⟩
        by_contra hc
        have hc' : maskHas m q = true := by
          cases hm : maskHas m q
          · exact absurd hm hc
          · rfl
        have := (hall q hq').2
        rw [maskHas_mono m p q hc'] at this
        cases this

/-! ## The matrix -/

theorem Image.get_set (img : Image) (y x : Int) (v : Nat) (r c : Int) :
    (img.set y x v).get r c = if r = y ∧ c = x then v else img.get r c := by
  unfold Image.get Image.set
  simp only [List.lookup]
  by_cases h : r = y ∧ c = x
  · obtain ⟨rfl, rfl⟩ := h
    simp
  · have hne : ((r, c) == (y, x)) = false := by
      rw [beq_eq_false_iff_ne]
      intro heq
      exact h ⟨congrArg Prod.fst heq, congrArg Prod.snd heq⟩
    rw [hne, if_neg h]

/-- A matrix all of whose stores darken a module of the matrix: a module is dark when it
is in the set of the stored modules, light otherwise. -/
theorem get_of_darkStores (l : List ((Int × Int) × Nat)) (h : darkStores l = true)
    (p : Int × Int) (hp : inMatrix p = true) :
    (Image.mk l).get p.1 p.2 = if maskHas (storesMask l) p then 0 else 255 := by
  induction l with
  | nil => simp [Image.get, storesMask, maskHas_zero]
  | cons e l ih =>
    simp only [darkStores, List.all_cons, Bool.and_eq_true, beq_iff_eq] at h
    obtain ⟨⟨hin, hv⟩, hrest⟩ := h
    have ih' := ih (by simpa [darkStores] using hrest)
    have hset : (Image.mk (e :: l)) = (Image.mk l).set e.1.1 e.1.2 e.2 := rfl
    rw [hset, Image.get_set, storesMask]
    by_cases hc : p.1 = e.1.1 ∧ p.2 = e.1.2
    · have hpe : p = e.1 := Prod.ext hc.1 hc.2
      rw [if_pos hc, hpe, maskHas_maskAdd_self, hv]
      rfl
    · have hne : p ≠ e.1 := fun heq => hc ⟨congrArg Prod.fst heq, congrArg Prod.snd heq⟩
      rw [if_neg hc, ih', maskHas_maskAdd_of_ne _ _ _ hin hp hne]

end TinyQR

namespace TinyQR

/-! ## Painting a path -/

theorem paintCell_get_other (out : Nat → Nat) (k : Nat) (p q : Int × Int) (img : Image)
    (h : q ≠ p) : (paintCell out k p img).get q.1 q.2 = img.get q.1 q.2 := by
  have hne : ¬ (q.1 = p.1 ∧ q.2 = p.2) := fun hc => h (Prod.ext hc.1 hc.2)
  unfold paintCell
  simp only []
  split_ifs <;> simp [Image.get_set, hne]

/-- The value a visit leaves in the visited module. -/
theorem paintCell_get_self (out : Nat → Nat) (k : Nat) (p : Int × Int) (img : Image) :
    (paintCell out k p img).get p.1 p.2 =
      if p.1 % 2 = 0 then 255 - (if streamBit out k then 0 else img.get p.1 p.2)
      else (if streamBit out k then 0 else img.get p.1 p.2) := by
  unfold paintCell
  simp only []
  split_ifs <;> simp [Image.get_set]

theorem paint_get_not_mem (out : Nat → Nat) (path : List (Int × Int)) (k : Nat) (img : Image)
    (q : Int × Int) (h : q ∉ path) : (paint out path k img).get q.1 q.2 = img.get q.1 q.2 := by
  induction path generalizing k img with
  | nil => rfl
  | cons p path ih =>
    rw [paint, ih _ _ (fun hm => h (List.mem_cons_of_mem _ hm)),
      paintCell_get_other _ _ _ _ _ (fun he => h (by rw [he]; exact List.mem_cons_self _ _))]

theorem paint_append (out : Nat → Nat) (l₁ l₂ : List (Int × Int)) (k : Nat) (img : Image) :
    paint out (l₁ ++ l₂) k img = paint out l₂ (k + l₁.length) (paint out l₁ k img) := by
  induction l₁ generalizing k img with
  | nil => rfl
  | cons p l₁ ih =>
    rw [List.cons_append, paint, ih, paint, List.length_cons]
    congr 1
    omega

/-- On a path without repetition, the module visited in position `j` ends with the value
its visit gave it. -/
theorem paint_get_mem (out : Nat → Nat) (path : List (Int × Int)) (k : Nat) (img : Image)
    (hnd : path.Nodup) (j : Nat) (hj : j < path.length) :
    (paint out path k img).get path[j].1 path[j].2 =
      (paintCell out (k + j) path[j] img).get path[j].1 path[j].2 := by
  induction path generalizing k img j with
  | nil => simp at hj
  | cons p path ih =>
    obtain ⟨hnot, hnd'⟩ := List.nodup_cons.mp hnd
    cases j with
    | zero =>
      simp only [List.getElem_cons_zero, Nat.add_zero]
      rw [paint, paint_get_not_mem _ _ _ _ _ hnot]
    | succ j =>
      simp only [List.getElem_cons_succ]
      have hj' : j < path.length := by simpa using hj
      have hne : path[j] ≠ p := fun he => hnot (by rw [← he]; exact List.getElem_mem _)
      rw [paint, ih _ _ hnd' j hj', paintCell_get_self, paintCell_get_self,
        paintCell_get_other _ _ _ _ _ hne]
      have : k + 1 + j = k + (j + 1) := by omega
      rw [this]

end TinyQR

namespace TinyQR

/-! ## The walk against the painted path -/

theorem high_bit_test : ∀ w < 256, decide (w &&& 128 > 0) = w.testBit 7 := by decide!

theorem shift_mod (x m : Nat) : (((x <<< m) % 256) <<< 1) % 256 = (x <<< (m + 1)) % 256 := by
  simp only [Nat.shiftLeft_eq, Nat.pow_one]
  rw [Nat.mod_mul_mod, Nat.pow_succ, Nat.mul_assoc]

/-- The test of `putBit` on the shifted byte is the stream bit. -/
theorem working_byte_bit (out : Nat → Nat) (k : Nat) (hk : k < 1376) :
    decide ((((out (k / 8) % 256) <<< (k % 8)) % 256) &&& 128 > 0) = streamBit out k := by
  rw [high_bit_test _ (Nat.mod_lt _ (by decide)), show (256 : Nat) = 2 ^ 8 from rfl,
    Nat.testBit_mod_two_pow, Nat.testBit_shiftLeft, Nat.testBit_mod_two_pow]
  have h8 : k % 8 < 8 := Nat.mod_lt _ (by decide)
  simp [streamBit, hk, show 7 ≥ k % 8 by omega, show 7 - k % 8 < 8 by omega]

/-- The statement that fetches the next bit. -/
theorem nextBit_sim (out : Nat → Nat) (k : Nat) (s : Walk) (hinv : WbInv out k s)
    (hk : k < 1376) :
    ∃ s', s.nextBit out = some s' ∧ s'.image = s.image ∧ s'.y = s.y ∧ s'.x = s.x ∧
      s'.dir = s.dir ∧ s'.i = s.i ∧ s'.interleaved_index = ((k / 8 : Nat) : Int) ∧
      s'.working_byte = ((out (k / 8) % 256) <<< (k % 8)) % 256 := by
  obtain ⟨hi, h0, h1⟩ := hinv
  unfold Walk.nextBit
  by_cases hm : k % 8 = 0
  · have hm' : s.i % 8 = 0 := by rw [hi]; omega
    have hidx : s.interleaved_index + 1 = ((k / 8 : Nat) : Int) := by
      rcases Nat.eq_zero_or_pos k with hz | hpos
      · rw [h0 hz, hz]; rfl
      · rw [(h1 hpos (by omega)).1]; omega
    have hb : 0 ≤ s.interleaved_index + 1 ∧ s.interleaved_index + 1 < 532 := by
      rw [hidx]; omega
    rw [if_pos hm', if_pos hb]
    refine ⟨_, rfl, rfl, rfl, rfl, rfl, rfl, hidx, ?_⟩
    simp only [hidx, Int.toNat_ofNat, hm, Nat.shiftLeft_zero, Nat.mod_mod]
  · have hm' : ¬ s.i % 8 = 0 := by rw [hi]; omega
    have hpos : 0 < k := by
      rcases Nat.eq_zero_or_pos k with hz | hpos
      · rw [hz] at hm; exact absurd rfl hm
      · exact hpos
    obtain ⟨h2, h3⟩ := h1 hpos (by omega)
    rw [if_neg hm']
    refine ⟨_, rfl, rfl, rfl, rfl, rfl, rfl, ?_, ?_⟩
    · show s.interleaved_index = _
      rw [h2]; omega
    · show (s.working_byte <<< 1) % 256 = _
      rw [h3, shift_mod]
      have e1 : (k - 1) / 8 = k / 8 := by omega
      have e2 : (k - 1) % 8 + 1 = k % 8 := by omega
      rw [e1, e2]

theorem inMatrix_load (img : Image) (y x : Int) (h : inMatrix (y, x) = true) :
    img.load y x = some (img.get y x) := by
  rw [inMatrix_iff] at h
  unfold Image.load max_pixels
  rw [if_pos h]

theorem inMatrix_store (img : Image) (y x : Int) (v : Nat) (h : inMatrix (y, x) = true) :
    img.store y x v = some (img.set y x v) := by
  rw [inMatrix_iff] at h
  unfold Image.store max_pixels
  rw [if_pos h]

/-- Masking a module of the matrix. -/
theorem applyMask_sim (s : Walk) (h : inMatrix (s.y, s.x) = true) :
    s.applyMask = some { s with image :=
      if s.y % 2 = 0 then s.image.set s.y s.x (255 - s.image.get s.y s.x) else s.image } := by
  unfold Walk.applyMask is_mask_applicable
  by_cases hp : s.y % 2 = 0
  · simp [hp, inMatrix_load _ _ _ h, inMatrix_store _ _ _ _ h]
  · simp [hp]

/-- Lines 307-309 on a module of the matrix, with bit number `k < 1376`. -/
theorem placeBit_sim (out : Nat → Nat) (k : Nat) (s : Walk) (hinv : WbInv out k s)
    (hk : k < 1376) (hin : inMatrix (s.y, s.x) = true) :
    ∃ s', s.placeBit out = some s' ∧ s'.image = paintCell out k (s.y, s.x) s.image ∧
      s'.y = s.y ∧ s'.x = s.x ∧ s'.dir = s.dir ∧ s'.i = s.i ∧
      s'.interleaved_index = ((k / 8 : Nat) : Int) ∧
      s'.working_byte = ((out (k / 8) % 256) <<< (k % 8)) % 256 := by
  obtain ⟨s1, e1, g1, g2, g3, g4, g5, g6, g7⟩ := nextBit_sim out k s hinv hk
  have hbit : decide (s1.working_byte &&& 128 > 0) = streamBit out k := by
    rw [g7]; exact working_byte_bit out k hk
  unfold Walk.placeBit
  rw [e1]
  simp only []
  by_cases hb : streamBit out k = true
  · have hw : s1.working_byte &&& 128 > 0 := by
      rw [hb] at hbit; exact of_decide_eq_true hbit
    have hin1 : inMatrix (s1.y, s1.x) = true := by rw [g2, g3]; exact hin
    unfold Walk.putBit
    rw [if_pos hw, inMatrix_store _ _ _ _ hin1]
    simp only []
    rw [applyMask_sim _ (by exact hin1)]
    refine ⟨_, rfl, ?_, g2, g3, g4, g5, g6, g7⟩
    simp only [paintCell, hb, if_true, g1, g2, g3]
  · have hb' : streamBit out k = false := by
      cases h : streamBit out k
      · rfl
      · exact absurd h hb
    have hw : ¬ (s1.working_byte &&& 128 > 0) := by
      rw [hb'] at hbit; exact of_decide_eq_false hbit
    have hin1 : inMatrix (s1.y, s1.x) = true := by rw [g2, g3]; exact hin
    unfold Walk.putBit
    rw [if_neg hw]
    simp only []
    rw [applyMask_sim _ hin1]
    refine ⟨_, rfl, ?_, g2, g3, g4, g5, g6, g7⟩
    simp only [paintCell, hb', Bool.false_eq_true, if_false, g1, g2, g3]

end TinyQR

namespace TinyQR

/-- The cursor invariant after a visit with a fetched bit. -/
theorem WbInv_after_fetch (out : Nat → Nat) (k : Nat) (t : Walk) (hi : t.i = ((k + 1 : Nat) : Int))
    (hidx : t.interleaved_index = ((k / 8 : Nat) : Int))
    (hwb : t.working_byte = ((out (k / 8) % 256) <<< (k % 8)) % 256) : WbInv out (k + 1) t := by
  refine ⟨hi, fun h => by omega, fun _ _ => ?_⟩
  rw [Nat.add_sub_cancel]
  exact ⟨hidx, hwb⟩

/-- The cursor invariant once the data bits are used up. -/
theorem WbInv_after_data (out : Nat → Nat) (k : Nat) (t : Walk) (hi : t.i = (k : Int))
    (hk : 1376 < k) : WbInv out k t :=
  ⟨hi, fun h => by omega, fun _ h => by omega⟩

/-- Lines 319-323 and 328-332 on a module of the matrix, with bit number `k`. -/
theorem place_sim (out : Nat → Nat) (k : Nat) (s : Walk) (hinv : WbInv out k s)
    (hin : inMatrix (s.y, s.x) = true) :
    ∃ s', s.place out = some s' ∧ s'.image = paintCell out k (s.y, s.x) s.image ∧
      s'.y = s.y ∧ s'.x = s.x ∧ s'.dir = s.dir ∧ s'.i = s.i ∧
      ∀ t : Walk, t.i = s'.i + 1 → t.interleaved_index = s'.interleaved_index →
        t.working_byte = s'.working_byte → WbInv out (k + 1) t := by
  have hi := hinv.1
  unfold Walk.place primary_bits
  by_cases hk : k < 1376
  · have hlt : s.i < 172 * 8 := by rw [hi]; omega
    rw [if_pos hlt]
    obtain ⟨s', e, g1, g2, g3, g4, g5, g6, g7⟩ := placeBit_sim out k s hinv hk hin
    refine ⟨s', e, g1, g2, g3, g4, g5, fun t t1 t2 t3 => ?_⟩
    apply WbInv_after_fetch
    · rw [t1, g5, hi]; omega
    · rw [t2, g6]
    · rw [t3, g7]
  · have hlt : ¬ s.i < 172 * 8 := by rw [hi]; omega
    rw [if_neg hlt, applyMask_sim s hin]
    refine ⟨_, rfl, ?_, rfl, rfl, rfl, rfl, fun t t1 _ _ => ?_⟩
    · have hb : streamBit out k = false := by simp [streamBit, hk]
      simp only [paintCell, hb, Bool.false_eq_true, if_false]
    · apply WbInv_after_data
      · rw [t1]; simp only []; rw [hi]; omega
      · omega

/-- Lines 305-314: the edge loop visits the modules of `Ctrl.edge`. -/
theorem edge_sim (out : Nat → Nat) (n : Nat) (c : Ctrl) (s : Walk) (k : Nat)
    (hc : s.ctrl = c) (hinv : WbInv out k s) (hk : k + n ≤ 1376)
    (hin : ∀ p ∈ (Ctrl.edge n c).2, inMatrix p = true) :
    ∃ s', Walk.edgeLoop out n s = some s' ∧
      s'.image = paint out (Ctrl.edge n c).2 k s.image ∧ s'.ctrl = (Ctrl.edge n c).1 ∧
      WbInv out (k + (Ctrl.edge n c).2.length) s' := by
  induction n generalizing c s k with
  | zero => exact ⟨s, rfl, rfl, hc, hinv⟩
  | succ n ih =>
    have hy : s.y = c.y := by rw [← hc]; rfl
    have hx : s.x = c.x := by rw [← hc]; rfl
    have hd : s.dir = c.dir := by rw [← hc]; rfl
    have hi : s.i = c.i := by rw [← hc]; rfl
    unfold Walk.edgeLoop
    by_cases h6 : c.y ≠ 6
    · have h6' : s.y ≠ 6 := by rw [hy]; exact h6
      have hedge : Ctrl.edge (n + 1) c =
          ((Ctrl.edge n { c with i := c.i + 1, y := c.y + c.dir }).1,
            (c.y, c.x) :: (Ctrl.edge n { c with i := c.i + 1, y := c.y + c.dir }).2) := by
        rw [Ctrl.edge, if_pos h6]
      rw [hedge] at hin ⊢
      have hin0 : inMatrix (s.y, s.x) = true := by
        rw [hy, hx]; exact hin _ (List.mem_cons_self _ _)
      obtain ⟨s1, e1, g1, g2, g3, g4, g5, g6, g7⟩ := placeBit_sim out k s hinv (by omega) hin0
      rw [if_pos h6', e1]
      simp only []
      obtain ⟨s', e', f1, f2, f3⟩ := ih { c with i := c.i + 1, y := c.y + c.dir }
        { s1 with i := s1.i + 1, y := s1.y + s1.dir } (k + 1)
        (by simp only [Walk.ctrl, g2, g3, g4, g5, hy, hx, hd, hi])
        (WbInv_after_fetch out k _ (by simp only [g5, hinv.1]; omega) g6 g7)
        (by omega) (fun p hp => hin p (List.mem_cons_of_mem _ hp))
      refine ⟨s', e', ?_, f2, ?_⟩
      · rw [f1, paint, g1, hy, hx]
      · rw [List.length_cons]
        have : k + ((Ctrl.edge n { c with i := c.i + 1, y := c.y + c.dir }).2.length + 1) =
            k + 1 + (Ctrl.edge n { c with i := c.i + 1, y := c.y + c.dir }).2.length := by omega
        rw [this]; exact f3
    · have h6' : ¬ s.y ≠ 6 := by rw [hy]; exact h6
      have hedge : Ctrl.edge (n + 1) c = Ctrl.edge n { c with y := c.y + c.dir } := by
        rw [Ctrl.edge, if_neg h6]
      rw [hedge] at hin ⊢
      rw [if_neg h6']
      exact ih { c with y := c.y + c.dir } { s with y := s.y + s.dir } k
        (by simp only [Walk.ctrl, hy, hx, hd, hi]) ⟨hinv.1, hinv.2.1, hinv.2.2⟩ (by omega) hin

end TinyQR

namespace TinyQR

/-- Lines 300-317, when the two modules it may load hold what the set `dark` says. -/
theorem alignment_sim (out : Nat → Nat) (dark : Nat) (c : Ctrl) (s : Walk) (k : Nat)
    (hc : s.ctrl = c) (hinv : WbInv out k s)
    (hin0 : inMatrix (c.y, c.x) = true)
    (hget0 : s.image.get c.y c.x = if maskHas dark (c.y, c.x) then 0 else 255)
    (hleft : maskHas dark (c.y, c.x) = true →
      inMatrix (c.y, c.x - 1) = true ∧
        s.image.get c.y (c.x - 1) = if maskHas dark (c.y, c.x - 1) then 0 else 255)
    (hedge : maskHas dark (c.y, c.x) = true → maskHas dark (c.y, c.x - 1) = false →
      k + 5 ≤ 1376)
    (hin : ∀ p ∈ (Ctrl.align dark c).2, inMatrix p = true) :
    ∃ s', s.alignment out = some s' ∧
      s'.image = paint out (Ctrl.align dark c).2 k s.image ∧ s'.ctrl = (Ctrl.align dark c).1 ∧
      WbInv out (k + (Ctrl.align dark c).2.length) s' := by
  have hy : s.y = c.y := by rw [← hc]; rfl
  have hx : s.x = c.x := by rw [← hc]; rfl
  have hd : s.dir = c.dir := by rw [← hc]; rfl
  have hi : s.i = c.i := by rw [← hc]; rfl
  unfold Walk.alignment
  rw [hy, hx, inMatrix_load _ _ _ hin0]
  simp only []
  by_cases h0 : maskHas dark (c.y, c.x) = true
  · obtain ⟨hin1, hget1⟩ := hleft h0
    rw [hget0, if_pos h0, if_pos rfl, inMatrix_load _ _ _ hin1]
    simp only []
    by_cases h1 : maskHas dark (c.y, c.x - 1) = true
    · have hal : Ctrl.align dark c = ({ c with y := c.y + c.dir * 5 }, []) := by
        rw [Ctrl.align, if_pos h0, if_pos h1]
      rw [hget1, if_pos h1, if_pos rfl, hal]
      refine ⟨_, rfl, rfl, ?_, hinv⟩
      simp only [Walk.ctrl, hy, hx, hd, hi]
    · have h1' : maskHas dark (c.y, c.x - 1) = false := by
        cases h : maskHas dark (c.y, c.x - 1)
        · rfl
        · exact absurd h h1
      have hal : Ctrl.align dark c =
          ({ (Ctrl.edge 5 { c with x := c.x - 1 }).1 with
              x := (Ctrl.edge 5 { c with x := c.x - 1 }).1.x + 1 },
            (Ctrl.edge 5 { c with x := c.x - 1 }).2) := by
        rw [Ctrl.align, if_pos h0, if_neg h1]
      rw [hal] at hin ⊢
      rw [hget1, if_neg h1, if_neg (by decide)]
      obtain ⟨s1, e1, f1, f2, f3⟩ := edge_sim out 5 { c with x := c.x - 1 }
        { s with y := c.y, x := c.x - 1 } k (by simp only [Walk.ctrl, hd, hi])
        ⟨hinv.1, hinv.2.1, hinv.2.2⟩
        (hedge h0 h1') hin
      rw [e1]
      refine ⟨_, rfl, f1, ?_, ⟨f3.1, f3.2.1, f3.2.2⟩⟩
      have g1 : s1.y = (Ctrl.edge 5 { c with x := c.x - 1 }).1.y := by rw [← f2]; rfl
      have g2 : s1.x = (Ctrl.edge 5 { c with x := c.x - 1 }).1.x := by rw [← f2]; rfl
      have g3 : s1.dir = (Ctrl.edge 5 { c with x := c.x - 1 }).1.dir := by rw [← f2]; rfl
      have g4 : s1.i = (Ctrl.edge 5 { c with x := c.x - 1 }).1.i := by rw [← f2]; rfl
      simp only [Walk.ctrl, g1, g2, g3, g4]
  · have h0' : maskHas dark (c.y, c.x) = false := by
      cases h : maskHas dark (c.y, c.x)
      · rfl
      · exact absurd h h0
    have hal : Ctrl.align dark c = (c, []) := by
      rw [Ctrl.align, if_neg h0]
    rw [hget0, if_neg h0, if_neg (by decide), hal]
    exact ⟨s, rfl, rfl, hc, hinv⟩

/-- One iteration of the data-fill loop visits the modules of `Ctrl.step`. -/
theorem step_sim (out : Nat → Nat) (dark : Nat) (c : Ctrl) (s : Walk) (k : Nat)
    (hc : s.ctrl = c) (hinv : WbInv out k s)
    (hin0 : inMatrix (c.y, c.x) = true)
    (hget0 : s.image.get c.y c.x = if maskHas dark (c.y, c.x) then 0 else 255)
    (hleft : maskHas dark (c.y, c.x) = true →
      inMatrix (c.y, c.x - 1) = true ∧
        s.image.get c.y (c.x - 1) = if maskHas dark (c.y, c.x - 1) then 0 else 255)
    (hedge : maskHas dark (c.y, c.x) = true → maskHas dark (c.y, c.x - 1) = false →
      k + 5 ≤ 1376)
    (hin : ∀ p ∈ (Ctrl.step dark c).2, inMatrix p = true) :
    ∃ s', s.step out = some s' ∧
      s'.image = paint out (Ctrl.step dark c).2 k s.image ∧ s'.ctrl = (Ctrl.step dark c).1 ∧
      WbInv out (k + (Ctrl.step dark c).2.length) s' := by
  have hstep : Ctrl.step dark c =
      ({ y := (advance (Ctrl.align dark c).1.y ((Ctrl.align dark c).1.x - 1)
            (Ctrl.align dark c).1.dir).1,
          x := (advance (Ctrl.align dark c).1.y ((Ctrl.align dark c).1.x - 1)
            (Ctrl.align dark c).1.dir).2.1,
          dir := (advance (Ctrl.align dark c).1.y ((Ctrl.align dark c).1.x - 1)
            (Ctrl.align dark c).1.dir).2.2,
          i := (Ctrl.align dark c).1.i + 2 },
        (Ctrl.align dark c).2 ++ [((Ctrl.align dark c).1.y, (Ctrl.align dark c).1.x),
          ((Ctrl.align dark c).1.y, (Ctrl.align dark c).1.x - 1)]) := rfl
  rw [hstep] at hin ⊢
  simp only [] at hin ⊢
  obtain ⟨s1, e1, f1, f2, f3⟩ := alignment_sim out dark c s k hc hinv hin0 hget0 hleft hedge
    (fun p hp => hin p (List.mem_append_left _ hp))
  generalize Ctrl.align dark c = r at hin f1 f2 f3 ⊢
  have g1 : s1.y = r.1.y := by rw [← f2]; rfl
  have g2 : s1.x = r.1.x := by rw [← f2]; rfl
  have g3 : s1.dir = r.1.dir := by rw [← f2]; rfl
  have g4 : s1.i = r.1.i := by rw [← f2]; rfl
  have hinA : inMatrix (s1.y, s1.x) = true := by
    rw [g1, g2]; exact hin _ (List.mem_append_right _ (List.mem_cons_self _ _))
  obtain ⟨s2, e2, a1, a2, a3, a4, a5, a6⟩ := place_sim out (k + r.2.length) s1 f3 hinA
  have hinB : inMatrix (s2.y, s2.x - 1) = true := by
    rw [a2, a3, g1, g2]
    exact hin _ (List.mem_append_right _ (List.mem_cons_of_mem _ (List.mem_cons_self _ _)))
  obtain ⟨s3, e3, b1, b2, b3, b4, b5, b6⟩ := place_sim out (k + r.2.length + 1)
    { s2 with i := s2.i + 1, x := s2.x - 1 } (a6 _ rfl rfl rfl) hinB
  unfold Walk.step
  rw [e1]
  simp only []
  rw [e2]
  simp only []
  rw [e3]
  simp only [] at b1 b2 b3 b4 b5 b6 ⊢
  refine ⟨_, rfl, ?_, ?_, ?_⟩
  · show s3.image = _
    rw [b1, a1, f1, paint_append, paint, paint, paint, a2, a3, g1, g2]
  · show Walk.ctrl _ = _
    simp only [Walk.ctrl, b2, b3, b4, b5, a2, a3, a4, a5, g1, g2, g3, g4]
    congr 1
    omega
  · have hlen : k + (r.2 ++ [(r.1.y, r.1.x), (r.1.y, r.1.x - 1)]).length =
        k + r.2.length + 1 + 1 := by
      simp; omega
    rw [hlen]
    exact b6 _ rfl rfl rfl

end TinyQR

namespace TinyQR

/-! ## The whole walk -/

theorem run_prefix (dark format : Nat) (total : Int) (fuel : Nat) (c : Ctrl)
    (acc P : List (Int × Int)) (h : Ctrl.run dark format total fuel c acc = some P) :
    ∃ rest, P = acc.reverse ++ rest := by
  induction fuel generalizing c acc with
  | zero =>
    unfold Ctrl.run at h
    split_ifs at h
    exact ⟨[], by rw [List.append_nil]; exact (Option.some.inj h).symm⟩
  | succ fuel ih =>
    unfold Ctrl.run at h
    split_ifs at h
    · obtain ⟨rest, hr⟩ := ih _ _ h
      refine ⟨(Ctrl.step dark c).2 ++ rest, ?_⟩
      rw [hr, List.reverse_append, List.reverse_reverse, List.append_assoc]
    · exact ⟨[], by rw [List.append_nil]; exact (Option.some.inj h).symm⟩

theorem step_visits_light (dark : Nat) (c : Ctrl) (h : maskHas dark (c.y, c.x) = false) :
    (c.y, c.x) ∈ (Ctrl.step dark c).2 := by
  have hal : Ctrl.align dark c = (c, []) := by
    rw [Ctrl.align, if_neg (by rw [h]; decide)]
  simp [Ctrl.step, hal]

theorem step_visits_edge (dark : Nat) (c : Ctrl) (h0 : maskHas dark (c.y, c.x) = true)
    (h1 : maskHas dark (c.y, c.x - 1) = false) (h6 : c.y ≠ 6) :
    (c.y, c.x - 1) ∈ (Ctrl.step dark c).2 := by
  have hal : (Ctrl.align dark c).2 = (Ctrl.edge 5 { c with x := c.x - 1 }).2 := by
    rw [Ctrl.align, if_pos h0, if_neg (by rw [h1]; decide)]
  have hed : (c.y, c.x - 1) ∈ (Ctrl.edge 5 { c with x := c.x - 1 }).2 := by
    rw [Ctrl.edge, if_pos h6]
    exact List.mem_cons_self _ _
  show (c.y, c.x - 1) ∈ (Ctrl.align dark c).2 ++ _
  rw [hal]
  exact List.mem_append_left _ hed

/-- A module that a path without repetition visits later has not been visited yet. -/
theorem not_mem_prefix (l₁ l₂ : List (Int × Int)) (h : (l₁ ++ l₂).Nodup) (p : Int × Int)
    (hp : p ∈ l₂) : p ∉ l₁ := fun h1 =>
  (List.nodup_append.mp h).2.2 h1 hp

/-- The data fill visits the modules of the computed path, in order: when the matrix `B`
handed to it is dark exactly on the set `dark` outside the format modules, and the path is
without repetition and made of modules light in `B`, the walk runs to its end and leaves
the matrix painted along the path. -/
theorem run_sim (out : Nat → Nat) (dark format : Nat) (B : Image) (remainder_bits : Int)
    (hB : ∀ p, inMatrix p = true → maskHas format p = false →
      B.get p.1 p.2 = if maskHas dark p then 0 else 255)
    (P : List (Int × Int)) (hnd : P.Nodup)
    (hP : ∀ p ∈ P, inMatrix p = true ∧ maskHas dark p = false)
    (fuel : Nat) (c : Ctrl) (acc : List (Int × Int)) (s : Walk)
    (hc : s.ctrl = c) (hinv : WbInv out acc.length s)
    (himg : s.image = paint out acc.reverse 0 B)
    (hrun : Ctrl.run dark format (primary_bits + remainder_bits) fuel c acc = some P) :
    ∃ s', Walk.run out remainder_bits fuel s = some s' ∧ s'.image = paint out P 0 B ∧
      s'.i = (P.length : Int) ∧ ¬ s'.i < primary_bits + remainder_bits := by
  induction fuel generalizing c acc s with
  | zero =>
    have hi : s.i = c.i := by rw [← hc]; rfl
    unfold Ctrl.run at hrun
    unfold Walk.run
    split_ifs at hrun with hlt
    have hP' : P = acc.reverse := (Option.some.inj hrun).symm
    rw [if_neg (by rw [hi]; exact hlt)]
    refine ⟨s, rfl, by rw [himg, hP'], ?_, by rw [hi]; exact hlt⟩
    rw [hP', List.length_reverse]; exact hinv.1
  | succ fuel ih =>
    have hi : s.i = c.i := by rw [← hc]; rfl
    have hik : c.i = (acc.length : Int) := by rw [← hi]; exact hinv.1
    unfold Ctrl.run at hrun
    unfold Walk.run
    split_ifs at hrun with hlt hok
    · -- one more iteration
      rw [if_pos (by rw [hi]; exact hlt)]
      obtain ⟨rest, hrest⟩ := run_prefix _ _ _ _ _ _ _ hrun
      rw [List.reverse_append, List.reverse_reverse, List.append_assoc] at hrest
      have hvsP : ∀ p ∈ (Ctrl.step dark c).2, p ∈ P := fun p hp => by
        rw [hrest]
        exact List.mem_append_right _ (List.mem_append_left _ hp)
      have haccP : ∀ p ∈ acc.reverse, p ∈ P := fun p hp => by
        rw [hrest]; exact List.mem_append_left _ hp
      have hfresh : ∀ p ∈ (Ctrl.step dark c).2, p ∉ acc.reverse := fun p hp =>
        not_mem_prefix acc.reverse ((Ctrl.step dark c).2 ++ rest) (by rw [← hrest]; exact hnd)
          p (List.mem_append_left _ hp)
      -- what a load of a module of the matrix without format information returns
      have hload : ∀ p : Int × Int, inMatrix p = true → maskHas format p = false →
          (maskHas dark p = false → p ∈ (Ctrl.step dark c).2) →
          s.image.get p.1 p.2 = if maskHas dark p then 0 else 255 := by
        intro p hp1 hp2 hp3
        have hnot : p ∉ acc.reverse := by
          cases hd : maskHas dark p
          · exact hfresh p (hp3 hd)
          · intro hmem
            have := (hP p (haccP p hmem)).2
            rw [hd] at this
            cases this
        rw [himg, paint_get_not_mem _ _ _ _ _ hnot]
        exact hB p hp1 hp2
      simp only [Ctrl.stepOk, Bool.and_eq_true, Bool.or_eq_true, Bool.not_eq_true',
        decide_eq_true_eq] at hok
      obtain ⟨⟨hin0, hf0⟩, hrestOk⟩ := hok
      obtain ⟨s1, e1, f1, f2, f3⟩ := step_sim out dark c s acc.length hc hinv hin0
        (hload (c.y, c.x) hin0 hf0 (step_visits_light dark c))
        (by
          intro h0
          rcases hrestOk with h | ⟨⟨hin1, hf1⟩, h2⟩
          · rw [h0] at h; cases h
          · refine ⟨hin1, hload (c.y, c.x - 1) hin1 hf1 (fun h1 => ?_)⟩
            rcases h2 with h2 | ⟨h6, _⟩
            · rw [h1] at h2; cases h2
            · exact step_visits_edge dark c h0 h1 h6)
        (by
          intro h0 h1
          rcases hrestOk with h | ⟨_, h2⟩
          · rw [h0] at h; cases h
          · rcases h2 with h2 | ⟨_, h5⟩
            · rw [h1] at h2; cases h2
            · unfold primary_bits at h5
              omega)
        (fun p hp => (hP p (hvsP p hp)).1)
      rw [e1]
      simp only []
      apply ih (Ctrl.step dark c).1 ((Ctrl.step dark c).2.reverse ++ acc) s1 f2
      · have : ((Ctrl.step dark c).2.reverse ++ acc).length =
            acc.length + (Ctrl.step dark c).2.length := by
          simp; omega
        rw [this]; exact f3
      · rw [f1, himg, List.reverse_append, List.reverse_reverse, paint_append, Nat.zero_add,
          List.length_reverse]
      · exact hrun
    · have hP' : P = acc.reverse := (Option.some.inj hrun).symm
      rw [if_neg (by rw [hi]; exact hlt)]
      refine ⟨s, rfl, by rw [himg, hP'], ?_, by rw [hi]; exact hlt⟩
      rw [hP', List.length_reverse]; exact hinv.1

end TinyQR

namespace TinyQR

/-! ## The path of the hard-wired configuration -/

set_option maxRecDepth 1000000 in
theorem walkPath_run_isSome :
    (Ctrl.run darkMask formatMask 1383 1383 ⟨40, 40, -1, 0⟩ []).isSome = true := by
  decide!

theorem walkPath_run :
    Ctrl.run darkMask formatMask 1383 1383 ⟨40, 40, -1, 0⟩ [] = some walkPath := by
  have h := walkPath_run_isSome
  unfold walkPath
  cases hr : Ctrl.run darkMask formatMask 1383 1383 ⟨40, 40, -1, 0⟩ [] with
  | none => rw [hr] at h; cases h
  | some path => rfl

set_option maxRecDepth 1000000 in
theorem walkPath_fresh : freshCells walkPath functionMask = true := by
  decide!

set_option maxRecDepth 1000000 in
theorem walkPath_length : walkPath.length = 1383 := by
  decide!

set_option maxRecDepth 1000000 in
theorem baseImage_darkStores : darkStores baseImage.stores = true := by
  decide!

set_option maxRecDepth 1000000 in
theorem darkMask_sub : darkMask &&& functionMask = darkMask := by
  decide!

set_option maxRecDepth 1000000 in
theorem formatMask_sub : formatMask &&& functionMask = formatMask := by
  decide!

end TinyQR

namespace TinyQR

theorem maskHas_of_sub (a b : Nat) (h : a &&& b = a) (p : Int × Int)
    (hp : maskHas a p = true) : maskHas b p = true := by
  unfold maskHas at hp ⊢
  rw [← h, Nat.testBit_and] at hp
  simp only [Bool.and_eq_true] at hp
  exact hp.2

theorem maskHas_foldl_of_has (l : List (Int × Int)) (m : Nat) (q : Int × Int)
    (h : maskHas m q = true) : maskHas (l.foldl maskAdd m) q = true := by
  induction l generalizing m with
  | nil => exact h
  | cons p l ih => exact ih _ (maskHas_mono m p q h)

theorem maskHas_foldl_of_mem (l : List (Int × Int)) (m : Nat) (q : Int × Int) (h : q ∈ l) :
    maskHas (l.foldl maskAdd m) q = true := by
  induction l generalizing m with
  | nil => cases h
  | cons p l ih =>
    rcases List.mem_cons.mp h with rfl | hm
    · exact maskHas_foldl_of_has l _ _ (maskHas_maskAdd_self m q)
    · exact ih _ hm

theorem formatCells_mask (q : Int × Int) (h : q ∈ formatCells) : maskHas formatMask q = true :=
  maskHas_foldl_of_mem formatCells 0 q h

theorem functionCells_mask (q : Int × Int) (h : q ∈ functionCells) :
    maskHas functionMask q = true :=
  maskHas_foldl_of_mem functionCells 0 q h

/-! ## The matrix builder -/

theorem forLoop_congr {σ : Type} (lo hi : Nat) (f g : Nat → σ → σ) (s : σ)
    (h : ∀ i, lo ≤ i → i < hi → ∀ st, f i st = g i st) : forLoop lo hi f s = forLoop lo hi g s := by
  induction hi with
  | zero =>
    rw [forLoop_empty _ _ _ _ (Nat.zero_le _), forLoop_empty _ _ _ _ (Nat.zero_le _)]
  | succ n ih =>
    rcases Nat.lt_or_ge n lo with hlt | hge
    · rw [forLoop_empty _ _ _ _ (by omega), forLoop_empty _ _ _ _ (by omega)]
    · rw [forLoop_last _ _ _ _ hge, forLoop_last _ _ _ _ hge,
        ih (fun i h1 h2 st => h i h1 (by omega) st), h n hge (by omega)]

/-- The matrix before the format information only depends on the alignment centres. -/
theorem buildBase_congr (mp mp' : Nat → Nat) (h : ∀ i < 7, center mp i = center mp' i) :
    buildBase mp = buildBase mp' := by
  unfold buildBase
  congr 2
  unfold addAlignments
  apply forLoop_congr
  intro i _ hi img
  apply forLoop_congr
  intro j _ hj img'
  rw [h i hi, h j hj]

theorem buildBase_version6 (mp : Nat → Nat) (h : IsVersion6Row mp) : buildBase mp = baseImage := by
  obtain ⟨_, h6, h7, h8, h9, h10, h11⟩ := h
  unfold baseImage
  apply buildBase_congr
  intro i hi
  unfold center
  interval_cases i
  · rfl
  · simp [h6, ofList]
  · simp [h7, ofList]
  · simp [h8, ofList]
  · simp [h9, ofList]
  · simp [h10, ofList]
  · simp [h11, ofList]

/-- The format information only stores `0`, and only to format modules. -/
theorem addFormat_spec (mask : Nat) (img : Image) :
    (∀ p : Int × Int, p ∉ formatCells → (addFormat mask img).get p.1 p.2 = img.get p.1 p.2) ∧
      ∀ e ∈ (addFormat mask img).stores, e ∈ img.stores ∨ (e.2 = 0 ∧ e.1 ∈ formatCells) := by
  have hset : ∀ (im : Image) (y x : Int), (y, x) ∈ formatCells →
      ((∀ p : Int × Int, p ∉ formatCells → im.get p.1 p.2 = img.get p.1 p.2) ∧
        ∀ e ∈ im.stores, e ∈ img.stores ∨ (e.2 = 0 ∧ e.1 ∈ formatCells)) →
      ((∀ p : Int × Int, p ∉ formatCells → (im.set y x 0).get p.1 p.2 = img.get p.1 p.2) ∧
        ∀ e ∈ (im.set y x 0).stores, e ∈ img.stores ∨ (e.2 = 0 ∧ e.1 ∈ formatCells)) := by
    intro im y x hq ⟨h1, h2⟩
    refine ⟨fun p hp => ?_, fun e he => ?_⟩
    · rw [Image.get_set, if_neg (fun hc => hp (by
        have : p = (y, x) := Prod.ext hc.1 hc.2
        rw [this]; exact hq))]
      exact h1 p hp
    · rcases List.mem_cons.mp he with rfl | he'
      · exact Or.inr ⟨rfl, hq⟩
      · exact h2 e he'
  have h1 := forLoop_inv
    (fun (_ : Nat) (im : Image) =>
      (∀ p : Int × Int, p ∉ formatCells → im.get p.1 p.2 = img.get p.1 p.2) ∧
        ∀ e ∈ im.stores, e ∈ img.stores ∨ (e.2 = 0 ∧ e.1 ∈ formatCells))
    0 8
    (fun i img =>
      let skip : Int := if 6 ≤ i then 1 else 0
      if (mask >>> i) &&& 1 > 0 then
        let img := img.set 8 (max_pixels - i - 1) 0
        img.set (i + skip) 8 0
      else img)
    img (by decide) ⟨fun _ _ => rfl, fun e he => Or.inl he⟩
    (by
      intro i im _ hi hI
      simp only []
      by_cases hm : (mask >>> i) &&& 1 > 0
      · rw [if_pos hm]
        exact hset _ _ _ (by interval_cases i <;> decide)
          (hset _ _ _ (by interval_cases i <;> decide) hI)
      · rw [if_neg hm]
        exact hI)
  have h2 := forLoop_inv
    (fun (_ : Nat) (im : Image) =>
      (∀ p : Int × Int, p ∉ formatCells → im.get p.1 p.2 = img.get p.1 p.2) ∧
        ∀ e ∈ im.stores, e ∈ img.stores ∨ (e.2 = 0 ∧ e.1 ∈ formatCells))
    0 7
    (fun i img =>
      let skip : Int := if 1 ≤ i then -1 else 0
      if (mask >>> (8 + i)) &&& 1 > 0 then
        let img := img.set (max_pixels - 7 + i) 8 0
        img.set 8 (7 - i + skip) 0
      else img)
    _ (by decide) h1
    (by
      intro i im _ hi hI
      simp only []
      by_cases hm : (mask >>> (8 + i)) &&& 1 > 0
      · rw [if_pos hm]
        exact hset _ _ _ (by interval_cases i <;> decide)
          (hset _ _ _ (by interval_cases i <;> decide) hI)
      · rw [if_neg hm]
        exact hI)
  exact h2

end TinyQR

namespace TinyQR

/-! ## The data fill of the hard-wired configuration -/

theorem walkPath_spec :
    walkPath.Nodup ∧ ∀ p ∈ walkPath, inMatrix p = true ∧ maskHas functionMask p = false :=
  freshCells_spec walkPath functionMask walkPath_fresh

theorem not_dark_of_not_function (p : Int × Int) (h : maskHas functionMask p = false) :
    maskHas darkMask p = false := by
  cases hd : maskHas darkMask p
  · rfl
  · rw [maskHas_of_sub _ _ darkMask_sub p hd] at h
    cases h

theorem not_format_of_not_function (p : Int × Int) (h : maskHas functionMask p = false) :
    maskHas formatMask p = false := by
  cases hd : maskHas formatMask p
  · rfl
  · rw [maskHas_of_sub _ _ formatMask_sub p hd] at h
    cases h

/-- Outside the format modules the matrix handed to the data fill is dark exactly on
`darkMask`. -/
theorem buildImage_get (mp : Nat → Nat) (mask : Nat) (hrow : IsVersion6Row mp) (p : Int × Int)
    (hp : inMatrix p = true) (hf : maskHas formatMask p = false) :
    (buildImage mp mask).get p.1 p.2 = if maskHas darkMask p then 0 else 255 := by
  have hnot : p ∉ formatCells := fun hm => by
    rw [formatCells_mask p hm] at hf
    cases hf
  unfold buildImage
  rw [(addFormat_spec mask (buildBase mp)).1 p hnot, buildBase_version6 mp hrow]
  exact get_of_darkStores baseImage.stores baseImage_darkStores p hp

/-- The data fill runs to its end and its effect on the matrix is that of visiting the
modules of `walkPath` in order, the `k`-th with bit number `k`. -/
theorem dataFill_sim (out mp : Nat → Nat) (mask : Nat) (hrow : IsVersion6Row mp) :
    ∃ s, dataFill out (mp 5) (buildImage mp mask) = some s ∧
      s.image = paint out walkPath 0 (buildImage mp mask) ∧ s.i = 1383 := by
  have h5 : mp 5 = 7 := hrow.1
  have hrun : Ctrl.run darkMask formatMask (primary_bits + ((7 : Nat) : Int)) 1383
      ⟨40, 40, -1, 0⟩ [] = some walkPath := walkPath_run
  obtain ⟨s, e, f1, f2, _⟩ := run_sim out darkMask formatMask (buildImage mp mask)
    ((7 : Nat) : Int) (buildImage_get mp mask hrow) walkPath walkPath_spec.1
    (fun p hp => ⟨(walkPath_spec.2 p hp).1, not_dark_of_not_function p (walkPath_spec.2 p hp).2⟩)
    1383 ⟨40, 40, -1, 0⟩ []
    { image := buildImage mp mask, y := max_pixels - 1, x := max_pixels - 1, dir := -1, i := 0,
      working_byte := 0, interleaved_index := -1 }
    rfl ⟨rfl, fun _ => rfl, fun h => by simp at h⟩ rfl hrun
  refine ⟨s, ?_, f1, ?_⟩
  · unfold dataFill
    rw [h5]
    exact e
  · rw [f2, walkPath_length]; rfl

/-- The value of a module of the path after the data fill. -/
theorem path_module_value (out mp : Nat → Nat) (mask : Nat) (hrow : IsVersion6Row mp) (k : Nat)
    (hk : k < walkPath.length) :
    (paint out walkPath 0 (buildImage mp mask)).get walkPath[k].1 walkPath[k].2 =
      if xor (streamBit out k) (decide (walkPath[k].1 % 2 = 0)) then 0 else 255 := by
  have hmem : walkPath[k] ∈ walkPath := List.getElem_mem _
  obtain ⟨hin, hfun⟩ := walkPath_spec.2 _ hmem
  have hB := buildImage_get mp mask hrow _ hin (not_format_of_not_function _ hfun)
  rw [not_dark_of_not_function _ hfun] at hB
  rw [paint_get_mem out walkPath 0 _ walkPath_spec.1 k hk, paintCell_get_self, hB, Nat.zero_add]
  by_cases hb : streamBit out k = true <;> by_cases he : walkPath[k].1 % 2 = 0 <;>
    simp [hb, he]

/-- C5 (module values after placement).  In the hard-wired configuration (side 41, 1376
data bits, alignment centres `{6, 34}`, 7 remainder bits), for every interleaved stream
and every format word, the data fill runs to its end, having visited the modules of
`walkPath` in order; and the `k`-th module visited (`k = 0 .. 1382`) ends dark iff
`bit_k` XOR (its row index is even), where `bit_k` is bit `7 - k mod 8` of
`interleaved_output[k div 8]` for `k < 1376` and `0` for the remainder modules. -/
theorem module_values_after_placement (interleaved_output mp : Nat → Nat) (mask : Nat)
    (hrow : IsVersion6Row mp) (k : Nat) (hk : k < 1383) :
    ∃ s, dataFill interleaved_output (mp 5) (buildImage mp mask) = some s ∧
      s.image = paint interleaved_output walkPath 0 (buildImage mp mask) ∧
      walkPath.length = 1383 ∧
      (s.image.get (walkPath.getD k (0, 0)).1 (walkPath.getD k (0, 0)).2 = 0 ↔
        xor (streamBit interleaved_output k)
          (decide ((walkPath.getD k (0, 0)).1 % 2 = 0)) = true) ∧
      (s.image.get (walkPath.getD k (0, 0)).1 (walkPath.getD k (0, 0)).2 = 0 ∨
        s.image.get (walkPath.getD k (0, 0)).1 (walkPath.getD k (0, 0)).2 = 255) := by
  obtain ⟨s, e, f1, _⟩ := dataFill_sim interleaved_output mp mask hrow
  have hk' : k < walkPath.length := by rw [walkPath_length]; exact hk
  have hv := path_module_value interleaved_output mp mask hrow k hk'
  rw [List.getD_eq_getElem _ _ hk']
  refine ⟨s, e, f1, walkPath_length, ?_, ?_⟩ <;> rw [f1, hv]
  · by_cases hx : xor (streamBit interleaved_output k) (decide (walkPath[k].1 % 2 = 0)) = true
    · rw [if_pos hx]; exact ⟨fun _ => hx, fun _ => rfl⟩
    · rw [if_neg hx]; exact ⟨fun h => (by cases h), fun h => absurd h hx⟩
  · by_cases hx : xor (streamBit interleaved_output k) (decide (walkPath[k].1 % 2 = 0)) = true
    · rw [if_pos hx]; exact Or.inl rfl
    · rw [if_neg hx]; exact Or.inr rfl

theorem module_values_after_placement_witness :
    IsVersion6Row (ofList [24, 4, 19, 0, 0, 7, 34]) ∧ 0 < 1383 ∧
      ∃ s, dataFill (ofList [0x40]) (ofList [24, 4, 19, 0, 0, 7, 34] 5)
          (buildImage (ofList [24, 4, 19, 0, 0, 7, 34]) 0) = some s ∧
        s.image = paint (ofList [0x40]) walkPath 0 (buildImage (ofList [24, 4, 19, 0, 0, 7, 34]) 0) ∧
        walkPath.length = 1383 ∧
        (s.image.get (walkPath.getD 0 (0, 0)).1 (walkPath.getD 0 (0, 0)).2 = 0 ↔
          xor (streamBit (ofList [0x40]) 0) (decide ((walkPath.getD 0 (0, 0)).1 % 2 = 0)) = true) ∧
        (s.image.get (walkPath.getD 0 (0, 0)).1 (walkPath.getD 0 (0, 0)).2 = 0 ∨
          s.image.get (walkPath.getD 0 (0, 0)).1 (walkPath.getD 0 (0, 0)).2 = 255) :=
  ⟨by decide, by decide,
    module_values_after_placement (ofList [0x40]) (ofList [24, 4, 19, 0, 0, 7, 34]) 0
      (by decide) 0 (by decide)⟩

end TinyQR

namespace TinyQR

/-! ## The matrix `parseMessage` renders -/

theorem parseMessage_sim (a a_inv generator mp : Nat → Nat) (mask : Nat) (freetext : List Nat)
    (hrow : IsVersion6Row mp) :
    parseMessage a a_inv generator mp mask freetext =
      some (paint (interleave a a_inv generator mp (formatMessage freetext).message).interleaved_output
        walkPath 0 (buildImage mp mask)) := by
  obtain ⟨s, e, f1, _⟩ := dataFill_sim
    (interleave a a_inv generator mp (formatMessage freetext).message).interleaved_output
    mp mask hrow
  unfold parseMessage
  simp only []
  rw [e]
  exact congrArg some f1

set_option maxRecDepth 1000000 in
theorem finder_cells_static :
    ∀ i ∈ List.range 7, ∀ j ∈ List.range 7,
      ∀ q ∈ [((i : Int), (j : Int)), ((i : Int), 34 + (j : Int)), (34 + (i : Int), (j : Int))],
        inMatrix q = true ∧ maskHas functionMask q = true ∧ maskHas formatMask q = false ∧
          (if maskHas darkMask q then 0 else 255) = finderValue i j := by
  decide!

set_option maxRecDepth 1000000 in
theorem finder_dark_count :
    ((squareCells 0 0 7).filter (fun p => finderValue p.1 p.2 = 0)).length = 33 := by
  decide!

/-- A function module outside the format modules keeps the value the builder gave it. -/
theorem function_module_kept (out mp : Nat → Nat) (mask : Nat) (hrow : IsVersion6Row mp)
    (q : Int × Int) (hin : inMatrix q = true) (hfun : maskHas functionMask q = true)
    (hfmt : maskHas formatMask q = false) :
    (paint out walkPath 0 (buildImage mp mask)).get q.1 q.2 =
      if maskHas darkMask q then 0 else 255 := by
  have hnot : q ∉ walkPath := fun hm => by
    rw [(walkPath_spec.2 q hm).2] at hfun
    cases hfun
  rw [paint_get_not_mem _ _ _ _ q hnot]
  exact buildImage_get mp mask hrow q hin hfmt

/-- C6 (finder patterns survive encoding).  For every text of length at most 74 and
every format word, with the parameter row of the hard-wired configuration,
`parseMessage` renders a matrix, and in it each of the three 7 x 7 regions with top
left corner (0,0), (0,34) and (34,0) is the concentric finder pattern `finderValue`:
outer ring dark, the ring inside it light, the central 3 x 3 dark; that pattern has 33
dark modules. -/
theorem finder_patterns_survive (a a_inv generator mp : Nat → Nat) (mask : Nat)
    (freetext : List Nat) (_htext : IsText freetext) (_hlen : freetext.length ≤ 74)
    (hrow : IsVersion6Row mp) :
    ∃ img, parseMessage a a_inv generator mp mask freetext = some img ∧
      (∀ r c : Int, 0 ≤ r → r ≤ 6 → 0 ≤ c → c ≤ 6 →
        img.get r c = finderValue r c ∧ img.get r (34 + c) = finderValue r c ∧
          img.get (34 + r) c = finderValue r c) ∧
      ((squareCells 0 0 7).filter (fun p => finderValue p.1 p.2 = 0)).length = 33 := by
  refine ⟨_, parseMessage_sim a a_inv generator mp mask freetext hrow, ?_, finder_dark_count⟩
  intro r c hr0 hr6 hc0 hc6
  obtain ⟨i, rfl⟩ : ∃ i : Nat, r = (i : Int) := ⟨r.toNat, by omega⟩
  obtain ⟨j, rfl⟩ : ∃ j : Nat, c = (j : Int) := ⟨c.toNat, by omega⟩
  have hi : i ∈ List.range 7 := List.mem_range.mpr (by omega)
  have hj : j ∈ List.range 7 := List.mem_range.mpr (by omega)
  have hs := finder_cells_static i hi j hj
  have key : ∀ q ∈ [((i : Int), (j : Int)), ((i : Int), 34 + (j : Int)),
      (34 + (i : Int), (j : Int))],
      (paint (interleave a a_inv generator mp (formatMessage freetext).message).interleaved_output
        walkPath 0 (buildImage mp mask)).get q.1 q.2 = finderValue i j := by
    intro q hq
    obtain ⟨h1, h2, h3, h4⟩ := hs q hq
    rw [function_module_kept _ mp mask hrow q h1 h2 h3]
    exact h4
  exact ⟨key ((i : Int), (j : Int)) (by simp), key ((i : Int), 34 + (j : Int)) (by simp),
    key (34 + (i : Int), (j : Int)) (by simp)⟩

theorem finder_patterns_survive_witness :
    IsText [72, 73] ∧ [72, 73].length ≤ 74 ∧ IsVersion6Row (ofList [24, 4, 19, 0, 0, 7, 34]) ∧
      ∃ img, parseMessage alphaPow alphaLog (ofList []) (ofList [24, 4, 19, 0, 0, 7, 34])
          0b101010000010010 [72, 73] = some img ∧
        (∀ r c : Int, 0 ≤ r → r ≤ 6 → 0 ≤ c → c ≤ 6 →
          img.get r c = finderValue r c ∧ img.get r (34 + c) = finderValue r c ∧
            img.get (34 + r) c = finderValue r c) ∧
        ((squareCells 0 0 7).filter (fun p => finderValue p.1 p.2 = 0)).length = 33 :=
  ⟨by decide, by decide, by decide,
    finder_patterns_survive alphaPow alphaLog (ofList []) (ofList [24, 4, 19, 0, 0, 7, 34])
      0b101010000010010 [72, 73] (by decide) (by decide) (by decide)⟩

/-! ## Every module is dark or light -/

theorem lookup_mem (l : List ((Int × Int) × Nat)) (p : Int × Int) (v : Nat)
    (h : l.lookup p = some v) : (p, v) ∈ l := by
  induction l with
  | nil => cases h
  | cons e l ih =>
    obtain ⟨q, w⟩ := e
    by_cases hq : p = q
    · subst hq
      rw [List.lookup_cons, beq_self_eq_true] at h
      cases h
      exact List.mem_cons_self _ _
    · rw [List.lookup_cons, beq_eq_false_iff_ne.mpr hq] at h
      exact List.mem_cons_of_mem _ (ih h)

theorem get_two_valued (img : Image) (h : ∀ e ∈ img.stores, e.2 = 0 ∨ e.2 = 255) (y x : Int) :
    img.get y x = 0 ∨ img.get y x = 255 := by
  unfold Image.get
  cases hl : img.stores.lookup (y, x) with
  | none => exact Or.inr rfl
  | some v => exact h _ (lookup_mem _ _ _ hl)

theorem paintCell_stores (out : Nat → Nat) (k : Nat) (p : Int × Int) (img : Image)
    (hp : inMatrix p = true)
    (h : ∀ e ∈ img.stores, inMatrix e.1 = true ∧ (e.2 = 0 ∨ e.2 = 255)) :
    ∀ e ∈ (paintCell out k p img).stores, inMatrix e.1 = true ∧ (e.2 = 0 ∨ e.2 = 255) := by
  have h1 : ∀ e ∈ (if streamBit out k then img.set p.1 p.2 0 else img).stores,
      inMatrix e.1 = true ∧ (e.2 = 0 ∨ e.2 = 255) := by
    intro e he
    by_cases hb : streamBit out k = true
    · rw [if_pos hb] at he
      rcases List.mem_cons.mp he with rfl | he
      · exact ⟨hp, Or.inl rfl⟩
      · exact h e he
    · rw [if_neg hb] at he
      exact h e he
  intro e he
  unfold paintCell at he
  simp only [] at he
  by_cases hm : p.1 % 2 = 0
  · rw [if_pos hm] at he
    rcases List.mem_cons.mp he with rfl | he
    · refine ⟨hp, ?_⟩
      rcases get_two_valued _ (fun e he => (h1 e he).2) p.1 p.2 with h0 | h0
      · exact Or.inr (by show 255 - _ = 255; rw [h0])
      · exact Or.inl (by show 255 - _ = 0; rw [h0])
    · exact h1 e he
  · rw [if_neg hm] at he
    exact h1 e he

theorem paint_stores (out : Nat → Nat) (path : List (Int × Int)) (k : Nat) (img : Image)
    (hp : ∀ p ∈ path, inMatrix p = true)
    (h : ∀ e ∈ img.stores, inMatrix e.1 = true ∧ (e.2 = 0 ∨ e.2 = 255)) :
    ∀ e ∈ (paint out path k img).stores, inMatrix e.1 = true ∧ (e.2 = 0 ∨ e.2 = 255) := by
  induction path generalizing k img with
  | nil => exact h
  | cons p path ih =>
    rw [paint]
    exact ih _ _ (fun q hq => hp q (List.mem_cons_of_mem _ hq))
      (paintCell_stores out k p img (hp p (List.mem_cons_self _ _)) h)

theorem formatCells_inMatrix : ∀ p ∈ formatCells, inMatrix p = true := by
  decide

theorem buildImage_stores (mp : Nat → Nat) (mask : Nat) (hrow : IsVersion6Row mp) :
    ∀ e ∈ (buildImage mp mask).stores, inMatrix e.1 = true ∧ (e.2 = 0 ∨ e.2 = 255) := by
  intro e he
  unfold buildImage at he
  rcases (addFormat_spec mask (buildBase mp)).2 e he with hb | ⟨h0, hf⟩
  · rw [buildBase_version6 mp hrow] at hb
    have hd := baseImage_darkStores
    unfold darkStores at hd
    have := List.all_eq_true.mp hd e hb
    simp only [Bool.and_eq_true, beq_iff_eq] at this
    exact ⟨this.1, Or.inl this.2⟩
  · exact ⟨formatCells_inMatrix _ hf, Or.inl h0⟩

/-- C9 (no unset cells).  For every text of length at most 74, every parameter row with
the hard-wired version-6 sizes and every format word, `parseMessage` renders a matrix
of side `max_pixels = 41 = 4 * 6 + 17` in which every module is `0` (dark) or `255`
(light); and every store of the builder and of the data fill, the mask inversion
included, writes `0` or `255` to a module of the matrix. -/
theorem no_unset_cells (a a_inv generator mp : Nat → Nat) (mask : Nat)
    (freetext : List Nat) (_htext : IsText freetext) (_hlen : freetext.length ≤ 74)
    (hrow : IsVersion6Row mp) :
    ∃ img, parseMessage a a_inv generator mp mask freetext = some img ∧
      max_pixels = 4 * 6 + 17 ∧
      (∀ y x : Int, img.get y x = 0 ∨ img.get y x = 255) ∧
      ∀ e ∈ img.stores, inMatrix e.1 = true ∧ (e.2 = 0 ∨ e.2 = 255) := by
  have hst := paint_stores
    (interleave a a_inv generator mp (formatMessage freetext).message).interleaved_output
    walkPath 0 (buildImage mp mask) (fun p hp => (walkPath_spec.2 p hp).1)
    (buildImage_stores mp mask hrow)
  exact ⟨_, parseMessage_sim a a_inv generator mp mask freetext hrow, by decide,
    get_two_valued _ (fun e he => (hst e he).2), hst⟩

theorem no_unset_cells_witness :
    IsText [72, 73] ∧ [72, 73].length ≤ 74 ∧ IsVersion6Row (ofList [24, 4, 19, 0, 0, 7, 34]) ∧
      ∃ img, parseMessage alphaPow alphaLog (ofList []) (ofList [24, 4, 19, 0, 0, 7, 34])
          0b101010000010010 [72, 73] = some img ∧
        max_pixels = 4 * 6 + 17 ∧
        (∀ y x : Int, img.get y x = 0 ∨ img.get y x = 255) ∧
        ∀ e ∈ img.stores, inMatrix e.1 = true ∧ (e.2 = 0 ∨ e.2 = 255) :=
  ⟨by decide, by decide, by decide,
    no_unset_cells alphaPow alphaLog (ofList []) (ofList [24, 4, 19, 0, 0, 7, 34])
      0b101010000010010 [72, 73] (by decide) (by decide) (by decide)⟩

end TinyQR

namespace TinyQR

/-! ## What `reedSolomon` reads: the log table and the buffer -/

theorem getD_lt_256 (ec : List Nat) (hb : ∀ c ∈ ec, c < 256) (i : Nat) : ec.getD i 0 < 256 := by
  by_cases h : i < ec.length
  · rw [List.getD_eq_getElem _ _ h]
    exact hb _ (List.getElem_mem _)
  · rw [List.getD_eq_default _ _ (Nat.le_of_not_lt h)]
    decide

theorem set_bytes (ec : List Nat) (hb : ∀ c ∈ ec, c < 256) (k v : Nat) (hv : v < 256) :
    ∀ c ∈ ec.set k v, c < 256 := by
  intro c hc
  rcases List.mem_or_eq_of_mem_set hc with h | h
  · exact hb c h
  · rw [h]; exact hv

theorem rsShift_bytes (lo hi : Nat) (ec : List Nat) (hb : ∀ c ∈ ec, c < 256) :
    ∀ c ∈ rsShift lo hi ec, c < 256 := by
  rcases Nat.lt_or_ge hi lo with h | h
  · unfold rsShift
    rw [forLoop_empty _ _ _ _ (Nat.le_of_lt h)]
    exact hb
  · exact forLoop_inv (fun _ (b : List Nat) => ∀ c ∈ b, c < 256) lo hi
      (fun i b => b.set (i - 1) (b.getD i 0)) ec h hb
      (fun i b _ _ hbb => set_bytes b hbb _ _ (getD_lt_256 b hbb i))

theorem rsReduce_bytes (a : Nat → Nat) (ha : ∀ e < 255, a e < 256) (E lead : Nat)
    (generator : Nat → Nat) (ec : List Nat) (hb : ∀ c ∈ ec, c < 256) :
    ∀ c ∈ rsReduce a E lead generator ec, c < 256 := by
  refine forLoop_inv (fun _ (b : List Nat) => ∀ c ∈ b, c < 256) 1 (E + 1) _ ec (by omega) hb
    (fun i b _ _ hbb => ?_)
  apply set_bytes b hbb
  apply xor_lt_256
  · by_cases h : i < E
    · rw [if_pos h]; exact getD_lt_256 b hbb i
    · rw [if_neg h]; decide
  · exact ha _ (Nat.mod_lt _ (by decide))

theorem rsStep_bytes (a a_inv : Nat → Nat) (ha : ∀ e < 255, a e < 256) (d E : Nat)
    (generator : Nat → Nat) (ec : List Nat) (hb : ∀ c ∈ ec, c < 256) :
    ∀ c ∈ rsStep a a_inv d E generator ec, c < 256 := by
  unfold rsStep
  simp only []
  apply rsShift_bytes
  by_cases h : ec.getD 0 0 ≠ 0
  · rw [if_pos h]; exact rsReduce_bytes a ha _ _ _ _ hb
  · rw [if_neg h]; exact rsShift_bytes _ _ _ hb

theorem rsInit_bytes (d off : Nat) (message : Nat → Nat) (E : Nat) (ec : List Nat)
    (hmsg : ∀ i < d, message (i + off) < 256) (hb : ∀ c ∈ ec, c < 256) :
    ∀ c ∈ rsInit d off message E ec, c < 256 := by
  unfold rsInit
  simp only []
  have h1 : ∀ c ∈ forLoop 0 d (fun i b => b.set i (message (i + off))) ec, c < 256 :=
    forLoop_inv (fun _ (b : List Nat) => ∀ c ∈ b, c < 256) 0 d _ ec (Nat.zero_le _) hb
      (fun i b _ hi hbb => set_bytes b hbb _ _ (hmsg i hi))
  rcases Nat.lt_or_ge E d with h | h
  · rw [forLoop_empty _ _ _ _ (Nat.le_of_lt h)]
    exact h1
  · exact forLoop_inv (fun _ (b : List Nat) => ∀ c ∈ b, c < 256) d E _ _ h h1
      (fun i b _ _ hbb => set_bytes b hbb _ _ (by decide))

/-- One iteration does not depend on the entry `a_inv[0]`. -/
theorem rsStep_log_zero (a a_inv a_inv' : Nat → Nat)
    (hagree : ∀ c, 1 ≤ c → c ≤ 255 → a_inv c = a_inv' c) (d E : Nat) (generator : Nat → Nat)
    (ec : List Nat) (hb : ∀ c ∈ ec, c < 256) :
    rsStep a a_inv d E generator ec = rsStep a a_inv' d E generator ec := by
  unfold rsStep
  simp only []
  by_cases h : ec.getD 0 0 ≠ 0
  · rw [if_pos h, if_pos h, hagree _ (Nat.pos_of_ne_zero h)
      (Nat.le_of_lt_succ (getD_lt_256 ec hb 0))]
  · rw [if_neg h, if_neg h]

theorem reedSolomon_bytes_and_log (a a_inv a_inv' generator : Nat → Nat)
    (hagree : ∀ c, 1 ≤ c → c ≤ 255 → a_inv c = a_inv' c) (ha : ∀ e < 255, a e < 256)
    (d E : Nat) (init : List Nat) (hb : ∀ c ∈ init, c < 256) (n : Nat) :
    (∀ c ∈ forLoop 1 (1 + n) (fun _ ec => rsStep a a_inv d E generator ec) init, c < 256) ∧
      forLoop 1 (1 + n) (fun _ ec => rsStep a a_inv d E generator ec) init =
        forLoop 1 (1 + n) (fun _ ec => rsStep a a_inv' d E generator ec) init := by
  induction n with
  | zero =>
    rw [forLoop_empty _ _ _ _ (Nat.le_refl _), forLoop_empty _ _ _ _ (Nat.le_refl _)]
    exact ⟨hb, rfl⟩
  | succ n ih =>
    rw [← Nat.add_assoc, forLoop_last _ _ _ _ (by omega), forLoop_last _ _ _ _ (by omega)]
    refine ⟨rsStep_bytes a a_inv ha d E generator _ ih.1, ?_⟩
    rw [← ih.2]
    exact rsStep_log_zero a a_inv a_inv' hagree d E generator _ ih.1

/-- The step for a zero leading coefficient is a left shift of the buffer. -/
theorem rsStep_zero_lead (a a_inv : Nat → Nat) (d E : Nat) (generator : Nat → Nat)
    (ec : List Nat) (h0 : ec.getD 0 0 = 0) (hlen : max E d < ec.length) (i : Nat) :
    (rsStep a a_inv d E generator ec).getD i 0 =
      if i < max E d then ec.getD (i + 1) 0 else ec.getD i 0 := by
  unfold rsStep
  simp only []
  rw [if_neg (by rw [h0]; exact fun h => h rfl)]
  have hE : E + 1 ≤ ec.length := by
    have := Nat.le_max_left E d
    omega
  obtain ⟨l1, g1⟩ := rsShift_spec 1 (E + 1) ec (Nat.le_refl _) (by omega) hE
  rcases Nat.lt_or_ge E d with h | h
  · have hd : d + 1 ≤ (rsShift 1 (E + 1) ec).length := by
      have := Nat.le_max_right E d
      omega
    obtain ⟨_, g2⟩ := rsShift_spec (E + 1) (d + 1) _ (by omega) (by omega) hd
    rw [g2, g1, g1, Nat.max_eq_right (Nat.le_of_lt h)]
    split_ifs <;> first | rfl | (exfalso; omega)
  · unfold rsShift at g1 ⊢
    rw [forLoop_empty (E + 1) (d + 1) _ _ (by omega), g1, Nat.max_eq_left h]
    split_ifs <;> first | rfl | (exfalso; omega)

/-- C18 (log(0) is never used).  For every data block, `E` and generator, two runs of
`reedSolomon` whose log tables agree on every index `1 .. 255` leave the same buffer,
whatever the tables hold at index `0`; and the step for a zero leading coefficient is
a pure left shift of the buffer: `errorcode[i]` becomes `errorcode[i+1]` for every
`i < max(error_codewords, data_codewords)` and nothing else changes. -/
theorem log_zero_not_used (a a_inv a_inv' message generator : Nat → Nat) (errorcode : List Nat)
    (data_codewords data_offset error_codewords : Nat)
    (hagree : ∀ c, 1 ≤ c → c ≤ 255 → a_inv c = a_inv' c) (ha : ∀ e < 255, a e < 256)
    (hmsg : ∀ i < data_codewords, message (i + data_offset) < 256)
    (hbuf : ∀ c ∈ errorcode, c < 256) :
    reedSolomon a a_inv data_codewords data_offset message error_codewords errorcode generator =
        reedSolomon a a_inv' data_codewords data_offset message error_codewords errorcode
          generator ∧
      ∀ ec : List Nat, ec.getD 0 0 = 0 → max error_codewords data_codewords < ec.length →
        ∀ i, (rsStep a a_inv data_codewords error_codewords generator ec).getD i 0 =
          if i < max error_codewords data_codewords then ec.getD (i + 1) 0 else ec.getD i 0 := by
  refine ⟨?_, fun ec h0 hlen i => rsStep_zero_lead a a_inv _ _ generator ec h0 hlen i⟩
  unfold reedSolomon
  have h := (reedSolomon_bytes_and_log a a_inv a_inv' generator hagree ha
    data_codewords error_codewords _
    (rsInit_bytes data_codewords data_offset message error_codewords errorcode hmsg hbuf)
    data_codewords).2
  rw [Nat.add_comm 1 data_codewords] at h
  exact h

theorem log_zero_not_used_witness :
    (∀ c, 1 ≤ c → c ≤ 255 → alphaLog c = (fun c => if c = 0 then 77 else alphaLog c) c) ∧
      (∀ e < 255, alphaPow e < 256) ∧
      (∀ i < 13, ofList [0, 91, 11, 120, 209, 114, 220, 77, 67, 64, 236, 17, 236] (i + 0) < 256) ∧
      (∀ c ∈ List.replicate 30 0, c < 256) ∧
      (reedSolomon alphaPow alphaLog 13 0
          (ofList [0, 91, 11, 120, 209, 114, 220, 77, 67, 64, 236, 17, 236]) 13
          (List.replicate 30 0)
          (ofList [74, 152, 176, 100, 86, 100, 106, 104, 130, 218, 206, 140, 78]) =
        reedSolomon alphaPow (fun c => if c = 0 then 77 else alphaLog c) 13 0
          (ofList [0, 91, 11, 120, 209, 114, 220, 77, 67, 64, 236, 17, 236]) 13
          (List.replicate 30 0)
          (ofList [74, 152, 176, 100, 86, 100, 106, 104, 130, 218, 206, 140, 78]) ∧
        ∀ ec : List Nat, ec.getD 0 0 = 0 → max 13 13 < ec.length →
          ∀ i, (rsStep alphaPow alphaLog 13 13
              (ofList [74, 152, 176, 100, 86, 100, 106, 104, 130, 218, 206, 140, 78]) ec).getD i 0 =
            if i < max 13 13 then ec.getD (i + 1) 0 else ec.getD i 0) :=
  ⟨fun c h1 _ => by simp only []; rw [if_neg (by omega)], fun e _ => alphaPow_lt e,
    by decide, by decide,
    log_zero_not_used alphaPow alphaLog (fun c => if c = 0 then 77 else alphaLog c)
      (ofList [0, 91, 11, 120, 209, 114, 220, 77, 67, 64, 236, 17, 236])
      (ofList [74, 152, 176, 100, 86, 100, 106, 104, 130, 218, 206, 140, 78])
      (List.replicate 30 0) 13 0 13
      (fun c h1 _ => by simp only []; rw [if_neg (by omega)]) (fun e _ => alphaPow_lt e)
      (by decide) (by decide)⟩

/-! ## The byte after the remainder window -/

/-- With no more data than error codewords, `reedSolomon` accesses the indices
`0 .. error_codewords` of its buffer and no other. -/
theorem reedSolomonAccesses_le (a a_inv message generator : Nat → Nat) (errorcode : List Nat)
    (d off E : Nat) (hdE : d ≤ E) :
    ∀ k ∈ reedSolomonAccesses a a_inv d off message E errorcode generator, k ≤ E := by
  have hstep : ∀ ec : List Nat, ∀ k ∈ rsStepAccesses d E ec, k ≤ E := by
    intro ec k hk
    unfold rsStepAccesses at hk
    rw [Nat.sub_eq_zero_of_le hdE] at hk
    simp only [List.range'_zero, List.flatMap_nil, List.append_nil, List.mem_append,
      List.mem_cons, List.mem_singleton, List.not_mem_nil, or_false] at hk
    rcases hk with (h | h) | h
    · omega
    · omega
    · split_ifs at h
      · obtain ⟨i, hi, hk⟩ := List.mem_flatMap.mp h
        have := List.mem_range'_1.mp hi
        rcases List.mem_append.mp hk with h1 | h1
        · split_ifs at h1
          · rw [List.mem_singleton.mp h1]; omega
          · cases h1
        · rw [List.mem_singleton.mp h1]; omega
      · obtain ⟨i, hi, hk⟩ := List.mem_flatMap.mp h
        have := List.mem_range'_1.mp hi
        simp only [List.mem_cons, List.mem_singleton, List.not_mem_nil, or_false] at hk
        omega
  intro k hk
  unfold reedSolomonAccesses at hk
  rcases List.mem_append.mp hk with h | h
  · unfold rsInitAccesses at h
    rcases List.mem_append.mp h with h | h
    · have := List.mem_range'_1.mp h
      omega
    · have := List.mem_range'_1.mp h
      omega
  · exact forLoop_inv (fun _ (st : List Nat × List Nat) => ∀ k ∈ st.2, k ≤ E) 1 (d + 1) _ _
      (by omega) (fun k hk => by cases hk)
      (fun i st _ _ hst k hk => by
        rcases List.mem_append.mp hk with h | h
        · exact hst k h
        · exact hstep _ k h) k h

set_option maxRecDepth 1000000 in
/-- C11 (Reed-Solomon is a pure function of its declared inputs), at a failing input:
for the one-codeword block `[0]`, `error_codewords = 1` and the generator exponent `0`,
two 30-byte buffers that differ only in `errorcode[1]` (`0` and `5`) give different
error codewords, `errorcode[0] = 0` and `errorcode[0] = 5`: the step for a zero leading
coefficient copies the byte behind the remainder window into it. -/
theorem reedSolomon_reads_stale_byte :
    (reedSolomon alphaPow alphaLog 1 0 (ofList [0]) 1 (List.replicate 30 0)
        (ofList [0])).take 1 = [0] ∧
      (reedSolomon alphaPow alphaLog 1 0 (ofList [0]) 1 (0 :: 5 :: List.replicate 28 0)
        (ofList [0])).take 1 = [5] := by
  decide!

theorem remainder_of_long_block :
    IsRemainder ((List.range 2).map (fun i => ofList [1, 1] (i + 0)) ++ List.replicate 1 0)
      (generatorPoly (ofList [0]) 1) [0] := by
  refine ⟨rfl, by decide, [1, 0], rfl, by decide, ?_⟩
  decide

theorem no_remainder_of_long_block :
    ¬ IsRemainder ((List.range 2).map (fun i => ofList [1, 1] (i + 0)) ++ List.replicate 1 0)
      (generatorPoly (ofList [0]) 1) [1] := by
  rintro ⟨_, _, q, hq, _, h⟩
  match q, hq with
  | [q0, q1], _ =>
    have e : polyAdd (polyMul [q0, q1] (generatorPoly (ofList [0]) 1))
        (List.replicate 2 0 ++ [1]) = [q0, q0 ^^^ q1, q1 ^^^ 1] := by
      simp [polyMul, polyAdd, polyScale, generatorPoly, alphaPow, ofList, gfMul_one_right]
    rw [show List.length [q0, q1] = 2 from rfl, e] at h
    have h1 : (1 : Nat) = q0 := by injection h
    have h2 : [1, 0] = [q0 ^^^ q1, q1 ^^^ 1] := by injection h
    have h3 : (1 : Nat) = q0 ^^^ q1 := by injection h2
    have h4 : [0] = [q1 ^^^ 1] := by injection h2
    have h5 : (0 : Nat) = q1 ^^^ 1 := by injection h4
    have h6 : q1 = 0 := by
      have := congrArg (fun t => q0 ^^^ t) h3
      simp only [← Nat.xor_assoc, Nat.xor_self, Nat.zero_xor] at this
      rw [← h1] at this
      exact this.symm.trans (by decide)
    rw [h6] at h5
    exact absurd h5 (by decide)

set_option maxRecDepth 1000000 in
/-- C19 (more data than error codewords), at a failing input: for the block `[1, 1]`
(`data_codewords = 2`), `error_codewords = 1`, the generator `x + 1` and a zeroed
30-byte buffer, `reedSolomon` leaves `errorcode[0] = 1`, while the remainder of
`D(x) * x = x^2 + x` on division by `x + 1` is `0`, and `1` is not a remainder. -/
theorem reedSolomon_long_block_wrong :
    (reedSolomon alphaPow alphaLog 2 0 (ofList [1, 1]) 1 (List.replicate 30 0)
        (ofList [0])).take 1 = [1] ∧
      IsRemainder ((List.range 2).map (fun i => ofList [1, 1] (i + 0)) ++ List.replicate 1 0)
        (generatorPoly (ofList [0]) 1) [0] ∧
      ¬ IsRemainder ((List.range 2).map (fun i => ofList [1, 1] (i + 0)) ++ List.replicate 1 0)
        (generatorPoly (ofList [0]) 1)
        ((reedSolomon alphaPow alphaLog 2 0 (ofList [1, 1]) 1 (List.replicate 30 0)
          (ofList [0])).take 1) := by
  have h : (reedSolomon alphaPow alphaLog 2 0 (ofList [1, 1]) 1 (List.replicate 30 0)
      (ofList [0])).take 1 = [1] := by decide!
  refine ⟨h, remainder_of_long_block, ?_⟩
  rw [h]
  exact no_remainder_of_long_block

set_option maxRecDepth 1000000 in
/-- C20 (Reed-Solomon stays inside its buffer), at a failing input: with
`error_codewords = 30`, the one-codeword block `[0]` and the 30-byte buffer, the step
for a zero leading coefficient reads `errorcode[30]`, one byte past the buffer; `30` is
the largest index accessed. -/
theorem reedSolomon_reads_past_buffer :
    30 ∈ reedSolomonAccesses alphaPow alphaLog 1 0 (ofList [0]) 30 (List.replicate 30 0)
        (ofList []) ∧
      (List.replicate 30 0).length = 30 ∧
      ∀ k ∈ reedSolomonAccesses alphaPow alphaLog 1 0 (ofList [0]) 30 (List.replicate 30 0)
        (ofList []), k ≤ 30 := by
  refine ⟨by decide!, rfl, ?_⟩
  exact reedSolomonAccesses_le alphaPow alphaLog (ofList [0]) (ofList []) (List.replicate 30 0)
    1 0 30 (by decide)

end TinyQR

namespace TinyQR

/-! ## The function patterns in the rendered matrix -/

theorem format_bit_test (m i : Nat) : (0 < (m >>> i) &&& 1) = (m.testBit i = true) := by
  rw [Nat.and_one_is_mod, Nat.testBit_to_div_mod, Nat.shiftRight_eq_div_pow]
  simp only [decide_eq_true_eq, eq_iff_iff]
  omega

theorem ite_get (c : Prop) [Decidable c] (A B : Image) (y x : Int) :
    (if c then A else B).get y x = if c then A.get y x else B.get y x := by
  split_ifs <;> rfl

set_option maxHeartbeats 1000000 in
/-- Lines 262-283 on the first copy of format bit `k`. -/
theorem addFormat_get_first (mask : Nat) (img : Image) (k : Nat) (hk : k < 15) :
    (addFormat mask img).get (formatFirst k).1 (formatFirst k).2 =
      if mask.testBit k then 0 else img.get (formatFirst k).1 (formatFirst k).2 := by
  simp only [addFormat, forLoop, Nat.sub_zero, List.range', List.foldl, max_pixels, ite_get,
    Image.get_set, gt_iff_lt, format_bit_test]
  interval_cases k <;> simp [formatFirst]

set_option maxHeartbeats 1000000 in
/-- Lines 262-283 on the second copy of format bit `k`. -/
theorem addFormat_get_second (mask : Nat) (img : Image) (k : Nat) (hk : k < 15) :
    (addFormat mask img).get (formatSecond k).1 (formatSecond k).2 =
      if mask.testBit k then 0 else img.get (formatSecond k).1 (formatSecond k).2 := by
  simp only [addFormat, forLoop, Nat.sub_zero, List.range', List.foldl, max_pixels, ite_get,
    Image.get_set, gt_iff_lt, format_bit_test]
  interval_cases k <;> simp [formatSecond]

/-- A function module keeps the value the builder gave it. -/
theorem function_module_built (out mp : Nat → Nat) (mask : Nat) (q : Int × Int)
    (hfun : maskHas functionMask q = true) :
    (paint out walkPath 0 (buildImage mp mask)).get q.1 q.2 = (buildImage mp mask).get q.1 q.2 := by
  have hnot : q ∉ walkPath := fun hm => by
    rw [(walkPath_spec.2 q hm).2] at hfun
    cases hfun
  exact paint_get_not_mem _ _ _ _ q hnot

set_option maxRecDepth 1000000 in
theorem format_cells_static :
    ∀ k ∈ List.range 15, ∀ q ∈ [formatFirst k, formatSecond k],
      inMatrix q = true ∧ maskHas functionMask q = true ∧ maskHas darkMask q = false := by
  decide!

set_option maxRecDepth 1000000 in
theorem format_cells_distinct :
    ((List.range 15).map formatFirst ++ (List.range 15).map formatSecond).Nodup ∧
      ∀ p ∈ (List.range 15).map formatFirst ++ (List.range 15).map formatSecond,
        p.1 ≠ 6 ∧ p.2 ≠ 6 ∧ p ≠ (33, 8) := by
  decide!

/-- The value of a format module in the matrix handed to the data fill. -/
theorem buildImage_format (mp : Nat → Nat) (mask : Nat) (hrow : IsVersion6Row mp) (k : Nat)
    (hk : k < 15) :
    (buildImage mp mask).get (formatFirst k).1 (formatFirst k).2 =
        (if mask.testBit k then 0 else 255) ∧
      (buildImage mp mask).get (formatSecond k).1 (formatSecond k).2 =
        (if mask.testBit k then 0 else 255) := by
  have hs := format_cells_static k (List.mem_range.mpr hk)
  have hbase : ∀ q ∈ [formatFirst k, formatSecond k], baseImage.get q.1 q.2 = 255 := by
    intro q hq
    obtain ⟨h1, _, h3⟩ := hs q hq
    have := get_of_darkStores baseImage.stores baseImage_darkStores q h1
    rw [show maskHas (storesMask baseImage.stores) q = maskHas darkMask q from rfl, h3] at this
    exact this
  unfold buildImage
  rw [buildBase_version6 mp hrow, addFormat_get_first mask _ k hk,
    addFormat_get_second mask _ k hk, hbase _ (by simp), hbase _ (by simp)]
  exact ⟨rfl, rfl⟩

/-- C14 (format-information placement).  For every 15-bit format word `mask` and every
text of length at most 74, in the rendered matrix both modules assigned to bit `k` of
the word (`k = 0` the least significant) are dark iff the bit is `1` and light
otherwise, the first copy at `formatFirst k`, the second at `formatSecond k`; the 30
positions are pairwise distinct, none is on row 6 or column 6 (the timing lines) and
none is the dark module (33, 8). -/
theorem format_information_placement (a a_inv generator mp : Nat → Nat) (mask : Nat)
    (freetext : List Nat) (_htext : IsText freetext) (_hlen : freetext.length ≤ 74)
    (hrow : IsVersion6Row mp) (_hmask : mask < 2 ^ 15) :
    ∃ img, parseMessage a a_inv generator mp mask freetext = some img ∧
      (∀ k < 15,
        img.get (formatFirst k).1 (formatFirst k).2 = (if mask.testBit k then 0 else 255) ∧
          img.get (formatSecond k).1 (formatSecond k).2 =
            (if mask.testBit k then 0 else 255)) ∧
      ((List.range 15).map formatFirst ++ (List.range 15).map formatSecond).Nodup ∧
      ∀ p ∈ (List.range 15).map formatFirst ++ (List.range 15).map formatSecond,
        p.1 ≠ 6 ∧ p.2 ≠ 6 ∧ p ≠ (33, 8) := by
  refine ⟨_, parseMessage_sim a a_inv generator mp mask freetext hrow, ?_,
    format_cells_distinct.1, format_cells_distinct.2⟩
  intro k hk
  have hs := format_cells_static k (List.mem_range.mpr hk)
  rw [function_module_built _ mp mask (formatFirst k) (hs _ (by simp)).2.1,
    function_module_built _ mp mask (formatSecond k) (hs _ (by simp)).2.1]
  exact buildImage_format mp mask hrow k hk

theorem format_information_placement_witness :
    IsText [72, 73] ∧ [72, 73].length ≤ 74 ∧ IsVersion6Row (ofList [24, 4, 19, 0, 0, 7, 34]) ∧
      0b010111011011010 < 2 ^ 15 ∧
      ∃ img, parseMessage alphaPow alphaLog (ofList []) (ofList [24, 4, 19, 0, 0, 7, 34])
          0b010111011011010 [72, 73] = some img ∧
        (∀ k < 15,
          img.get (formatFirst k).1 (formatFirst k).2 =
              (if Nat.testBit 0b010111011011010 k then 0 else 255) ∧
            img.get (formatSecond k).1 (formatSecond k).2 =
              (if Nat.testBit 0b010111011011010 k then 0 else 255)) ∧
        ((List.range 15).map formatFirst ++ (List.range 15).map formatSecond).Nodup ∧
        ∀ p ∈ (List.range 15).map formatFirst ++ (List.range 15).map formatSecond,
          p.1 ≠ 6 ∧ p.2 ≠ 6 ∧ p ≠ (33, 8) :=
  ⟨by decide, by decide, by decide, by decide,
    format_information_placement alphaPow alphaLog (ofList [])
      (ofList [24, 4, 19, 0, 0, 7, 34]) 0b010111011011010 [72, 73] (by decide) (by decide)
      (by decide) (by decide)⟩

end TinyQR

namespace TinyQR

/-! ## Alignment pattern, timing lines, separators and dark module -/

theorem addAlignments_congr (mp mp' : Nat → Nat) (h : ∀ i < 7, center mp i = center mp' i)
    (img : Image) : addAlignments mp img = addAlignments mp' img := by
  unfold addAlignments
  apply forLoop_congr
  intro i _ hi img1
  apply forLoop_congr
  intro j _ hj img2
  rw [h i hi, h j hj]

theorem center_version6 (mp : Nat → Nat) (h : IsVersion6Row mp) :
    ∀ i < 7, center mp i = center (ofList [0, 0, 0, 0, 0, 7, 34]) i := by
  obtain ⟨_, h6, h7, h8, h9, h10, h11⟩ := h
  intro i hi
  unfold center
  interval_cases i
  · rfl
  · simp [h6, ofList]
  · simp [h7, ofList]
  · simp [h8, ofList]
  · simp [h9, ofList]
  · simp [h10, ofList]
  · simp [h11, ofList]

set_option maxRecDepth 1000000 in
theorem alignment_stores_static :
    (addAlignments (ofList [0, 0, 0, 0, 0, 7, 34]) (addFinders blankImage)).stores =
      (addAlignment 34 34 (addFinders blankImage)).stores := by
  decide!

set_option maxRecDepth 1000000 in
theorem finder_corners_static :
    (addFinders blankImage).get 6 6 = 0 ∧ (addFinders blankImage).get 6 34 = 0 ∧
      (addFinders blankImage).get 34 6 = 0 ∧ (addFinders blankImage).get 34 34 = 255 := by
  decide!

/-- Only the centre combination (34, 34) is stamped. -/
theorem addAlignments_version6 (mp : Nat → Nat) (h : IsVersion6Row mp) :
    addAlignments mp (addFinders blankImage) = addAlignment 34 34 (addFinders blankImage) := by
  rw [addAlignments_congr mp _ (center_version6 mp h)]
  exact congrArg Image.mk alignment_stores_static

set_option maxRecDepth 1000000 in
theorem alignment_cells_static :
    ∀ i ∈ List.range 5, ∀ j ∈ List.range 5,
      inMatrix (32 + (i : Int), 32 + (j : Int)) = true ∧
        maskHas functionMask (32 + (i : Int), 32 + (j : Int)) = true ∧
        maskHas formatMask (32 + (i : Int), 32 + (j : Int)) = false ∧
        (if maskHas darkMask (32 + (i : Int), 32 + (j : Int)) then 0 else 255) =
          alignmentValue i j := by
  decide!

/-- C15 (alignment patterns).  With alignment centres `{6, 34}` and every text of length
at most 74, the rendered matrix holds the alignment pattern centred at (34, 34): in
rows and columns `32 .. 36` the 16 border modules and the centre are dark, the 8
modules of the inner ring light.  It is the only pattern stamped: the builder's
alignment stage equals the single stamp at (34, 34), the centres (6, 6), (6, 34) and
(34, 6) being dark already, as modules of the finder patterns. -/
theorem alignment_patterns (a a_inv generator mp : Nat → Nat) (mask : Nat)
    (freetext : List Nat) (_htext : IsText freetext) (_hlen : freetext.length ≤ 74)
    (hrow : IsVersion6Row mp) :
    ∃ img, parseMessage a a_inv generator mp mask freetext = some img ∧
      (∀ r c : Int, 0 ≤ r → r ≤ 4 → 0 ≤ c → c ≤ 4 →
        img.get (32 + r) (32 + c) = alignmentValue r c) ∧
      addAlignments mp (addFinders blankImage) = addAlignment 34 34 (addFinders blankImage) ∧
      (addFinders blankImage).get 6 6 = 0 ∧ (addFinders blankImage).get 6 34 = 0 ∧
      (addFinders blankImage).get 34 6 = 0 ∧
      addAlignment 6 6 (addFinders blankImage) = addFinders blankImage ∧
      addAlignment 6 34 (addFinders blankImage) = addFinders blankImage ∧
      addAlignment 34 6 (addFinders blankImage) = addFinders blankImage := by
  obtain ⟨c1, c2, c3, _⟩ := finder_corners_static
  refine ⟨_, parseMessage_sim a a_inv generator mp mask freetext hrow, ?_,
    addAlignments_version6 mp hrow, c1, c2, c3, ?_, ?_, ?_⟩
  · intro r c hr0 hr4 hc0 hc4
    obtain ⟨i, rfl⟩ : ∃ i : Nat, r = (i : Int) := ⟨r.toNat, by omega⟩
    obtain ⟨j, rfl⟩ : ∃ j : Nat, c = (j : Int) := ⟨c.toNat, by omega⟩
    obtain ⟨h1, h2, h3, h4⟩ := alignment_cells_static i (List.mem_range.mpr (by omega)) j
      (List.mem_range.mpr (by omega))
    rw [← h4]
    exact function_module_kept _ mp mask hrow (32 + (i : Int), 32 + (j : Int)) h1 h2 h3
  · unfold addAlignment
    rw [c1]; rfl
  · unfold addAlignment
    rw [c2]; rfl
  · unfold addAlignment
    rw [c3]; rfl

theorem alignment_patterns_witness :
    IsText [72, 73] ∧ [72, 73].length ≤ 74 ∧ IsVersion6Row (ofList [24, 4, 19, 0, 0, 7, 34]) ∧
      ∃ img, parseMessage alphaPow alphaLog (ofList []) (ofList [24, 4, 19, 0, 0, 7, 34])
          0b010111011011010 [72, 73] = some img ∧
        (∀ r c : Int, 0 ≤ r → r ≤ 4 → 0 ≤ c → c ≤ 4 →
          img.get (32 + r) (32 + c) = alignmentValue r c) ∧
        addAlignments (ofList [24, 4, 19, 0, 0, 7, 34]) (addFinders blankImage) =
          addAlignment 34 34 (addFinders blankImage) ∧
        (addFinders blankImage).get 6 6 = 0 ∧ (addFinders blankImage).get 6 34 = 0 ∧
        (addFinders blankImage).get 34 6 = 0 ∧
        addAlignment 6 6 (addFinders blankImage) = addFinders blankImage ∧
        addAlignment 6 34 (addFinders blankImage) = addFinders blankImage ∧
        addAlignment 34 6 (addFinders blankImage) = addFinders blankImage :=
  ⟨by decide, by decide, by decide,
    alignment_patterns alphaPow alphaLog (ofList []) (ofList [24, 4, 19, 0, 0, 7, 34])
      0b010111011011010 [72, 73] (by decide) (by decide) (by decide)⟩

set_option maxRecDepth 1000000 in
theorem timing_cells_static :
    ∀ n ∈ List.range 25, ∀ q ∈ [((6 : Int), 8 + (n : Int)), (8 + (n : Int), (6 : Int))],
      inMatrix q = true ∧ maskHas functionMask q = true ∧ maskHas formatMask q = false ∧
        (if maskHas darkMask q then 0 else 255) = if (8 + (n : Int)) % 2 = 0 then 0 else 255 := by
  decide!

/-- C16 (timing patterns).  For every text of length at most 74, in the rendered
matrix, for every `i` with `8 ≤ i ≤ 32` the modules (6, i) and (i, 6) are dark when `i`
is even and light when it is odd. -/
theorem timing_patterns (a a_inv generator mp : Nat → Nat) (mask : Nat)
    (freetext : List Nat) (_htext : IsText freetext) (_hlen : freetext.length ≤ 74)
    (hrow : IsVersion6Row mp) :
    ∃ img, parseMessage a a_inv generator mp mask freetext = some img ∧
      ∀ i : Int, 8 ≤ i → i ≤ 32 →
        img.get 6 i = (if i % 2 = 0 then 0 else 255) ∧
          img.get i 6 = (if i % 2 = 0 then 0 else 255) := by
  refine ⟨_, parseMessage_sim a a_inv generator mp mask freetext hrow, ?_⟩
  intro i h8 h32
  obtain ⟨n, rfl⟩ : ∃ n : Nat, i = 8 + (n : Int) := ⟨(i - 8).toNat, by omega⟩
  have hs := timing_cells_static n (List.mem_range.mpr (by omega))
  have key : ∀ q ∈ [((6 : Int), 8 + (n : Int)), (8 + (n : Int), (6 : Int))],
      (paint (interleave a a_inv generator mp (formatMessage freetext).message).interleaved_output
        walkPath 0 (buildImage mp mask)).get q.1 q.2 =
        if (8 + (n : Int)) % 2 = 0 then 0 else 255 := by
    intro q hq
    obtain ⟨h1, h2, h3, h4⟩ := hs q hq
    rw [function_module_kept _ mp mask hrow q h1 h2 h3]
    exact h4
  exact ⟨key ((6 : Int), 8 + (n : Int)) (by simp), key (8 + (n : Int), (6 : Int)) (by simp)⟩

theorem timing_patterns_witness :
    IsText [72, 73] ∧ [72, 73].length ≤ 74 ∧ IsVersion6Row (ofList [24, 4, 19, 0, 0, 7, 34]) ∧
      ∃ img, parseMessage alphaPow alphaLog (ofList []) (ofList [24, 4, 19, 0, 0, 7, 34])
          0b010111011011010 [72, 73] = some img ∧
        ∀ i : Int, 8 ≤ i → i ≤ 32 →
          img.get 6 i = (if i % 2 = 0 then 0 else 255) ∧
            img.get i 6 = (if i % 2 = 0 then 0 else 255) :=
  ⟨by decide, by decide, by decide,
    timing_patterns alphaPow alphaLog (ofList []) (ofList [24, 4, 19, 0, 0, 7, 34])
      0b010111011011010 [72, 73] (by decide) (by decide) (by decide)⟩

set_option maxRecDepth 1000000 in
theorem separator_cells_static :
    ∀ j ∈ List.range 8,
      ∀ q ∈ [((7 : Int), (j : Int)), ((j : Int), (7 : Int)), ((7 : Int), 33 + (j : Int)),
          ((j : Int), (33 : Int)), ((33 : Int), (j : Int)), (33 + (j : Int), (7 : Int))],
        inMatrix q = true ∧ maskHas functionMask q = true ∧ maskHas formatMask q = false ∧
          maskHas darkMask q = false := by
  decide!

set_option maxRecDepth 1000000 in
theorem dark_module_static :
    inMatrix (33, 8) = true ∧ maskHas functionMask (33, 8) = true ∧
      maskHas formatMask (33, 8) = false ∧ maskHas darkMask (33, 8) = true := by
  decide!

/-- C17 (dark module and separators).  For every text of length at most 74 and every
format word, in the rendered matrix the module (33, 8) = (4 * 6 + 9, 8) is dark, and
the separator modules are light: row 7 and column 7 next to the top left finder, row 7
and column 33 next to the top right finder, row 33 and column 7 next to the bottom
left finder. -/
theorem dark_module_and_separators (a a_inv generator mp : Nat → Nat) (mask : Nat)
    (freetext : List Nat) (_htext : IsText freetext) (_hlen : freetext.length ≤ 74)
    (hrow : IsVersion6Row mp) :
    ∃ img, parseMessage a a_inv generator mp mask freetext = some img ∧
      img.get (4 * 6 + 9) 8 = 0 ∧
      ∀ j : Int, 0 ≤ j → j ≤ 7 →
        img.get 7 j = 255 ∧ img.get j 7 = 255 ∧ img.get 7 (33 + j) = 255 ∧
          img.get j 33 = 255 ∧ img.get 33 j = 255 ∧ img.get (33 + j) 7 = 255 := by
  refine ⟨_, parseMessage_sim a a_inv generator mp mask freetext hrow, ?_, ?_⟩
  · obtain ⟨h1, h2, h3, h4⟩ := dark_module_static
    have := function_module_kept
      (interleave a a_inv generator mp (formatMessage freetext).message).interleaved_output
      mp mask hrow (33, 8) h1 h2 h3
    rw [h4] at this
    exact this
  · intro j h0 h7
    obtain ⟨n, rfl⟩ : ∃ n : Nat, j = (n : Int) := ⟨j.toNat, by omega⟩
    have hs := separator_cells_static n (List.mem_range.mpr (by omega))
    have key : ∀ q ∈ [((7 : Int), (n : Int)), ((n : Int), (7 : Int)), ((7 : Int), 33 + (n : Int)),
        ((n : Int), (33 : Int)), ((33 : Int), (n : Int)), (33 + (n : Int), (7 : Int))],
        (paint (interleave a a_inv generator mp (formatMessage freetext).message).interleaved_output
          walkPath 0 (buildImage mp mask)).get q.1 q.2 = 255 := by
      intro q hq
      obtain ⟨h1, h2, h3, h4⟩ := hs q hq
      rw [function_module_kept _ mp mask hrow q h1 h2 h3, h4]
      rfl
    exact ⟨key ((7 : Int), (n : Int)) (by simp), key ((n : Int), (7 : Int)) (by simp),
      key ((7 : Int), 33 + (n : Int)) (by simp), key ((n : Int), (33 : Int)) (by simp),
      key ((33 : Int), (n : Int)) (by simp), key (33 + (n : Int), (7 : Int)) (by simp)⟩

theorem dark_module_and_separators_witness :
    IsText [72, 73] ∧ [72, 73].length ≤ 74 ∧ IsVersion6Row (ofList [24, 4, 19, 0, 0, 7, 34]) ∧
      ∃ img, parseMessage alphaPow alphaLog (ofList []) (ofList [24, 4, 19, 0, 0, 7, 34])
          0b010111011011010 [72, 73] = some img ∧
        img.get (4 * 6 + 9) 8 = 0 ∧
        ∀ j : Int, 0 ≤ j → j ≤ 7 →
          img.get 7 j = 255 ∧ img.get j 7 = 255 ∧ img.get 7 (33 + j) = 255 ∧
            img.get j 33 = 255 ∧ img.get 33 j = 255 ∧ img.get (33 + j) 7 = 255 :=
  ⟨by decide, by decide, by decide,
    dark_module_and_separators alphaPow alphaLog (ofList []) (ofList [24, 4, 19, 0, 0, 7, 34])
      0b010111011011010 [72, 73] (by decide) (by decide) (by decide)⟩

end TinyQR

namespace TinyQR

/-! ## The log of the bit steps -/

theorem stepsOf_append (k : Nat) (l₁ l₂ : List (Int × Int)) :
    stepsOf k (l₁ ++ l₂) = stepsOf k l₁ ++ stepsOf (k + l₁.length) l₂ := by
  induction l₁ generalizing k with
  | nil => rfl
  | cons p l ih =>
    rw [List.cons_append, stepsOf, stepsOf, ih, List.cons_append, List.length_cons]
    congr 3
    omega

/-- The codeword a bit step with bit number `k < 1376` fetches. -/
theorem fetch_sim (out : Nat → Nat) (k : Nat) (s : Walk) (hinv : WbInv out k s)
    (hk : k < 1376) :
    s.fetch = if k % 8 = 0 ∧ k < 1376 then some ((k / 8 : Nat) : Int) else none := by
  obtain ⟨hi, h0, h1⟩ := hinv
  unfold Walk.fetch
  by_cases hm : k % 8 = 0
  · have hm' : s.i % 8 = 0 := by rw [hi]; omega
    have hidx : s.interleaved_index + 1 = ((k / 8 : Nat) : Int) := by
      rcases Nat.eq_zero_or_pos k with hz | hpos
      · rw [h0 hz, hz]; rfl
      · rw [(h1 hpos (by omega)).1]; omega
    rw [if_pos hm', if_pos ⟨hm, hk⟩, hidx]
  · have hm' : ¬ s.i % 8 = 0 := by rw [hi]; omega
    rw [if_neg hm', if_neg (fun h => hm h.1)]

theorem placeBit_log (out : Nat → Nat) (k : Nat) (s : Walk) (log : List BitStep)
    (hinv : WbInv out k s) (hk : k < 1376) (s1 : Walk) (h : s.placeBit out = some s1) :
    Logged.placeBit out ⟨s, log⟩ = some ⟨s1, log ++ stepsOf k [(s.y, s.x)]⟩ := by
  unfold Logged.placeBit
  simp only []
  rw [h, fetch_sim out k s hinv hk]
  rfl

theorem place_log (out : Nat → Nat) (k : Nat) (s : Walk) (log : List BitStep)
    (hinv : WbInv out k s) (s1 : Walk) (h : s.place out = some s1) :
    Logged.place out ⟨s, log⟩ = some ⟨s1, log ++ stepsOf k [(s.y, s.x)]⟩ := by
  unfold Logged.place
  simp only []
  rw [h]
  by_cases hk : k < 1376
  · have hlt : s.i < primary_bits := by
      rw [hinv.1]; unfold primary_bits; omega
    rw [if_pos hlt, fetch_sim out k s hinv hk]
    rfl
  · have hlt : ¬ s.i < primary_bits := by
      rw [hinv.1]; unfold primary_bits; omega
    rw [if_neg hlt]
    simp only [stepsOf]
    rw [if_neg (fun h => hk h.2)]

/-- Lines 305-314, logged. -/
theorem edge_log (out : Nat → Nat) (n : Nat) (c : Ctrl) (s : Walk) (k : Nat)
    (log : List BitStep) (hc : s.ctrl = c) (hinv : WbInv out k s) (hk : k + n ≤ 1376)
    (hin : ∀ p ∈ (Ctrl.edge n c).2, inMatrix p = true) (s' : Walk)
    (h : Walk.edgeLoop out n s = some s') :
    Logged.edgeLoop out n ⟨s, log⟩ = some ⟨s', log ++ stepsOf k (Ctrl.edge n c).2⟩ := by
  induction n generalizing c s k log with
  | zero =>
    unfold Walk.edgeLoop at h
    cases h
    simp [Logged.edgeLoop, Ctrl.edge, stepsOf]
  | succ n ih =>
    have hy : s.y = c.y := by rw [← hc]; rfl
    have hx : s.x = c.x := by rw [← hc]; rfl
    have hd : s.dir = c.dir := by rw [← hc]; rfl
    have hi : s.i = c.i := by rw [← hc]; rfl
    unfold Walk.edgeLoop at h
    unfold Logged.edgeLoop
    simp only []
    by_cases h6 : c.y ≠ 6
    · have h6' : s.y ≠ 6 := by rw [hy]; exact h6
      have hedge : Ctrl.edge (n + 1) c =
          ((Ctrl.edge n { c with i := c.i + 1, y := c.y + c.dir }).1,
            (c.y, c.x) :: (Ctrl.edge n { c with i := c.i + 1, y := c.y + c.dir }).2) := by
        rw [Ctrl.edge, if_pos h6]
      rw [hedge] at hin ⊢
      have hin0 : inMatrix (s.y, s.x) = true := by
        rw [hy, hx]; exact hin _ (List.mem_cons_self _ _)
      obtain ⟨s1, e1, g1, g2, g3, g4, g5, g6, g7⟩ := placeBit_sim out k s hinv (by omega) hin0
      rw [if_pos h6', e1] at h
      simp only [] at h
      rw [if_pos h6', placeBit_log out k s log hinv (by omega) s1 e1]
      simp only []
      rw [ih { c with i := c.i + 1, y := c.y + c.dir }
        { s1 with i := s1.i + 1, y := s1.y + s1.dir } (k + 1) _
        (by simp only [Walk.ctrl, g2, g3, g4, g5, hy, hx, hd, hi])
        (WbInv_after_fetch out k _ (by simp only [g5, hinv.1]; omega) g6 g7)
        (by omega) (fun p hp => hin p (List.mem_cons_of_mem _ hp)) h]
      simp only [stepsOf, List.append_assoc, List.singleton_append, List.nil_append, hy, hx]
    · have h6' : ¬ s.y ≠ 6 := by rw [hy]; exact h6
      have hedge : Ctrl.edge (n + 1) c = Ctrl.edge n { c with y := c.y + c.dir } := by
        rw [Ctrl.edge, if_neg h6]
      rw [hedge] at hin ⊢
      rw [if_neg h6'] at h
      rw [if_neg h6']
      exact ih { c with y := c.y + c.dir } { s with y := s.y + s.dir } k log
        (by simp only [Walk.ctrl, hy, hx, hd, hi]) ⟨hinv.1, hinv.2.1, hinv.2.2⟩ (by omega) hin h

/-- Lines 300-317, logged. -/
theorem alignment_log (out : Nat → Nat) (dark : Nat) (c : Ctrl) (s : Walk) (k : Nat)
    (log : List BitStep) (hc : s.ctrl = c) (hinv : WbInv out k s)
    (hin0 : inMatrix (c.y, c.x) = true)
    (hget0 : s.image.get c.y c.x = if maskHas dark (c.y, c.x) then 0 else 255)
    (hleft : maskHas dark (c.y, c.x) = true →
      inMatrix (c.y, c.x - 1) = true ∧
        s.image.get c.y (c.x - 1) = if maskHas dark (c.y, c.x - 1) then 0 else 255)
    (hedge : maskHas dark (c.y, c.x) = true → maskHas dark (c.y, c.x - 1) = false →
      k + 5 ≤ 1376)
    (hin : ∀ p ∈ (Ctrl.align dark c).2, inMatrix p = true) (s' : Walk)
    (h : s.alignment out = some s') :
    Logged.alignment out ⟨s, log⟩ = some ⟨s', log ++ stepsOf k (Ctrl.align dark c).2⟩ := by
  have hy : s.y = c.y := by rw [← hc]; rfl
  have hx : s.x = c.x := by rw [← hc]; rfl
  have hd : s.dir = c.dir := by rw [← hc]; rfl
  have hi : s.i = c.i := by rw [← hc]; rfl
  unfold Walk.alignment at h
  unfold Logged.alignment
  simp only []
  rw [hy, hx, inMatrix_load _ _ _ hin0] at h ⊢
  simp only [] at h ⊢
  by_cases h0 : maskHas dark (c.y, c.x) = true
  · obtain ⟨hin1, hget1⟩ := hleft h0
    rw [hget0, if_pos h0, if_pos rfl, inMatrix_load _ _ _ hin1] at h ⊢
    simp only [] at h ⊢
    by_cases h1 : maskHas dark (c.y, c.x - 1) = true
    · have hal : Ctrl.align dark c = ({ c with y := c.y + c.dir * 5 }, []) := by
        rw [Ctrl.align, if_pos h0, if_pos h1]
      rw [hget1, if_pos h1, if_pos rfl] at h ⊢
      rw [hal]
      cases h
      simp [stepsOf, hy]
    · have h1' : maskHas dark (c.y, c.x - 1) = false := by
        cases h : maskHas dark (c.y, c.x - 1)
        · rfl
        · exact absurd h h1
      have hal : Ctrl.align dark c =
          ({ (Ctrl.edge 5 { c with x := c.x - 1 }).1 with
              x := (Ctrl.edge 5 { c with x := c.x - 1 }).1.x + 1 },
            (Ctrl.edge 5 { c with x := c.x - 1 }).2) := by
        rw [Ctrl.align, if_pos h0, if_neg h1]
      rw [hal] at hin ⊢
      rw [hget1, if_neg h1, if_neg (by decide)] at h ⊢
      obtain ⟨s1, e1, _⟩ := edge_sim out 5 { c with x := c.x - 1 }
        { s with y := c.y, x := c.x - 1 } k (by simp only [Walk.ctrl, hd, hi])
        ⟨hinv.1, hinv.2.1, hinv.2.2⟩ (hedge h0 h1') hin
      have hl := edge_log out 5 { c with x := c.x - 1 }
        { s with y := c.y, x := c.x - 1 } k log (by simp only [Walk.ctrl, hd, hi])
        ⟨hinv.1, hinv.2.1, hinv.2.2⟩ (hedge h0 h1') hin s1 e1
      rw [e1] at h
      simp only [] at h
      cases h
      rw [hl]
  · have hal : Ctrl.align dark c = (c, []) := by
      rw [Ctrl.align, if_neg h0]
    rw [hget0, if_neg h0, if_neg (by decide)] at h ⊢
    rw [hal]
    cases h
    simp [stepsOf]

end TinyQR

namespace TinyQR

/-- One iteration of the data-fill loop, logged. -/
theorem step_log (out : Nat → Nat) (dark : Nat) (c : Ctrl) (s : Walk) (k : Nat)
    (log : List BitStep) (hc : s.ctrl = c) (hinv : WbInv out k s)
    (hin0 : inMatrix (c.y, c.x) = true)
    (hget0 : s.image.get c.y c.x = if maskHas dark (c.y, c.x) then 0 else 255)
    (hleft : maskHas dark (c.y, c.x) = true →
      inMatrix (c.y, c.x - 1) = true ∧
        s.image.get c.y (c.x - 1) = if maskHas dark (c.y, c.x - 1) then 0 else 255)
    (hedge : maskHas dark (c.y, c.x) = true → maskHas dark (c.y, c.x - 1) = false →
      k + 5 ≤ 1376)
    (hin : ∀ p ∈ (Ctrl.step dark c).2, inMatrix p = true) (s' : Walk)
    (h : s.step out = some s') :
    Logged.step out ⟨s, log⟩ = some ⟨s', log ++ stepsOf k (Ctrl.step dark c).2⟩ := by
  have hstep : (Ctrl.step dark c).2 =
      (Ctrl.align dark c).2 ++ [((Ctrl.align dark c).1.y, (Ctrl.align dark c).1.x),
        ((Ctrl.align dark c).1.y, (Ctrl.align dark c).1.x - 1)] := rfl
  rw [hstep] at hin ⊢
  have hinAl : ∀ p ∈ (Ctrl.align dark c).2, inMatrix p = true :=
    fun p hp => hin p (List.mem_append_left _ hp)
  obtain ⟨s1, e1, f1, f2, f3⟩ := alignment_sim out dark c s k hc hinv hin0 hget0 hleft hedge
    hinAl
  have l1 := alignment_log out dark c s k log hc hinv hin0 hget0 hleft hedge hinAl s1 e1
  generalize Ctrl.align dark c = r at hin f1 f2 f3 l1 ⊢
  have g1 : s1.y = r.1.y := by rw [← f2]; rfl
  have g2 : s1.x = r.1.x := by rw [← f2]; rfl
  have hinA : inMatrix (s1.y, s1.x) = true := by
    rw [g1, g2]; exact hin _ (List.mem_append_right _ (List.mem_cons_self _ _))
  obtain ⟨s2, e2, a1, a2, a3, a4, a5, a6⟩ := place_sim out (k + r.2.length) s1 f3 hinA
  have l2 := place_log out (k + r.2.length) s1 (log ++ stepsOf k r.2) f3 s2 e2
  have hinB : inMatrix (s2.y, s2.x - 1) = true := by
    rw [a2, a3, g1, g2]
    exact hin _ (List.mem_append_right _ (List.mem_cons_of_mem _ (List.mem_cons_self _ _)))
  obtain ⟨s3, e3, _⟩ := place_sim out (k + r.2.length + 1)
    { s2 with i := s2.i + 1, x := s2.x - 1 } (a6 _ rfl rfl rfl) hinB
  have l3 := place_log out (k + r.2.length + 1) { s2 with i := s2.i + 1, x := s2.x - 1 }
    (log ++ stepsOf k r.2 ++ stepsOf (k + r.2.length) [(s1.y, s1.x)]) (a6 _ rfl rfl rfl) s3 e3
  unfold Walk.step at h
  rw [e1] at h
  simp only [] at h
  rw [e2] at h
  simp only [] at h
  rw [e3] at h
  simp only [] at h
  cases h
  unfold Logged.step
  rw [l1]
  simp only []
  rw [l2]
  simp only []
  rw [l3]
  simp only [stepsOf_append, stepsOf, List.append_assoc, List.singleton_append, List.nil_append,
    List.length_cons, List.length_nil, a2, a3, g1, g2, Option.some.injEq, Logged.mk.injEq,
    true_and, List.append_cancel_left_eq, List.cons.injEq, and_true]

/-- The data fill, logged: under the hypotheses of `run_sim` the bit steps are those that
visit the computed path in order. -/
theorem run_log (out : Nat → Nat) (dark format : Nat) (B : Image) (remainder_bits : Int)
    (hB : ∀ p, inMatrix p = true → maskHas format p = false →
      B.get p.1 p.2 = if maskHas dark p then 0 else 255)
    (P : List (Int × Int)) (hnd : P.Nodup)
    (hP : ∀ p ∈ P, inMatrix p = true ∧ maskHas dark p = false)
    (fuel : Nat) (c : Ctrl) (acc : List (Int × Int)) (s : Walk)
    (hc : s.ctrl = c) (hinv : WbInv out acc.length s)
    (himg : s.image = paint out acc.reverse 0 B)
    (hrun : Ctrl.run dark format (primary_bits + remainder_bits) fuel c acc = some P)
    (s' : Walk) (h : Walk.run out remainder_bits fuel s = some s') :
    Logged.run out remainder_bits fuel ⟨s, stepsOf 0 acc.reverse⟩ = some ⟨s', stepsOf 0 P⟩ := by
  induction fuel generalizing c acc s with
  | zero =>
    have hi : s.i = c.i := by rw [← hc]; rfl
    unfold Ctrl.run at hrun
    unfold Walk.run at h
    unfold Logged.run
    simp only []
    split_ifs at hrun with hlt
    have hP' : P = acc.reverse := (Option.some.inj hrun).symm
    rw [if_neg (by rw [hi]; exact hlt)] at h ⊢
    cases h
    rw [hP']
  | succ fuel ih =>
    have hi : s.i = c.i := by rw [← hc]; rfl
    unfold Ctrl.run at hrun
    unfold Walk.run at h
    unfold Logged.run
    simp only []
    split_ifs at hrun with hlt hok
    · rw [if_pos (by rw [hi]; exact hlt)] at h ⊢
      obtain ⟨rest, hrest⟩ := run_prefix _ _ _ _ _ _ _ hrun
      rw [List.reverse_append, List.reverse_reverse, List.append_assoc] at hrest
      have hvsP : ∀ p ∈ (Ctrl.step dark c).2, p ∈ P := fun p hp => by
        rw [hrest]
        exact List.mem_append_right _ (List.mem_append_left _ hp)
      have haccP : ∀ p ∈ acc.reverse, p ∈ P := fun p hp => by
        rw [hrest]; exact List.mem_append_left _ hp
      have hfresh : ∀ p ∈ (Ctrl.step dark c).2, p ∉ acc.reverse := fun p hp =>
        not_mem_prefix acc.reverse ((Ctrl.step dark c).2 ++ rest) (by rw [← hrest]; exact hnd)
          p (List.mem_append_left _ hp)
      have hload : ∀ p : Int × Int, inMatrix p = true → maskHas format p = false →
          (maskHas dark p = false → p ∈ (Ctrl.step dark c).2) →
          s.image.get p.1 p.2 = if maskHas dark p then 0 else 255 := by
        intro p hp1 hp2 hp3
        have hnot : p ∉ acc.reverse := by
          cases hd : maskHas dark p
          · exact hfresh p (hp3 hd)
          · intro hmem
            have := (hP p (haccP p hmem)).2
            rw [hd] at this
            cases this
        rw [himg, paint_get_not_mem _ _ _ _ _ hnot]
        exact hB p hp1 hp2
      simp only [Ctrl.stepOk, Bool.and_eq_true, Bool.or_eq_true, Bool.not_eq_true',
        decide_eq_true_eq] at hok
      obtain ⟨⟨hin0, hf0⟩, hrestOk⟩ := hok
      have hget0 := hload (c.y, c.x) hin0 hf0 (step_visits_light dark c)
      have hleft : maskHas dark (c.y, c.x) = true →
          inMatrix (c.y, c.x - 1) = true ∧
            s.image.get c.y (c.x - 1) = if maskHas dark (c.y, c.x - 1) then 0 else 255 := by
        intro h0
        rcases hrestOk with h | ⟨⟨hin1, hf1⟩, h2⟩
        · rw [h0] at h; cases h
        · refine ⟨hin1, hload (c.y, c.x - 1) hin1 hf1 (fun h1 => ?_)⟩
          rcases h2 with h2 | ⟨h6, _⟩
          · rw [h1] at h2; cases h2
          · exact step_visits_edge dark c h0 h1 h6
      have hedge : maskHas dark (c.y, c.x) = true → maskHas dark (c.y, c.x - 1) = false →
          acc.length + 5 ≤ 1376 := by
        intro h0 h1
        have hik : c.i = (acc.length : Int) := by rw [← hi]; exact hinv.1
        rcases hrestOk with h | ⟨_, h2⟩
        · rw [h0] at h; cases h
        · rcases h2 with h2 | ⟨_, h5⟩
          · rw [h1] at h2; cases h2
          · unfold primary_bits at h5
            omega
      have hinS : ∀ p ∈ (Ctrl.step dark c).2, inMatrix p = true :=
        fun p hp => (hP p (hvsP p hp)).1
      obtain ⟨s1, e1, f1, f2, f3⟩ := step_sim out dark c s acc.length hc hinv hin0 hget0 hleft
        hedge hinS
      have l1 := step_log out dark c s acc.length (stepsOf 0 acc.reverse) hc hinv hin0 hget0
        hleft hedge hinS s1 e1
      rw [e1] at h
      simp only [] at h
      rw [l1]
      simp only []
      have hlog : stepsOf 0 acc.reverse ++ stepsOf acc.length (Ctrl.step dark c).2 =
          stepsOf 0 ((Ctrl.step dark c).2.reverse ++ acc).reverse := by
        rw [List.reverse_append, List.reverse_reverse, stepsOf_append, Nat.zero_add,
          List.length_reverse]
      rw [hlog]
      apply ih (Ctrl.step dark c).1 ((Ctrl.step dark c).2.reverse ++ acc) s1 f2
      · have : ((Ctrl.step dark c).2.reverse ++ acc).length =
            acc.length + (Ctrl.step dark c).2.length := by
          simp; omega
        rw [this]; exact f3
      · rw [f1, himg, List.reverse_append, List.reverse_reverse, paint_append, Nat.zero_add,
          List.length_reverse]
      · exact hrun
      · exact h
    · have hP' : P = acc.reverse := (Option.some.inj hrun).symm
      rw [if_neg (by rw [hi]; exact hlt)] at h ⊢
      cases h
      rw [hP']

end TinyQR

namespace TinyQR

/-! ## The path of the data fill and the reference enumeration -/

theorem maskHas_foldl_mem (l : List (Int × Int)) (hl : ∀ q ∈ l, inMatrix q = true) (m : Nat)
    (p : Int × Int) (hp : inMatrix p = true) (h : maskHas (l.foldl maskAdd m) p = true) :
    maskHas m p = true ∨ p ∈ l := by
  induction l generalizing m with
  | nil => exact Or.inl h
  | cons q l ih =>
    rw [List.foldl_cons] at h
    rcases ih (fun r hr => hl r (List.mem_cons_of_mem _ hr)) _ h with h1 | h1
    · by_cases hq : p = q
      · exact Or.inr (by rw [hq]; exact List.mem_cons_self _ _)
      · rw [maskHas_maskAdd_of_ne m q p (hl q (List.mem_cons_self _ _)) hp hq] at h1
        exact Or.inl h1
    · exact Or.inr (List.mem_cons_of_mem _ h1)

set_option maxRecDepth 1000000 in
theorem functionCells_inMatrix : ∀ q ∈ functionCells, inMatrix q = true := by
  decide!

set_option maxRecDepth 1000000 in
theorem mask_cover_static : functionMask ||| walkPath.foldl maskAdd 0 = 2 ^ 1681 - 1 := by
  decide!

set_option maxRecDepth 1000000 in
theorem walkPath_eq_zigzag : walkPath = zigzag := by
  decide!

/-- A module of the matrix is a function module or a module of the path. -/
theorem function_or_path (p : Int × Int) (hp : inMatrix p = true) :
    p ∈ functionCells ∨ p ∈ walkPath := by
  have hcode : cellCode p < 1681 := by
    rw [inMatrix_iff] at hp
    unfold cellCode
    omega
  have h : maskHas (functionMask ||| walkPath.foldl maskAdd 0) p = true := by
    rw [mask_cover_static]
    unfold maskHas
    rw [Nat.testBit_two_pow_sub_one]
    exact decide_eq_true hcode
  unfold maskHas at h
  rw [Nat.testBit_or, Bool.or_eq_true] at h
  rcases h with h | h
  · rcases maskHas_foldl_mem functionCells functionCells_inMatrix 0 p hp h with h0 | h0
    · rw [maskHas_zero] at h0; cases h0
    · exact Or.inl h0
  · rcases maskHas_foldl_mem walkPath (fun q hq => (walkPath_spec.2 q hq).1) 0 p hp h with h0 | h0
    · rw [maskHas_zero] at h0; cases h0
    · exact Or.inr h0

/-- The path is made of the modules of the matrix that are not function modules. -/
theorem mem_walkPath_iff (p : Int × Int) :
    p ∈ walkPath ↔ inMatrix p = true ∧ p ∉ functionCells := by
  constructor
  · intro h
    obtain ⟨h1, h2⟩ := walkPath_spec.2 p h
    refine ⟨h1, fun hf => ?_⟩
    rw [functionCells_mask p hf] at h2
    cases h2
  · rintro ⟨h1, h2⟩
    rcases function_or_path p h1 with h | h
    · exact absurd h h2
    · exact h

theorem stepsOf_cells (k : Nat) (l : List (Int × Int)) :
    (stepsOf k l).map (fun e => (e.y, e.x)) = l := by
  induction l generalizing k with
  | nil => rfl
  | cons p l ih => rw [stepsOf, List.map_cons, ih]

theorem stepsOf_length (k : Nat) (l : List (Int × Int)) : (stepsOf k l).length = l.length := by
  induction l generalizing k with
  | nil => rfl
  | cons p l ih => rw [stepsOf, List.length_cons, ih, List.length_cons]

set_option maxRecDepth 1000000 in
theorem fetches_static :
    (stepsOf 0 walkPath).filterMap (fun e => e.fetch) =
      (List.range 172).map (fun n => (n : Int)) := by
  decide!

/-- What the walk stores, it stores to a module it visits. -/
theorem paint_stores_split (out : Nat → Nat) (path : List (Int × Int)) (k : Nat) (img : Image) :
    ∃ new, (paint out path k img).stores = new ++ img.stores ∧ ∀ e ∈ new, e.1 ∈ path := by
  induction path generalizing k img with
  | nil => exact ⟨[], rfl, fun e he => by cases he⟩
  | cons p path ih =>
    have hcell : ∃ new, (paintCell out k p img).stores = new ++ img.stores ∧
        ∀ e ∈ new, e.1 = p := by
      unfold paintCell
      simp only []
      by_cases hb : streamBit out k = true <;> by_cases hm : p.1 % 2 = 0
      · rw [if_pos hb, if_pos hm]
        exact ⟨[(p, _), (p, 0)], rfl, fun e he => by
          rcases List.mem_cons.mp he with rfl | he
          · rfl
          · rw [List.mem_singleton.mp he]⟩
      · rw [if_pos hb, if_neg hm]
        exact ⟨[(p, 0)], rfl, fun e he => by rw [List.mem_singleton.mp he]⟩
      · rw [if_neg hb, if_pos hm]
        exact ⟨[(p, _)], rfl, fun e he => by rw [List.mem_singleton.mp he]⟩
      · rw [if_neg hb, if_neg hm]
        exact ⟨[], rfl, fun e he => by cases he⟩
    obtain ⟨n1, e1, h1⟩ := hcell
    obtain ⟨n2, e2, h2⟩ := ih (k + 1) (paintCell out k p img)
    refine ⟨n2 ++ n1, ?_, ?_⟩
    · rw [paint, e2, e1, List.append_assoc]
    · intro e he
      rcases List.mem_append.mp he with h | h
      · exact List.mem_cons_of_mem _ (h2 e h)
      · rw [h1 e h]; exact List.mem_cons_self _ _

/-- The logged data fill of the hard-wired configuration: it makes the bit steps that
visit `walkPath` in order, and ends in the state the data fill ends in. -/
theorem dataFillLog_sim (out mp : Nat → Nat) (mask : Nat) (hrow : IsVersion6Row mp) :
    ∃ s, dataFill out (mp 5) (buildImage mp mask) = some s ∧
      dataFillLog out (mp 5) (buildImage mp mask) = some ⟨s, stepsOf 0 walkPath⟩ ∧
      s.image = paint out walkPath 0 (buildImage mp mask) ∧ s.i = 1383 := by
  obtain ⟨s, e, f1, f2⟩ := dataFill_sim out mp mask hrow
  have h5 : mp 5 = 7 := hrow.1
  have hrun : Ctrl.run darkMask formatMask (primary_bits + ((7 : Nat) : Int)) 1383
      ⟨40, 40, -1, 0⟩ [] = some walkPath := walkPath_run
  have e' := e
  unfold dataFill at e'
  rw [h5] at e'
  have hl := run_log out darkMask formatMask (buildImage mp mask)
    ((7 : Nat) : Int) (buildImage_get mp mask hrow) walkPath walkPath_spec.1
    (fun p hp => ⟨(walkPath_spec.2 p hp).1, not_dark_of_not_function p (walkPath_spec.2 p hp).2⟩)
    1383 ⟨40, 40, -1, 0⟩ []
    { image := buildImage mp mask, y := max_pixels - 1, x := max_pixels - 1, dir := -1, i := 0,
      working_byte := 0, interleaved_index := -1 }
    rfl ⟨rfl, fun _ => rfl, fun h => by simp at h⟩ rfl hrun s e'
  refine ⟨s, e, ?_, f1, f2⟩
  unfold dataFillLog
  rw [h5]
  exact hl

end TinyQR

namespace TinyQR

set_option maxRecDepth 1000000 in
theorem walkPath_head : walkPath.head? = some (40, 40) := by
  decide!

/-- C12 (placement path).  In the hard-wired configuration (41 x 41, alignment centres
`{6, 34}`, 1376 + 7 bit steps), for every interleaved stream, the modules of the bit
steps of the data fill are, in order, the reference zigzag enumeration `zigzag` of the
non-function modules (two-column strips from the right edge leftwards, column 6
skipped, alternately upwards and downwards starting upwards at (40, 40), right module
before left module, function modules left out).  The enumeration has 1383 modules
without repetition, exactly the modules of the matrix that are not function modules;
and what the walk stores in the matrix it stores to those modules, never to a finder,
separator, timing, alignment, format or dark module. -/
theorem placement_path (interleaved_output mp : Nat → Nat) (mask : Nat)
    (hrow : IsVersion6Row mp) :
    ∃ t, dataFillLog interleaved_output (mp 5) (buildImage mp mask) = some t ∧
      t.log.map (fun e => (e.y, e.x)) = zigzag ∧
      zigzag.length = 1383 ∧ zigzag.Nodup ∧ zigzag.head? = some (40, 40) ∧
      (∀ p, p ∈ zigzag ↔ inMatrix p = true ∧ p ∉ functionCells) ∧
      ∃ new, t.walk.image.stores = new ++ (buildImage mp mask).stores ∧
        ∀ e ∈ new, e.1 ∈ zigzag ∧ e.1 ∉ functionCells := by
  obtain ⟨s, _, e, f1, _⟩ := dataFillLog_sim interleaved_output mp mask hrow
  obtain ⟨new, hn1, hn2⟩ := paint_stores_split interleaved_output walkPath 0 (buildImage mp mask)
  have hhead : walkPath.head? = some (40, 40) := walkPath_head
  refine ⟨⟨s, stepsOf 0 walkPath⟩, e, ?_, ?_, ?_, ?_, ?_, new, ?_, ?_⟩
  · dsimp only
    rw [stepsOf_cells]
    exact walkPath_eq_zigzag
  · rw [← walkPath_eq_zigzag]; exact walkPath_length
  · rw [← walkPath_eq_zigzag]; exact walkPath_spec.1
  · rw [← walkPath_eq_zigzag]; exact hhead
  · intro p
    rw [← walkPath_eq_zigzag]
    exact mem_walkPath_iff p
  · dsimp only
    rw [f1]
    exact hn1
  · intro e he
    rw [← walkPath_eq_zigzag]
    exact ⟨hn2 e he, ((mem_walkPath_iff e.1).mp (hn2 e he)).2⟩

theorem placement_path_witness :
    IsVersion6Row (ofList [24, 4, 19, 0, 0, 7, 34]) ∧
      ∃ t, dataFillLog (ofList [0x40, 0x21]) (ofList [24, 4, 19, 0, 0, 7, 34] 5)
          (buildImage (ofList [24, 4, 19, 0, 0, 7, 34]) 0b010111011011010) = some t ∧
        t.log.map (fun e => (e.y, e.x)) = zigzag ∧
        zigzag.length = 1383 ∧ zigzag.Nodup ∧ zigzag.head? = some (40, 40) ∧
        (∀ p, p ∈ zigzag ↔ inMatrix p = true ∧ p ∉ functionCells) ∧
        ∃ new, t.walk.image.stores =
              new ++ (buildImage (ofList [24, 4, 19, 0, 0, 7, 34]) 0b010111011011010).stores ∧
          ∀ e ∈ new, e.1 ∈ zigzag ∧ e.1 ∉ functionCells :=
  ⟨by decide,
    placement_path (ofList [0x40, 0x21]) (ofList [24, 4, 19, 0, 0, 7, 34]) 0b010111011011010
      (by decide)⟩

/-- C13 (walk budget and bounds).  In the hard-wired configuration (`max_pixels = 41`,
`primary_bits = 1376`, 7 remainder bits, alignment centres `{6, 34}`), for every
interleaved stream, the data-fill loop returns (no access `image[y][x]` or
`image[y][x-1]` leaves the 41 x 41 matrix, the model checking each one) after exactly
1383 bit steps, with `i = 1383`; every bit step is at a module with `0 ≤ y, x < 41`; and
the indices read from `interleaved_output` are `0, 1, ..., 171`, each once, in order. -/
theorem walk_budget_and_bounds (interleaved_output mp : Nat → Nat) (mask : Nat)
    (hrow : IsVersion6Row mp) :
    ∃ t, dataFillLog interleaved_output (mp 5) (buildImage mp mask) = some t ∧
      dataFill interleaved_output (mp 5) (buildImage mp mask) = some t.walk ∧
      max_pixels = 41 ∧ primary_bits = 1376 ∧
      t.log.length = 1383 ∧ t.walk.i = 1383 ∧
      ¬ t.walk.i < primary_bits + ((mp 5 : Nat) : Int) ∧
      (∀ e ∈ t.log, 0 ≤ e.y ∧ e.y < 41 ∧ 0 ≤ e.x ∧ e.x < 41) ∧
      t.log.filterMap (fun e => e.fetch) = (List.range 172).map (fun n => (n : Int)) := by
  obtain ⟨s, e0, e, _, f2⟩ := dataFillLog_sim interleaved_output mp mask hrow
  refine ⟨⟨s, stepsOf 0 walkPath⟩, e, e0, rfl, rfl, ?_, f2, ?_, ?_, ?_⟩
  · dsimp only
    rw [stepsOf_length, walkPath_length]
  · dsimp only
    rw [f2, hrow.1]
    unfold primary_bits
    omega
  · dsimp only
    intro b hb
    have hmem : (b.y, b.x) ∈ walkPath := by
      have h := List.mem_map_of_mem (fun e : BitStep => (e.y, e.x)) hb
      rw [stepsOf_cells] at h
      exact h
    have := (inMatrix_iff (b.y, b.x)).mp (walkPath_spec.2 _ hmem).1
    exact this
  · dsimp only
    exact fetches_static

theorem walk_budget_and_bounds_witness :
    IsVersion6Row (ofList [24, 4, 19, 0, 0, 7, 34]) ∧
      ∃ t, dataFillLog (ofList [0x40, 0x21]) (ofList [24, 4, 19, 0, 0, 7, 34] 5)
          (buildImage (ofList [24, 4, 19, 0, 0, 7, 34]) 0b010111011011010) = some t ∧
        dataFill (ofList [0x40, 0x21]) (ofList [24, 4, 19, 0, 0, 7, 34] 5)
          (buildImage (ofList [24, 4, 19, 0, 0, 7, 34]) 0b010111011011010) = some t.walk ∧
        max_pixels = 41 ∧ primary_bits = 1376 ∧
        t.log.length = 1383 ∧ t.walk.i = 1383 ∧
        ¬ t.walk.i < primary_bits + ((ofList [24, 4, 19, 0, 0, 7, 34] 5 : Nat) : Int) ∧
        (∀ e ∈ t.log, 0 ≤ e.y ∧ e.y < 41 ∧ 0 ≤ e.x ∧ e.x < 41) ∧
        t.log.filterMap (fun e => e.fetch) = (List.range 172).map (fun n => (n : Int)) :=
  ⟨by decide,
    walk_budget_and_bounds (ofList [0x40, 0x21]) (ofList [24, 4, 19, 0, 0, 7, 34])
      0b010111011011010 (by decide)⟩

end TinyQR
